import Mathlib

/-!
# Foam::face — splitting, circular comparison and collapsing

A shallow embedding of `src/OpenFOAM/meshes/meshShapes/face/face.C`.

* A `face` is a `labelList`: a list of integer vertex labels.
* Output collections (`faceList`) are lists of faces of fixed size; an
  access outside `[0, size)` is undefined in the source and is an explicit
  `Err.outOfRange` here.
* `FatalErrorIn ... << abort(FatalError)` is `Err.fatal`.
* Floating-point geometry (unit edge vectors, the face normal, `acos`,
  the comparisons of angles) is not evaluated: it is supplied by a
  `GeometryKernel`, whose fields give the value of each floating-point
  local of the source as an element of an arbitrary scalar type with an
  arbitrary comparison.  A statement quantified over every kernel holds
  whatever the point array and the rounding of the machine.
-/

namespace Foam

/-- Vertex label (`Foam::label`, a signed machine integer). -/
abbrev label := Int

/-- A face is the list of its vertex labels (`class face : public labelList`). -/
abbrev face := List label

/-- A list of faces (`typedef List<face> faceList`). -/
abbrev faceList := List face

/-- The four operating modes of `face::split` (`enum splitMode` of the class). -/
inductive splitMode where
  | COUNTTRIANGLE
  | COUNTQUAD
  | SPLITTRIANGLE
  | SPLITQUAD
  deriving DecidableEq, Repr

/-- Ways in which a call fails to return a value. -/
inductive Err where
  /-- The `FatalErrorIn(...) << abort(FatalError)` branch of `face::split`. -/
  | fatal
  /-- An element access outside the bounds of a list (undefined in the source). -/
  | outOfRange
  /-- The recursion budget of the embedding is exhausted. -/
  | outOfFuel
  deriving DecidableEq, Repr

/-- Modelled from the spec: `UList::fcIndex` is declared outside `face.C`;
the spec gives `next(i) = (i+1) mod n`. -/
def fcIndex (n i : Nat) : Nat := (i + 1) % n

/-- Modelled from the spec: `UList::rcIndex` is declared outside `face.C`;
the spec gives `prev(i) = (i-1+n) mod n`. -/
def rcIndex (n i : Nat) : Nat := (i + n - 1) % n

/-- Element read `f[i]` for an index known to be in range; `0` stands for the
value of a read that the source never performs. -/
def at0 (f : face) (i : Nat) : label := f.getD i 0

/-- Checked element read `f[i]` with a signed index: outside `[0, size)` the
read is undefined in the source. -/
def rd (f : face) (i : Int) : Except Err label :=
  if 0 ≤ i then
    match f.get? i.toNat with
    | some v => .ok v
    | none => .error .outOfRange
  else .error .outOfRange

/-- Checked element write `l[i] = v` of a `faceList`. -/
def wr (l : faceList) (i : Int) (v : face) : Except Err faceList :=
  if 0 ≤ i ∧ i < l.length then .ok (l.set i.toNat v) else .error .outOfRange

/-- The floating-point side of `face.C`, abstracted.  `P` is the type of
point arrays, `V` of vectors, `S` of scalars.

* `lt x y` is the machine comparison `x < y` (`y > x`);
* `negGREAT` is `-GREAT`, `pi` is `constant::mathematical::pi`;
* `unitEdge points a b` is `(points[b] - points[a])/(mag(..) + VSMALL)`;
* `cornerAngle points f edges i` is the value of the local `angle` in
  iteration `i` of the loop of `mostConcaveAngle`;
* `angleDiff points f edges startIndex minAngle index` is the value of the
  local `angleDiff` of the search loop of `split` for candidate `index`. -/
structure GeometryKernel (P V S : Type) where
  lt : S → S → Bool
  negGREAT : S
  pi : S
  unitEdge : P → label → label → V
  cornerAngle : P → face → List V → Nat → S
  angleDiff : P → face → List V → Nat → S → Nat → S

section Split

variable {P V S : Type}

/-- The unit edge vectors of a face (`face::calcEdges`): one per vertex `i`,
from vertex `i` to vertex `fcIndex(i)`. -/
def calcEdges (K : GeometryKernel P V S) (points : P) (f : face) : List V :=
  (List.range f.length).map
    (fun i => K.unitEdge points (at0 f i) (at0 f (fcIndex f.length i)))

/-- One iteration of the loop of `mostConcaveAngle`: the state is
`(index, maxAngle)`. -/
def mostConcaveStep (K : GeometryKernel P V S) (points : P) (f : face)
    (edges : List V) (s : Nat × S) (i : Nat) : Nat × S :=
  let angle := K.cornerAngle points f edges i
  if K.lt s.2 angle then (i, angle) else s

/-- The index of the vertex with the largest angle, and that angle
(`face::mostConcaveAngle`, the angle being the out-parameter `maxAngle`). -/
def mostConcaveAngle (K : GeometryKernel P V S) (points : P) (f : face)
    (edges : List V) : Nat × S :=
  (List.range edges.length).foldl (mostConcaveStep K points f edges)
    (0, K.negGREAT)

/-- The search loop of the general case of `split`: `cnt` iterations remain,
the state is `(index, minIndex, minDiff)`; the result is `minIndex`. -/
def searchLoop (K : GeometryKernel P V S) (points : P) (f : face)
    (edges : List V) (startIndex : Nat) (minAngle : S) :
    Nat → Nat → Nat → S → Nat
  | 0, _, minIndex, _ => minIndex
  | cnt + 1, index, minIndex, minDiff =>
    let angleDiff := K.angleDiff points f edges startIndex minAngle index
    if K.lt angleDiff minDiff then
      searchLoop K points f edges startIndex minAngle cnt
        (fcIndex f.length index) index angleDiff
    else
      searchLoop K points f edges startIndex minAngle cnt
        (fcIndex f.length index) minIndex minDiff

/-- The loop `for (i = 0; i < nPoints; i++) { sub[i] = f[index]; index =
fcIndex(index); }` that collects a sub-face. -/
def collect (f : face) : Nat → Nat → face
  | 0, _ => []
  | cnt + 1, index => at0 f index :: collect f cnt (fcIndex f.length index)

/-- The mutable arguments of `split`: the two cursors and the two output
collections. -/
structure SplitState where
  triI : Int
  quadI : Int
  triFaces : faceList
  quadFaces : faceList
  deriving DecidableEq, Repr

/-- The chord of the general case of `split`: `(startIndex, minIndex)`. -/
def splitChord (K : GeometryKernel P V S) (points : P) (f : face) : Nat × Nat :=
  let edges := calcEdges K points f
  let r := mostConcaveAngle K points f edges
  let startIndex := r.1
  let minAngle := r.2
  let index := fcIndex f.length (fcIndex f.length startIndex)
  let minIndex := searchLoop K points f edges startIndex minAngle
    (f.length - 3) index index K.pi
  (startIndex, minIndex)

/-- The number `diff` of edges of sub-face 1 in the general case of `split`. -/
def splitDiff (n startIndex minIndex : Nat) : Nat :=
  if minIndex > startIndex then minIndex - startIndex
  else minIndex + n - startIndex

/-- The two sub-faces of the general case of `split`. -/
def subFaces (K : GeometryKernel P V S) (points : P) (f : face) : face × face :=
  let c := splitChord K points f
  let diff := splitDiff f.length c.1 c.2
  let nPoints1 := diff + 1
  let nPoints2 := f.length - diff + 1
  (collect f nPoints1 c.1, collect f nPoints2 c.2)

/-- The body of `face::split`, acting on the cursors and collections; the
first argument bounds the depth of the recursion. -/
def splitBody (K : GeometryKernel P V S) (mode : splitMode) (points : P) :
    Nat → face → SplitState → Except Err SplitState
  | 0, _, _ => .error .outOfFuel
  | fuel + 1, f, st =>
    if f.length ≤ 2 then .error .fatal
    else if f.length = 3 then
      if mode = .COUNTTRIANGLE ∨ mode = .COUNTQUAD then
        .ok { st with triI := st.triI + 1 }
      else
        match wr st.triFaces st.triI f with
        | .error e => .error e
        | .ok t => .ok { st with triFaces := t, triI := st.triI + 1 }
    else if f.length = 4 then
      let st1 : SplitState :=
        if mode = .COUNTTRIANGLE then { st with triI := st.triI + 2 } else st
      if mode = .COUNTQUAD then
        .ok { st1 with quadI := st1.quadI + 1 }
      else if mode = .SPLITTRIANGLE then
        let edges := calcEdges K points f
        let startIndex := (mostConcaveAngle K points f edges).1
        let nextIndex := fcIndex f.length startIndex
        let splitIndex := fcIndex f.length nextIndex
        match wr st1.triFaces st1.triI
            [at0 f startIndex, at0 f nextIndex, at0 f splitIndex] with
        | .error e => .error e
        | .ok t =>
          match wr t (st1.triI + 1)
              [at0 f splitIndex, at0 f (fcIndex f.length splitIndex),
               at0 f startIndex] with
          | .error e => .error e
          | .ok t2 => .ok { st1 with triFaces := t2, triI := st1.triI + 1 + 1 }
      else
        match wr st1.quadFaces st1.quadI f with
        | .error e => .error e
        | .ok q => .ok { st1 with quadFaces := q, quadI := st1.quadI + 1 }
    else
      let fs := subFaces K points f
      match splitBody K mode points fuel fs.1 st with
      | .error e => .error e
      | .ok st1 => splitBody K mode points fuel fs.2 st1

/-- The function `face::split`: the returned label and the final cursors and
collections.  The sub-faces of a face of `n` vertices have fewer than `n`
vertices, so the depth `n + 1` given here is never exhausted. -/
def split (K : GeometryKernel P V S) (mode : splitMode) (points : P)
    (f : face) (st : SplitState) : Except Err (Int × SplitState) :=
  let oldIndices := st.triI + st.quadI
  match splitBody K mode points (f.length + 1) f st with
  | .error e => .error e
  | .ok st1 => .ok (st1.triI + st1.quadI - oldIndices, st1)

/-- The function `face::triangles(points, triI, triFaces)`: the returned label, the
final `triI` and `triFaces`. -/
def triangles (K : GeometryKernel P V S) (points : P) (f : face)
    (triI : Int) (triFaces : faceList) : Except Err (Int × Int × faceList) :=
  match split K .SPLITTRIANGLE points f
      { triI := triI, quadI := 0, triFaces := triFaces, quadFaces := [] } with
  | .error e => .error e
  | .ok r => .ok (r.1, r.2.triI, r.2.triFaces)

/-- The function `face::nTrianglesQuads(points, triI, quadI)`: the returned label
and the final counters. -/
def nTrianglesQuads (K : GeometryKernel P V S) (points : P) (f : face)
    (triI quadI : Int) : Except Err (Int × Int × Int) :=
  match split K .COUNTQUAD points f
      { triI := triI, quadI := quadI, triFaces := [], quadFaces := [] } with
  | .error e => .error e
  | .ok r => .ok (r.1, r.2.triI, r.2.quadI)

/-- The function `face::trianglesQuads(points, triI, quadI, triFaces, quadFaces)`. -/
def trianglesQuads (K : GeometryKernel P V S) (points : P) (f : face)
    (st : SplitState) : Except Err (Int × SplitState) :=
  split K .SPLITQUAD points f st

end Split

end Foam

/-! ## The result-collecting reading of the splitting

The source fills pre-sized collections through shared cursors.  The faces it
produces, in the order in which it produces them, are described here as a
list; the theorems below relate the two readings. -/

namespace Foam

section SplitOutputs

variable {P V S : Type}

/-- The two triangles that `split` writes for a 4-vertex face in
`SPLITTRIANGLE` mode. -/
def quadTriangles (K : GeometryKernel P V S) (points : P) (f : face) : List face :=
  let edges := calcEdges K points f
  let startIndex := (mostConcaveAngle K points f edges).1
  let nextIndex := fcIndex f.length startIndex
  let splitIndex := fcIndex f.length nextIndex
  [[at0 f startIndex, at0 f nextIndex, at0 f splitIndex],
   [at0 f splitIndex, at0 f (fcIndex f.length splitIndex), at0 f startIndex]]

/-- The faces that the recursion of `split` produces for `f`, in order of
production; `quads` tells whether a 4-vertex face is kept as a quad. -/
def leaves (K : GeometryKernel P V S) (quads : Bool) (points : P) :
    Nat → face → List face
  | 0, _ => []
  | fuel + 1, f =>
    if f.length ≤ 3 then [f]
    else if f.length = 4 then
      if quads then [f] else quadTriangles K points f
    else
      leaves K quads points fuel (subFaces K points f).1 ++
        leaves K quads points fuel (subFaces K points f).2

/-- Writing the faces `out` at the consecutive positions `c, c+1, ...` of a
collection. -/
def overwrite : faceList → Nat → List face → faceList
  | l, _, [] => l
  | l, c, x :: xs => overwrite (l.set c x) (c + 1) xs

/-- The triangles among the leaves of the quads-allowed splitting. -/
def triLeaves (K : GeometryKernel P V S) (points : P) (fuel : Nat) (f : face) :
    List face :=
  (leaves K true points fuel f).filter (fun t => decide (t.length = 3))

/-- The quads among the leaves of the quads-allowed splitting. -/
def quadLeaves (K : GeometryKernel P V S) (points : P) (fuel : Nat) (f : face) :
    List face :=
  (leaves K true points fuel f).filter (fun t => decide (t.length = 4))

/-- A result that is neither the fatal error of `split` nor an exhausted
recursion budget: a value, or an access out of the bounds of a collection. -/
def benign {α : Type} (r : Except Err α) : Prop :=
  r ≠ .error .fatal ∧ r ≠ .error .outOfFuel

end SplitOutputs

end Foam

/-! ## Collapsing, reversal and circular comparison -/

namespace Foam

/-- One iteration of the loop of `face::collapse`, for the index `i`; the
state is the face and `ci`:
`if (f[i] != f[ci]) { f[++ci] = f[i]; }`. -/
def collapseStep (s : face × Nat) (i : Nat) : face × Nat :=
  if at0 s.1 i ≠ at0 s.1 s.2 then (s.1.set (s.2 + 1) (at0 s.1 i), s.2 + 1) else s

/-- The function `face::collapse()`: the returned label (the new size) and the
face left in place.  `setSize(ci)` keeps the first `ci` elements. -/
def collapse (f : face) : label × face :=
  if f.length > 1 then
    let s := (List.range' 1 (f.length - 1)).foldl collapseStep (f, 0)
    let ci := if at0 s.1 s.2 ≠ at0 s.1 0 then s.2 + 1 else s.2
    let g := s.1.take ci
    ((g.length : Int), g)
  else ((f.length : Int), f)

/-- The function `face::reverseFace()`: `newList[0] = f[0]` and
`newList[pointI] = f[size() - pointI]` for `1 ≤ pointI < size()`.  On an
empty face the first assignment is out of range. -/
def reverseFace (f : face) : Except Err face :=
  if f.length = 0 then .error .outOfRange
  else .ok ((List.range f.length).map
    (fun pointI => if pointI = 0 then at0 f 0 else at0 f (f.length - pointI)))

/-- The loop `forAll(b, i) { if (b[i] == firstA) { Bptr = i; break; } }` of
`face::compare`, started at position `i`; `-1` when no element matches. -/
def findFirst (firstA : label) : face → Int → Int
  | [], _ => -1
  | x :: xs, i => if x = firstA then i else findFirst firstA xs (i + 1)

/-- The loop `while (sizeA--)` of `face::compare` for the direction 'up', with
`cnt` iterations remaining: `true` when it ends without a mismatch, `false`
when it leaves by `return 0`. -/
def walkUp (a b : face) : Nat → Int → Int → Except Err Bool
  | 0, _, _ => .ok true
  | cnt + 1, Aptr, Bptr =>
    let Aptr1 := if Aptr + 1 ≥ a.length then 0 else Aptr + 1
    let Bptr1 := if Bptr + 1 ≥ b.length then 0 else Bptr + 1
    match rd a Aptr1 with
    | .error e => .error e
    | .ok x =>
      match rd b Bptr1 with
      | .error e => .error e
      | .ok y => if x ≠ y then .ok false else walkUp a b cnt Aptr1 Bptr1

/-- The loop `while (sizeA--)` of `face::compare` for the direction 'down'. -/
def walkDown (a b : face) : Nat → Int → Int → Except Err Bool
  | 0, _, _ => .ok true
  | cnt + 1, Aptr, Bptr =>
    let Aptr1 := if Aptr + 1 ≥ a.length then 0 else Aptr + 1
    let Bptr1 := if Bptr - 1 < 0 then (b.length : Int) - 1 else Bptr - 1
    match rd a Aptr1 with
    | .error e => .error e
    | .ok x =>
      match rd b Bptr1 with
      | .error e => .error e
      | .ok y => if x ≠ y then .ok false else walkDown a b cnt Aptr1 Bptr1

/-- The test `sizeA > 1 && (secondA == firstA || firstA == a[sizeA - 1])` of
`face::compare`, evaluated left to right with short circuit. -/
def degenerate (a : face) (firstA secondA : label) : Except Err Bool :=
  if a.length > 1 then
    if secondA = firstA then .ok true
    else
      match rd a ((a.length : Int) - 1) with
      | .error e => .error e
      | .ok lastA => .ok (decide (firstA = lastA))
  else .ok false

/-- The part of `face::compare` after the test for degenerate faces: the
search for the direction and the walk along both faces.  `Bptr` is the
position found for `firstA`.  The count `sizeA - 2` of the walk is not
negative here, since `a[1]` has been read. -/
def compareDirection (a b : face) (secondA : label) (Bptr : Int) :
    Except Err Int :=
  let Bptr1 := Bptr + 1
  let Bptr2 := if Bptr1 = b.length then 0 else Bptr1
  match rd b Bptr2 with
  | .error e => .error e
  | .ok up =>
    if up = secondA then
      match walkUp a b (a.length - 2) 1 Bptr2 with
      | .error e => .error e
      | .ok r => if r then .ok 1 else .ok 0
    else
      let Bptr3 := Bptr2 - 2
      let Bptr4 := if Bptr3 < 0 then Bptr3 + b.length else Bptr3
      match rd b Bptr4 with
      | .error e => .error e
      | .ok down =>
        if down = secondA then
          match walkDown a b (a.length - 2) 1 Bptr4 with
          | .error e => .error e
          | .ok r => if r then .ok (-1) else .ok 0
        else .ok 0

/-- The body of `face::compare`; the first argument bounds the depth of the
recursion on collapsed faces. -/
def compareBody : Nat → face → face → Except Err Int
  | 0, _, _ => .error .outOfFuel
  | fuel + 1, a, b =>
    if a.length ≠ b.length then .ok 0
    else
      match rd a 0 with
      | .error e => .error e
      | .ok firstA =>
        let Bptr := findFirst firstA b 0
        if Bptr < 0 then .ok 0
        else
          match rd a 1 with
          | .error e => .error e
          | .ok secondA =>
            match degenerate a firstA secondA with
            | .error e => .error e
            | .ok true => compareBody fuel (collapse a).2 (collapse b).2
            | .ok false => compareDirection a b secondA Bptr

/-- The function `face::compare(a, b)`.  A collapsed degenerate face is
shorter than the face, so the depth given here is never exhausted. -/
def compare (a b : face) : Except Err Int :=
  compareBody (a.length + 1) a b

/-- Alignment of two circular sequences: `a` read from its start equals `b`
read circularly from position `j`. -/
def aligned (a b : face) (j : Nat) : Prop :=
  ∀ t < a.length, at0 a t = at0 b ((j + t) % b.length)

/-! ### The collapsed face in the words of the specification -/

/-- The vertices of `l` that differ from the last vertex kept, `prev` being
the last vertex kept so far. -/
def runHeadsFrom (prev : label) : face → face
  | [] => []
  | y :: rest =>
    if y = prev then runHeadsFrom prev rest else y :: runHeadsFrom y rest

/-- The first vertex of each run of consecutive equal vertices. -/
def keepRunHeads : face → face
  | [] => []
  | x :: rest => x :: runHeadsFrom x rest

/-- Dropping the last vertex when it equals the first one. -/
def dropLastIfFirst (l : face) : face :=
  match l.head?, l.getLast? with
  | some x, some y => if y = x then l.dropLast else l
  | _, _ => l

/-- The result of collapsing as the specification words it. -/
def collapseSpec (f : face) : face :=
  if f.length > 1 then dropLastIfFirst (keepRunHeads f) else f

/-! ### A concrete kernel for worked examples -/

/-- A kernel over integers in which the point array is a table: entry `i` is
the angle at position `i` of the face, and a candidate is the better the
closer its entry is to half the angle at the start vertex. -/
def tableKernel : GeometryKernel (List Int) Unit Int where
  lt := fun x y => decide (x < y)
  negGREAT := -1000000
  pi := 180
  unitEdge := fun _ _ _ => ()
  cornerAngle := fun points _ _ i => points.getD i 0
  angleDiff := fun points _ _ _ minAngle index =>
    Int.natAbs (points.getD index 0 - minAngle / 2)

end Foam

/-! ## Orientation reversal in place -/

namespace Foam

/-- The exchange `Swap(f[i], f[j])`: `tmp = f[i]; f[i] = f[j]; f[j] = tmp`. -/
def swapAt (f : face) (i j : Nat) : face :=
  let tmp := at0 f i
  (f.set i (at0 f j)).set j tmp

/-- The function `face::flip()`: for `n > 2` the loop
`for (i = 1; i < (n+1)/2; ++i) Swap(f[i], f[n-i])`; the face left in place. -/
def flip (f : face) : face :=
  if f.length > 2 then
    (List.range' 1 ((f.length + 1) / 2 - 1)).foldl
      (fun g i => swapAt g i (f.length - i)) f
  else f

end Foam

/-! ## Edges of a face -/

namespace Foam

/-- An edge (`Foam::edge`): the pair of its `start()` and `end()` labels. -/
abbrev edge := label × label

/-- The function `face::edges()`: entry `pointI < n - 1` is
`edge(points[pointI], points[pointI + 1])`, the last entry is
`edge(points.last(), points[0])`.  On an empty face `e.last()` is out of
range. -/
def edges (f : face) : Except Err (List edge) :=
  if f.length = 0 then .error .outOfRange
  else .ok ((List.range f.length).map
    (fun pointI =>
      if pointI < f.length - 1 then (at0 f pointI, at0 f (pointI + 1))
      else (at0 f (f.length - 1), at0 f 0)))

/-- The loop `forAll(*this, i)` of `face::edgeDirection`, with `cnt`
iterations remaining from position `i`; falling out of the loop returns 0. -/
def edgeDirectionLoop (f : face) (e : edge) : Nat → Nat → Int
  | 0, _ => 0
  | cnt + 1, i =>
    if at0 f i = e.1 then
      if at0 f (rcIndex f.length i) = e.2 then -1
      else if at0 f (fcIndex f.length i) = e.2 then 1
      else 0
    else if at0 f i = e.2 then
      if at0 f (rcIndex f.length i) = e.1 then 1
      else if at0 f (fcIndex f.length i) = e.1 then -1
      else 0
    else edgeDirectionLoop f e cnt (i + 1)

/-- The function `face::edgeDirection(e)`. -/
def edgeDirection (f : face) (e : edge) : Int :=
  edgeDirectionLoop f e f.length 0

end Foam

/-! ## Circular runs of positions -/

namespace Foam

/-- The forward circular run of `len` positions of a ring of size `n` that
starts at `start`: `start, start+1, ...`, taken mod `n`. -/
def circularRun (n start len : Nat) : List Nat :=
  (List.range len).map (fun j => (start + j) % n)

end Foam

/-! ## Centre and normal over exact arithmetic

The formulas of `face::centre` and `face::normal` over an ordered field `F` of
exact scalars.  What `face.C` takes from elsewhere is a parameter: the
magnitude `mag` of a vector, the threshold `VSMALL`, and the normal
`triNormal a b c` of the triangle `triPointRef(a, b, c)`. -/

namespace Foam

section Geometry

variable {F : Type} [LinearOrderedField F]

/-- A point or a vector (`Foam::point`, `Foam::vector`) over the scalars `F`. -/
abbrev vec (F : Type) := Fin 3 → F

/-- A point array (`pointField`). -/
abbrev pointField (F : Type) := List (vec F)

/-- The element `points[l]`; a label outside the array is undefined in the
source and reads as the origin here. -/
def pointAt (points : pointField F) (l : label) : vec F :=
  if 0 ≤ l then points.getD l.toNat 0 else 0

/-- The cross product `a ^ b` of two vectors. -/
def cross (a b : vec F) : vec F :=
  ![a 1 * b 2 - a 2 * b 1, a 2 * b 0 - a 0 * b 2, a 0 * b 1 - a 1 * b 0]

/-- The quotient `v / s` of a vector by a scalar. -/
def vdiv (v : vec F) (s : F) : vec F := fun i => v i / s

/-- The local `centrePoint` of `centre` and of `normal`: the sum of the points
of the face divided by their number. -/
def centrePoint (points : pointField F) (f : face) : vec F :=
  vdiv ((List.range f.length).foldl (fun acc pI => acc + pointAt points (at0 f pI)) 0)
    (f.length : F)

/-- The second loop of `centre`: the pair `(sumA, sumAc)` of the summed doubled
areas of the central triangles and of their area-weighted tripled centres. -/
def centreSums (mag : vec F → F) (points : pointField F) (f : face) : F × vec F :=
  (List.range f.length).foldl
    (fun s pI =>
      let nextPoint := pointAt points (at0 f ((pI + 1) % f.length))
      let ttc := pointAt points (at0 f pI) + nextPoint + centrePoint points f
      let ta := mag (cross (pointAt points (at0 f pI) - centrePoint points f)
        (nextPoint - centrePoint points f))
      (s.1 + ta, s.2 + ta • ttc))
    (0, 0)

/-- The function `face::centre(points)`. -/
def centre (mag : vec F → F) (VSMALL : F) (points : pointField F) (f : face) : vec F :=
  if f.length = 3 then
    (1 / 3 : F) • (pointAt points (at0 f 0) + pointAt points (at0 f 1)
      + pointAt points (at0 f 2))
  else
    if (centreSums mag points f).1 > VSMALL then
      vdiv (centreSums mag points f).2 (3 * (centreSums mag points f).1)
    else centrePoint points f

/-- The function `face::normal(p)`. -/
def normal (triNormal : vec F → vec F → vec F → vec F) (p : pointField F) (f : face) :
    vec F :=
  if f.length = 3 then
    triNormal (pointAt p (at0 f 0)) (pointAt p (at0 f 1)) (pointAt p (at0 f 2))
  else
    (List.range f.length).foldl
      (fun n pI =>
        let nextPoint :=
          if pI < f.length - 1 then pointAt p (at0 f (pI + 1)) else pointAt p (at0 f 0)
        n + triNormal (pointAt p (at0 f pI)) nextPoint (centrePoint p f))
      0

/-- Half the cross product `(b - a) ^ (c - a)`: the normal of the triangle
`(a, b, c)` whose magnitude is the area. -/
def halfCross (a b c : vec F) : vec F := (1 / 2 : F) • cross (b - a) (c - a)

/-- The corners of the unit square in the plane `z = 0`. -/
def unitSquare : pointField ℚ := [![0, 0, 0], ![1, 0, 0], ![1, 1, 0], ![0, 1, 0]]

/-- The sum of the absolute values of the components: a magnitude that agrees
with the length on vectors along an axis. -/
def axisMag (v : vec ℚ) : ℚ := |v 0| + |v 1| + |v 2|

end Geometry

end Foam

/-! ## Centre over an abstract arithmetic, and binary64

`face::centre` computes with the scalars and vectors of the library
(`scalar`, `vector`, `point`), whose operations are not part of `face.C`.
They are a parameter here, so that the same body can be read over exact
scalars and over IEEE 754 binary64. -/

namespace Foam

section CentreKernel

variable {V S : Type}

/-- The scalar and vector operations that `face::centre` uses.

* `zeroV` is `point::zero` / `vector::zero`, `zeroS` the scalar `0`;
* `addV`, `subV`, `crossV` are `a + b`, `a - b`, `a ^ b` on vectors;
* `mag` is `Foam::mag`, `smulV s v` is `s*v`, `divV v s` is `v/s`;
* `addS`, `mulS` are `+` and `*` on scalars, `gt x y` is `x > y`;
* `ofLabel n` is the conversion of the label `nPoints` to a scalar;
* `three` is `3.0`, `third` the constant `1.0/3.0`, `VSMALL` the threshold. -/
structure VectorKernel (V S : Type) where
  zeroV : V
  addV : V → V → V
  subV : V → V → V
  crossV : V → V → V
  mag : V → S
  smulV : S → V → V
  divV : V → S → V
  zeroS : S
  addS : S → S → S
  mulS : S → S → S
  ofLabel : Nat → S
  three : S
  third : S
  gt : S → S → Bool
  VSMALL : S

/-- The element `points[l]`; a label outside the array is undefined in the
source and reads as the origin here. -/
def pointAtK (K : VectorKernel V S) (points : List V) (l : label) : V :=
  if 0 ≤ l then points.getD l.toNat K.zeroV else K.zeroV

/-- The local `centrePoint` of `centre`: the points of the face added up from
`point::zero` in the order of the face, then divided by `nPoints`. -/
def centrePointK (K : VectorKernel V S) (points : List V) (f : face) : V :=
  K.divV
    ((List.range f.length).foldl (fun acc pI => K.addV acc (pointAtK K points (at0 f pI)))
      K.zeroV)
    (K.ofLabel f.length)

/-- The second loop of `centre`: the pair `(sumA, sumAc)`. -/
def centreSumsK (K : VectorKernel V S) (points : List V) (f : face) : S × V :=
  (List.range f.length).foldl
    (fun s pI =>
      let nextPoint := pointAtK K points (at0 f ((pI + 1) % f.length))
      let ttc := K.addV (K.addV (pointAtK K points (at0 f pI)) nextPoint)
        (centrePointK K points f)
      let ta := K.mag
        (K.crossV (K.subV (pointAtK K points (at0 f pI)) (centrePointK K points f))
          (K.subV nextPoint (centrePointK K points f)))
      (K.addS s.1 ta, K.addV s.2 (K.smulV ta ttc)))
    (K.zeroS, K.zeroV)

/-- The function `face::centre(points)` over the operations of `K`: the
returned point, and the divisors of the divisions `v/s` it has carried out, in
order (`centrePoint /= nPoints`, and `sumAc/(3.0*sumA)` when that branch is
taken). -/
def centreK (K : VectorKernel V S) (points : List V) (f : face) : V × List S :=
  if f.length = 3 then
    (K.smulV K.third
      (K.addV (K.addV (pointAtK K points (at0 f 0)) (pointAtK K points (at0 f 1)))
        (pointAtK K points (at0 f 2))), [])
  else
    if K.gt (centreSumsK K points f).1 K.VSMALL = true then
      (K.divV (centreSumsK K points f).2 (K.mulS K.three (centreSumsK K points f).1),
        [K.ofLabel f.length, K.mulS K.three (centreSumsK K points f).1])
    else (centrePointK K points f, [K.ofLabel f.length])

/-- Exact scalars: the operations of an ordered field `F` on `vec F`, with the
magnitude and the threshold as parameters. -/
def exactKernel {F : Type} [LinearOrderedField F] (mag : vec F → F) (VSMALL : F) :
    VectorKernel (vec F) F where
  zeroV := 0
  addV := fun a b => a + b
  subV := fun a b => a - b
  crossV := cross
  mag := mag
  smulV := fun s v => s • v
  divV := vdiv
  zeroS := 0
  addS := fun a b => a + b
  mulS := fun a b => a * b
  ofLabel := fun n => (n : F)
  three := 3
  third := 1 / 3
  gt := fun a b => decide (a > b)
  VSMALL := VSMALL

end CentreKernel

/-! ### IEEE 754 binary64

Modelled from the spec: the scalars have "IEEE-754 float semantics"; `scalar`
is a C++ `double`, whose definition is not in `face.C`.  A finite value is
`m * 2^e`; every operation is the exact operation followed by rounding to
nearest, ties to even, to 53 significant bits.  A result outside the normal
range (overflow, a subnormal number), a division by zero and the square root
of a negative number are `none`, about which nothing is said. -/

/-- A finite binary64 value `m * 2^e`: zero is `m = 0`, `e = 0`; any other
value has `2^52 ≤ |m| < 2^53` and `-1074 ≤ e ≤ 971`. -/
structure Bin64 where
  m : Int
  e : Int
  deriving DecidableEq, Repr

/-- A binary64 value, or `none` outside the finite normal range. -/
abbrev B64 := Option Bin64

/-- The number of binary digits of `n`, the depth bounded by the first
argument. -/
def bitLengthLoop : Nat → Nat → Nat
  | 0, _ => 0
  | fuel + 1, n => if n = 0 then 0 else bitLengthLoop fuel (n / 2) + 1

/-- The number of binary digits of `n`. -/
def bitLength (n : Nat) : Nat := bitLengthLoop n n

/-- The integer square root, digit by digit from the bit `k - 1` down. -/
def isqrtLoop (n : Nat) : Nat → Nat → Nat
  | 0, r => r
  | k + 1, r =>
    if (r + 2 ^ k) * (r + 2 ^ k) ≤ n then isqrtLoop n k (r + 2 ^ k)
    else isqrtLoop n k r

/-- The integer square root `⌊√n⌋`. -/
def isqrt (n : Nat) : Nat := isqrtLoop n (bitLength n / 2 + 1) 0

/-- The value `± n * 2^e` rounded to nearest, ties to even, to 53 significant
bits. -/
def roundNearestEven (neg : Bool) (n : Nat) (e : Int) : B64 :=
  if n = 0 then some ⟨0, 0⟩
  else
    let L := bitLength n
    let r : Nat × Int :=
      if L ≤ 53 then (n * 2 ^ (53 - L), e - ((53 - L : Nat) : Int))
      else
        let k := L - 53
        let q := n / 2 ^ k
        let rest := n % 2 ^ k
        let half := 2 ^ (k - 1)
        let q1 := if half < rest ∨ (rest = half ∧ q % 2 = 1) then q + 1 else q
        if q1 = 2 ^ 53 then (2 ^ 52, e + (k : Int) + 1) else (q1, e + (k : Int))
    if -1074 ≤ r.2 ∧ r.2 ≤ 971 then
      some ⟨if neg then -(r.1 : Int) else (r.1 : Int), r.2⟩
    else none

/-- The value `m * 2^e` rounded. -/
def roundInt (m : Int) (e : Int) : B64 := roundNearestEven (decide (m < 0)) m.natAbs e

/-- The value `± (p / q) * 2^e` rounded: the quotient is taken to at least 64
bits, and a last bit records whether the division left a remainder. -/
def roundQuotient (neg : Bool) (p q : Nat) (e : Int) : B64 :=
  if q = 0 then none
  else
    let s := 64 + bitLength q
    let quo := p * 2 ^ s / q
    let sticky := if p * 2 ^ s % q = 0 then 0 else 1
    roundNearestEven neg (2 * quo + sticky) (e - (s : Int) - 1)

/-- The conversion of a natural number to binary64. -/
def b64ofNat (n : Nat) : B64 := roundNearestEven false n 0

/-- The sum `x + y` in binary64. -/
def b64add (x y : B64) : B64 :=
  match x, y with
  | some a, some b =>
    roundInt (a.m * 2 ^ (a.e - min a.e b.e).toNat + b.m * 2 ^ (b.e - min a.e b.e).toNat)
      (min a.e b.e)
  | _, _ => none

/-- The difference `x - y` in binary64. -/
def b64sub (x y : B64) : B64 :=
  match x, y with
  | some a, some b =>
    roundInt (a.m * 2 ^ (a.e - min a.e b.e).toNat - b.m * 2 ^ (b.e - min a.e b.e).toNat)
      (min a.e b.e)
  | _, _ => none

/-- The product `x * y` in binary64. -/
def b64mul (x y : B64) : B64 :=
  match x, y with
  | some a, some b => roundInt (a.m * b.m) (a.e + b.e)
  | _, _ => none

/-- The quotient `x / y` in binary64. -/
def b64div (x y : B64) : B64 :=
  match x, y with
  | some a, some b =>
    roundQuotient (decide (a.m < 0) != decide (b.m < 0)) a.m.natAbs b.m.natAbs (a.e - b.e)
  | _, _ => none

/-- The square root `sqrt(x)` in binary64: the integer square root of the
significand scaled by an even power of two, with a last bit recording whether
it is exact. -/
def b64sqrt (x : B64) : B64 :=
  match x with
  | some a =>
    if a.m < 0 then none
    else
      let s : Nat := if a.e % 2 = 0 then 64 else 65
      let n := a.m.natAbs * 2 ^ s
      let r := isqrt n
      let sticky := if r * r = n then 0 else 1
      roundNearestEven false (2 * r + sticky) ((a.e - (s : Int)) / 2 - 1)
  | none => none

/-- The comparison `x > y` in binary64. -/
def b64gt (x y : B64) : Bool :=
  match x, y with
  | some a, some b =>
    decide (b.m * 2 ^ (b.e - min a.e b.e).toNat < a.m * 2 ^ (a.e - min a.e b.e).toNat)
  | _, _ => false

/-- A binary64 value that is zero, or outside the finite normal range. -/
def zeroOrNone (x : B64) : Prop := x = some ⟨0, 0⟩ ∨ x = none

/-- A vector of three binary64 components `(x, y, z)`. -/
abbrev V64 := B64 × B64 × B64

/-- Modelled from the spec: the operations of `face::centre` in IEEE 754
binary64.  The vector operations are those of the library's `Vector`, taken
component by component: `a ^ b` is the cross product
`(a.y*b.z - a.z*b.y, a.z*b.x - a.x*b.z, a.x*b.y - a.y*b.x)` and `mag(a)` is
`sqrt(a.x*a.x + a.y*a.y + a.z*a.z)`.  `VSMALL` is its double-precision value
`1.0e-300 = 0x1.56e1fc2f8f359p-997`. -/
def binary64 : VectorKernel V64 B64 where
  zeroV := (b64ofNat 0, b64ofNat 0, b64ofNat 0)
  addV := fun a b => (b64add a.1 b.1, b64add a.2.1 b.2.1, b64add a.2.2 b.2.2)
  subV := fun a b => (b64sub a.1 b.1, b64sub a.2.1 b.2.1, b64sub a.2.2 b.2.2)
  crossV := fun a b =>
    (b64sub (b64mul a.2.1 b.2.2) (b64mul a.2.2 b.2.1),
     b64sub (b64mul a.2.2 b.1) (b64mul a.1 b.2.2),
     b64sub (b64mul a.1 b.2.1) (b64mul a.2.1 b.1))
  mag := fun a =>
    b64sqrt (b64add (b64add (b64mul a.1 a.1) (b64mul a.2.1 a.2.1)) (b64mul a.2.2 a.2.2))
  smulV := fun s a => (b64mul s a.1, b64mul s a.2.1, b64mul s a.2.2)
  divV := fun a s => (b64div a.1 s, b64div a.2.1 s, b64div a.2.2 s)
  zeroS := b64ofNat 0
  addS := b64add
  mulS := b64mul
  ofLabel := b64ofNat
  three := b64ofNat 3
  third := b64div (b64ofNat 1) (b64ofNat 3)
  gt := b64gt
  VSMALL := some ⟨0x156e1fc2f8f359, -1049⟩

/-- Five points on the line through the origin along `(1, 3, 7)`: the points
`t * (1, 3, 7)` for `t = 0, 1, 2, 3, 5`, all exact in binary64. -/
def collinearFive : List V64 :=
  [0, 1, 2, 3, 5].map (fun t => (b64ofNat t, b64ofNat (3 * t), b64ofNat (7 * t)))

end Foam

/-! ## The writes of the splitting, and the cyclic order of a face -/

namespace Foam

section SplitTraceDefs

variable {P V S : Type}

/-- The mutable arguments of `split` together with a record of the writes:
the positions of the triangle collection and of the quad collection that
have been assigned, in the order of the assignments. -/
structure SplitTrace where
  st : SplitState
  triWrites : List Int
  quadWrites : List Int

/-- The body of `face::split` as in `splitBody`, recording in addition the
position of every assignment `triFaces[triI++] = ..` and
`quadFaces[quadI++] = ..`. -/
def splitBodyTrace (K : GeometryKernel P V S) (mode : splitMode) (points : P) :
    Nat → face → SplitTrace → Except Err SplitTrace
  | 0, _, _ => .error .outOfFuel
  | fuel + 1, f, s =>
    if f.length ≤ 2 then .error .fatal
    else if f.length = 3 then
      if mode = .COUNTTRIANGLE ∨ mode = .COUNTQUAD then
        .ok { s with st := { s.st with triI := s.st.triI + 1 } }
      else
        match wr s.st.triFaces s.st.triI f with
        | .error e => .error e
        | .ok t =>
          .ok { st := { s.st with triFaces := t, triI := s.st.triI + 1 },
                triWrites := s.triWrites ++ [s.st.triI],
                quadWrites := s.quadWrites }
    else if f.length = 4 then
      let s1 : SplitTrace :=
        if mode = .COUNTTRIANGLE then
          { s with st := { s.st with triI := s.st.triI + 2 } }
        else s
      if mode = .COUNTQUAD then
        .ok { s1 with st := { s1.st with quadI := s1.st.quadI + 1 } }
      else if mode = .SPLITTRIANGLE then
        let edges := calcEdges K points f
        let startIndex := (mostConcaveAngle K points f edges).1
        let nextIndex := fcIndex f.length startIndex
        let splitIndex := fcIndex f.length nextIndex
        match wr s1.st.triFaces s1.st.triI
            [at0 f startIndex, at0 f nextIndex, at0 f splitIndex] with
        | .error e => .error e
        | .ok t =>
          match wr t (s1.st.triI + 1)
              [at0 f splitIndex, at0 f (fcIndex f.length splitIndex),
               at0 f startIndex] with
          | .error e => .error e
          | .ok t2 =>
            .ok { st := { s1.st with triFaces := t2, triI := s1.st.triI + 1 + 1 },
                  triWrites := s1.triWrites ++ [s1.st.triI, s1.st.triI + 1],
                  quadWrites := s1.quadWrites }
      else
        match wr s1.st.quadFaces s1.st.quadI f with
        | .error e => .error e
        | .ok q =>
          .ok { st := { s1.st with quadFaces := q, quadI := s1.st.quadI + 1 },
                triWrites := s1.triWrites,
                quadWrites := s1.quadWrites ++ [s1.st.quadI] }
    else
      let fs := subFaces K points f
      match splitBodyTrace K mode points fuel fs.1 s with
      | .error e => .error e
      | .ok s1 => splitBodyTrace K mode points fuel fs.2 s1

/-- The result of a traced call with the record of the writes dropped. -/
def eraseTrace : Except Err SplitTrace → Except Err SplitState
  | .error e => .error e
  | .ok s => .ok s.st

/-- The faces of 3 vertices that `split` produces for `f` in the generating
mode `mode`, in order of production. -/
def triOut (K : GeometryKernel P V S) (mode : splitMode) (points : P) (f : face) :
    List face :=
  (leaves K (decide (mode = .SPLITQUAD)) points (f.length + 1) f).filter
    (fun t => decide (t.length = 3))

/-- The faces of 4 vertices that `split` produces for `f` in the generating
mode `mode`, in order of production. -/
def quadOut (K : GeometryKernel P V S) (mode : splitMode) (points : P) (f : face) :
    List face :=
  (leaves K (decide (mode = .SPLITQUAD)) points (f.length + 1) f).filter
    (fun t => decide (t.length = 4))

/-- The positions `c, c+1, ..., c+k-1` as labels. -/
def cursorRange (c k : Nat) : List Int := (List.range' c k).map Int.ofNat

/-- The face `g` lists vertices of `f` in the cyclic order of `f`: read from
a suitable start, `g` is a subsequence of `f`. -/
def cyclicSub (g f : face) : Prop := ∃ k, List.Sublist (g.rotate k) f

end SplitTraceDefs

end Foam

/-! ## Index arithmetic of the splitting -/

namespace Foam

section SplitLemmas

variable {P V S : Type}

theorem fcIndex_lt {n : Nat} (i : Nat) (hn : 0 < n) : fcIndex n i < n :=
  Nat.mod_lt _ hn

theorem mod_two_cases {n x : Nat} (hx : x < 2 * n) :
    x % n = if x < n then x else x - n := by
  split
  · rename_i h
    exact Nat.mod_eq_of_lt h
  · rename_i h
    rw [Nat.mod_eq_sub_mod (by omega)]
    exact Nat.mod_eq_of_lt (by omega)

theorem fcIndex_add_mod {n : Nat} (i k : Nat) :
    (fcIndex n i + k) % n = (i + (k + 1)) % n := by
  unfold fcIndex
  rw [Nat.add_mod, Nat.mod_mod, ← Nat.add_mod]
  congr 1
  omega

theorem calcEdges_length (K : GeometryKernel P V S) (points : P) (f : face) :
    (calcEdges K points f).length = f.length := by
  simp [calcEdges]

theorem mostConcave_foldl_lt (K : GeometryKernel P V S) (points : P) (f : face)
    (edges : List V) (n : Nat) :
    ∀ (l : List Nat) (s : Nat × S), (∀ i ∈ l, i < n) → s.1 < n →
      (l.foldl (mostConcaveStep K points f edges) s).1 < n := by
  intro l
  induction l with
  | nil => intro s _ hs; simpa using hs
  | cons i l ih =>
    intro s hl hs
    simp only [List.foldl_cons]
    apply ih
    · intro j hj
      exact hl j (List.mem_cons_of_mem _ hj)
    · unfold mostConcaveStep
      simp only
      split
      · exact hl i (List.mem_cons_self _ _)
      · exact hs

/-- The index returned by `mostConcaveAngle` is a position of the edge field. -/
theorem mostConcaveAngle_lt (K : GeometryKernel P V S) (points : P) (f : face)
    (edges : List V) (h : 0 < edges.length) :
    (mostConcaveAngle K points f edges).1 < edges.length := by
  unfold mostConcaveAngle
  apply mostConcave_foldl_lt
  · intro i hi
    exact List.mem_range.mp hi
  · exact h

theorem searchLoop_mem (K : GeometryKernel P V S) (points : P) (f : face)
    (edges : List V) (startIndex : Nat) (minAngle : S) :
    ∀ (cnt index minIndex : Nat) (minDiff : S), index < f.length →
      searchLoop K points f edges startIndex minAngle cnt index minIndex minDiff
          = minIndex ∨
      ∃ k, k < cnt ∧
        searchLoop K points f edges startIndex minAngle cnt index minIndex minDiff
          = (index + k) % f.length := by
  intro cnt
  induction cnt with
  | zero => intro index minIndex minDiff _; left; rfl
  | succ cnt ih =>
    intro index minIndex minDiff hidx
    have hn : 0 < f.length := by omega
    have hfc : fcIndex f.length index < f.length := fcIndex_lt _ hn
    unfold searchLoop
    simp only
    split
    · rcases ih (fcIndex f.length index) index
          (K.angleDiff points f edges startIndex minAngle index) hfc with h | ⟨k, hk, h⟩
      · right
        refine ⟨0, by omega, ?_⟩
        rw [h, Nat.add_zero, Nat.mod_eq_of_lt hidx]
      · right
        refine ⟨k + 1, by omega, ?_⟩
        rw [h, fcIndex_add_mod]
    · rcases ih (fcIndex f.length index) minIndex minDiff hfc with h | ⟨k, hk, h⟩
      · left; exact h
      · right
        refine ⟨k + 1, by omega, ?_⟩
        rw [h, fcIndex_add_mod]

/-- The chord of the general case: the start index is a position of the face
and the chosen index lies `2 + k` positions ahead of it, `k ≤ n - 4`. -/
theorem splitChord_spec (K : GeometryKernel P V S) (points : P) (f : face)
    (h : 4 ≤ f.length) :
    (splitChord K points f).1 < f.length ∧
    ∃ k, k + 4 ≤ f.length ∧
      (splitChord K points f).2 = ((splitChord K points f).1 + 2 + k) % f.length := by
  have hn : 0 < f.length := by omega
  have hs : (mostConcaveAngle K points f (calcEdges K points f)).1 < f.length := by
    have := mostConcaveAngle_lt K points f (calcEdges K points f)
      (by rw [calcEdges_length]; exact hn)
    rwa [calcEdges_length] at this
  refine ⟨hs, ?_⟩
  simp only [splitChord]
  have hidx : fcIndex f.length (fcIndex f.length
      (mostConcaveAngle K points f (calcEdges K points f)).1) < f.length :=
    fcIndex_lt _ hn
  have h0 : fcIndex f.length (fcIndex f.length
      (mostConcaveAngle K points f (calcEdges K points f)).1)
      = ((mostConcaveAngle K points f (calcEdges K points f)).1 + 2 + 0) % f.length := by
    have := fcIndex_add_mod (n := f.length)
      (mostConcaveAngle K points f (calcEdges K points f)).1 1
    rw [Nat.add_zero]
    exact this
  rcases searchLoop_mem K points f (calcEdges K points f)
      (mostConcaveAngle K points f (calcEdges K points f)).1
      (mostConcaveAngle K points f (calcEdges K points f)).2
      (f.length - 3) _ _ K.pi hidx with hh | ⟨k, hk, hh⟩
  · exact ⟨0, by omega, by rw [hh, h0]⟩
  · refine ⟨k, by omega, ?_⟩
    rw [hh, h0, Nat.add_zero, Nat.mod_add_mod]

theorem splitDiff_eq {n s k : Nat} (hs : s < n) (hk : k + 4 ≤ n) :
    splitDiff n s ((s + 2 + k) % n) = 2 + k := by
  unfold splitDiff
  rw [mod_two_cases (by omega)]
  split <;> split <;> omega

theorem collect_length (f : face) : ∀ (cnt index : Nat),
    (collect f cnt index).length = cnt := by
  intro cnt
  induction cnt with
  | zero => intro _; rfl
  | succ cnt ih => intro index; simp [collect, ih]

theorem at0_mem (f : face) {i : Nat} (h : i < f.length) : at0 f i ∈ f := by
  unfold at0
  rw [List.getD_eq_getElem _ _ h]
  exact List.getElem_mem _

theorem collect_subset (f : face) : ∀ (cnt index : Nat), index < f.length →
    ∀ v ∈ collect f cnt index, v ∈ f := by
  intro cnt
  induction cnt with
  | zero => intro _ _ v hv; simp [collect] at hv
  | succ cnt ih =>
    intro index hidx v hv
    simp only [collect, List.mem_cons] at hv
    rcases hv with rfl | hv
    · exact at0_mem f hidx
    · exact ih _ (fcIndex_lt _ (by omega)) v hv

/-- The two sub-faces of a face of more than 3 vertices: both have at least
3 vertices and fewer than the face, their sizes sum to `n + 2`, and their
vertices are vertices of the face. -/
theorem subFaces_spec (K : GeometryKernel P V S) (points : P) (f : face)
    (h : 4 ≤ f.length) :
    3 ≤ (subFaces K points f).1.length ∧ (subFaces K points f).1.length < f.length ∧
    3 ≤ (subFaces K points f).2.length ∧ (subFaces K points f).2.length < f.length ∧
    (subFaces K points f).1.length + (subFaces K points f).2.length = f.length + 2 ∧
    (∀ v ∈ (subFaces K points f).1, v ∈ f) ∧
    (∀ v ∈ (subFaces K points f).2, v ∈ f) := by
  obtain ⟨hs, k, hk, hm⟩ := splitChord_spec K points f h
  have hd : splitDiff f.length (splitChord K points f).1 (splitChord K points f).2
      = 2 + k := by
    rw [hm]; exact splitDiff_eq hs hk
  have hm2 : (splitChord K points f).2 < f.length := by
    rw [hm]; exact Nat.mod_lt _ (by omega)
  simp only [subFaces, collect_length, hd]
  refine ⟨by omega, by omega, by omega, by omega, by omega, ?_, ?_⟩
  · exact collect_subset f _ _ hs
  · exact collect_subset f _ _ hm2

end SplitLemmas

end Foam

/-! ## The cursor reading against the result-collecting reading -/

namespace Foam

section SplitCore

variable {P V S : Type}

theorem wr_ok (l : faceList) (c : Nat) (v : face) (h : c < l.length) :
    wr l (c : Int) v = .ok (l.set c v) := by
  unfold wr
  rw [if_pos ⟨by omega, by omega⟩]
  simp

theorem overwrite_length : ∀ (out : List face) (l : faceList) (c : Nat),
    (overwrite l c out).length = l.length := by
  intro out
  induction out with
  | nil => intro l c; rfl
  | cons x xs ih => intro l c; simp [overwrite, ih]

theorem overwrite_append : ∀ (o1 o2 : List face) (l : faceList) (c : Nat),
    overwrite l c (o1 ++ o2) = overwrite (overwrite l c o1) (c + o1.length) o2 := by
  intro o1
  induction o1 with
  | nil => intro o2 l c; simp [overwrite]
  | cons x xs ih =>
    intro o2 l c
    show overwrite (l.set c x) (c + 1) (xs ++ o2)
      = overwrite (overwrite (l.set c x) (c + 1) xs) (c + (xs.length + 1)) o2
    rw [ih]
    congr 1
    omega

theorem overwrite_getElem? : ∀ (out : List face) (l : faceList) (c i : Nat),
    c + out.length ≤ l.length →
    (overwrite l c out)[i]? =
      if c ≤ i ∧ i < c + out.length then out[i - c]? else l[i]? := by
  intro out
  induction out with
  | nil =>
    intro l c i _
    rw [if_neg (by simp)]
    rfl
  | cons x xs ih =>
    intro l c i h
    simp only [List.length_cons] at h
    simp only [overwrite, List.length_cons]
    rw [ih _ _ _ (by simp; omega)]
    by_cases h1 : c + 1 ≤ i ∧ i < c + 1 + xs.length
    · rw [if_pos h1, if_pos (by omega)]
      have : i - c = (i - (c + 1)) + 1 := by omega
      rw [this, List.getElem?_cons_succ]
    · rw [if_neg h1, List.getElem?_set]
      by_cases h2 : c = i
      · subst h2
        rw [if_pos rfl, if_pos (by omega), if_pos (by omega)]
        simp
      · rw [if_neg h2, if_neg (by omega)]

theorem quadTriangles_spec (K : GeometryKernel P V S) (points : P) (f : face)
    (h : f.length = 4) :
    (quadTriangles K points f).length = 2 ∧
    ∀ t ∈ quadTriangles K points f, t.length = 3 ∧ ∀ v ∈ t, v ∈ f := by
  have hn : 0 < f.length := by omega
  have hs : (mostConcaveAngle K points f (calcEdges K points f)).1 < f.length := by
    have := mostConcaveAngle_lt K points f (calcEdges K points f)
      (by rw [calcEdges_length]; exact hn)
    rwa [calcEdges_length] at this
  refine ⟨rfl, ?_⟩
  intro t ht
  simp only [quadTriangles, List.mem_cons, List.mem_singleton, List.not_mem_nil,
    or_false] at ht
  rcases ht with rfl | rfl
  · refine ⟨rfl, ?_⟩
    intro v hv
    simp only [List.mem_cons, List.mem_singleton, List.not_mem_nil, or_false] at hv
    rcases hv with rfl | rfl | rfl
    · exact at0_mem f hs
    · exact at0_mem f (fcIndex_lt _ hn)
    · exact at0_mem f (fcIndex_lt _ hn)
  · refine ⟨rfl, ?_⟩
    intro v hv
    simp only [List.mem_cons, List.mem_singleton, List.not_mem_nil, or_false] at hv
    rcases hv with rfl | rfl | rfl
    · exact at0_mem f (fcIndex_lt _ hn)
    · exact at0_mem f (fcIndex_lt _ hn)
    · exact at0_mem f hs

/-- Triangle-only leaves: `n - 2` of them, each of 3 vertices of the face. -/
theorem leaves_tri_spec (K : GeometryKernel P V S) (points : P) :
    ∀ (fuel : Nat) (f : face), 3 ≤ f.length → f.length ≤ fuel + 2 →
      (leaves K false points fuel f).length + 2 = f.length ∧
      ∀ t ∈ leaves K false points fuel f, t.length = 3 ∧ ∀ v ∈ t, v ∈ f := by
  intro fuel
  induction fuel with
  | zero => intro f h3 hf; omega
  | succ fuel ih =>
    intro f h3 hf
    unfold leaves
    by_cases c3 : f.length ≤ 3
    · rw [if_pos c3]
      refine ⟨by simp; omega, ?_⟩
      intro t ht
      simp only [List.mem_singleton] at ht
      subst ht
      exact ⟨by omega, fun v hv => hv⟩
    · rw [if_neg c3]
      by_cases c4 : f.length = 4
      · rw [if_pos c4]
        simp only [Bool.false_eq_true, if_false]
        obtain ⟨hl, hm⟩ := quadTriangles_spec K points f c4
        exact ⟨by omega, hm⟩
      · rw [if_neg c4]
        obtain ⟨a1, a2, b1, b2, hsum, hsub1, hsub2⟩ :=
          subFaces_spec K points f (by omega)
        obtain ⟨l1, m1⟩ := ih (subFaces K points f).1 a1 (by omega)
        obtain ⟨l2, m2⟩ := ih (subFaces K points f).2 b1 (by omega)
        refine ⟨by rw [List.length_append]; omega, ?_⟩
        intro t ht
        rcases List.mem_append.mp ht with ht | ht
        · exact ⟨(m1 t ht).1, fun v hv => hsub1 v ((m1 t ht).2 v hv)⟩
        · exact ⟨(m2 t ht).1, fun v hv => hsub2 v ((m2 t ht).2 v hv)⟩

theorem leaves_three (K : GeometryKernel P V S) (quads : Bool) (points : P)
    (fuel : Nat) (f : face) (h : f.length = 3) :
    leaves K quads points (fuel + 1) f = [f] := by
  unfold leaves
  rw [if_pos (by omega)]

theorem leaves_four (K : GeometryKernel P V S) (quads : Bool) (points : P)
    (fuel : Nat) (f : face) (h : f.length = 4) :
    leaves K quads points (fuel + 1) f
      = if quads then [f] else quadTriangles K points f := by
  unfold leaves
  rw [if_neg (by omega), if_pos h]

theorem leaves_general (K : GeometryKernel P V S) (quads : Bool) (points : P)
    (fuel : Nat) (f : face) (h : 4 < f.length) :
    leaves K quads points (fuel + 1) f
      = leaves K quads points fuel (subFaces K points f).1 ++
        leaves K quads points fuel (subFaces K points f).2 := by
  rw [leaves]
  rw [if_neg (by omega), if_neg (by omega)]

theorem splitBody_three (K : GeometryKernel P V S) (mode : splitMode) (points : P)
    (fuel : Nat) (f : face) (st : SplitState) (h : f.length = 3) :
    splitBody K mode points (fuel + 1) f st =
      if mode = .COUNTTRIANGLE ∨ mode = .COUNTQUAD then
        .ok { st with triI := st.triI + 1 }
      else
        match wr st.triFaces st.triI f with
        | .error e => .error e
        | .ok t => .ok { st with triFaces := t, triI := st.triI + 1 } := by
  rw [splitBody]
  rw [if_neg (by omega), if_pos h]

theorem splitBody_general (K : GeometryKernel P V S) (mode : splitMode) (points : P)
    (fuel : Nat) (f : face) (st : SplitState) (h : 4 < f.length) :
    splitBody K mode points (fuel + 1) f st =
      match splitBody K mode points fuel (subFaces K points f).1 st with
      | .error e => .error e
      | .ok st1 => splitBody K mode points fuel (subFaces K points f).2 st1 := by
  rw [splitBody]
  rw [if_neg (by omega), if_neg (by omega), if_neg (by omega)]

/-- In `SPLITTRIANGLE` mode, with room in the triangle collection, the body
of `split` returns: it writes the leaves at the cursor and advances the
cursor past them; the quad cursor and collection are untouched. -/
theorem splitBody_tri (K : GeometryKernel P V S) (points : P) :
    ∀ (fuel : Nat) (f : face) (c : Nat) (q : Int) (tf qf : faceList),
      3 ≤ f.length → f.length ≤ fuel + 2 → c + (f.length - 2) ≤ tf.length →
      splitBody K .SPLITTRIANGLE points fuel f
          { triI := (c : Int), quadI := q, triFaces := tf, quadFaces := qf }
        = .ok { triI := ((c + (leaves K false points fuel f).length : Nat) : Int),
                quadI := q,
                triFaces := overwrite tf c (leaves K false points fuel f),
                quadFaces := qf } := by
  intro fuel
  induction fuel with
  | zero => intro f c q tf qf h3 hf; omega
  | succ fuel ih =>
    intro f c q tf qf h3 hf hroom
    by_cases c3 : f.length = 3
    · rw [splitBody_three K _ points fuel f _ c3, leaves_three K _ points fuel f c3]
      simp only [reduceCtorEq, or_self, if_false]
      rw [wr_ok _ _ _ (by omega)]
      simp [overwrite]
    · by_cases c4 : f.length = 4
      · rw [leaves_four K _ points fuel f c4]
        rw [splitBody]
        rw [if_neg (by omega), if_neg c3, if_pos c4]
        simp only [reduceCtorEq, if_false, if_true, Bool.false_eq_true]
        rw [wr_ok _ _ _ (by omega)]
        simp only
        have : ((c : Int) + 1) = ((c + 1 : Nat) : Int) := by push_cast; rfl
        rw [this, wr_ok _ _ _ (by simp; omega)]
        simp [quadTriangles, overwrite]
        omega
      · rw [splitBody_general K _ points fuel f _ (by omega),
          leaves_general K _ points fuel f (by omega)]
        obtain ⟨a1, a2, b1, b2, hsum, -, -⟩ := subFaces_spec K points f (by omega)
        obtain ⟨l1, -⟩ := leaves_tri_spec K points fuel (subFaces K points f).1 a1 (by omega)
        obtain ⟨l2, -⟩ := leaves_tri_spec K points fuel (subFaces K points f).2 b1 (by omega)
        rw [ih _ c q tf qf a1 (by omega) (by omega)]
        simp only
        rw [ih _ _ q _ qf b1 (by omega) (by rw [overwrite_length]; omega)]
        rw [overwrite_append, List.length_append, Nat.add_assoc]

end SplitCore

end Foam

/-! ## The quads-allowed modes and the absence of the fatal error -/

namespace Foam

section SplitQuad

variable {P V S : Type}

theorem splitBody_four (K : GeometryKernel P V S) (mode : splitMode) (points : P)
    (fuel : Nat) (f : face) (st : SplitState) (h : f.length = 4) :
    splitBody K mode points (fuel + 1) f st =
      if mode = .COUNTQUAD then
        .ok { st with quadI := st.quadI + 1 }
      else if mode = .SPLITTRIANGLE then
        match wr st.triFaces st.triI (quadTriangles K points f).head! with
        | .error e => .error e
        | .ok t =>
          match wr t (st.triI + 1) (quadTriangles K points f).tail.head! with
          | .error e => .error e
          | .ok t2 => .ok { st with triFaces := t2, triI := st.triI + 1 + 1 }
      else if mode = .COUNTTRIANGLE then
        match wr st.quadFaces st.quadI f with
        | .error e => .error e
        | .ok q => .ok { st with triI := st.triI + 2, quadFaces := q, quadI := st.quadI + 1 }
      else
        match wr st.quadFaces st.quadI f with
        | .error e => .error e
        | .ok q => .ok { st with quadFaces := q, quadI := st.quadI + 1 } := by
  rw [splitBody]
  rw [if_neg (by omega), if_neg (by omega), if_pos h]
  cases mode <;> simp [quadTriangles]

theorem triLeaves_three (K : GeometryKernel P V S) (points : P)
    (fuel : Nat) (f : face) (h : f.length = 3) :
    triLeaves K points (fuel + 1) f = [f] ∧ quadLeaves K points (fuel + 1) f = [] := by
  simp [triLeaves, quadLeaves, leaves_three K true points fuel f h, h]

theorem triLeaves_four (K : GeometryKernel P V S) (points : P)
    (fuel : Nat) (f : face) (h : f.length = 4) :
    triLeaves K points (fuel + 1) f = [] ∧ quadLeaves K points (fuel + 1) f = [f] := by
  simp [triLeaves, quadLeaves, leaves_four K true points fuel f h, h]

theorem triLeaves_general (K : GeometryKernel P V S) (points : P)
    (fuel : Nat) (f : face) (h : 4 < f.length) :
    triLeaves K points (fuel + 1) f
      = triLeaves K points fuel (subFaces K points f).1 ++
        triLeaves K points fuel (subFaces K points f).2 ∧
    quadLeaves K points (fuel + 1) f
      = quadLeaves K points fuel (subFaces K points f).1 ++
        quadLeaves K points fuel (subFaces K points f).2 := by
  simp [triLeaves, quadLeaves, leaves_general K true points fuel f h]

/-- Quads-allowed leaves: `T` triangles and `Q` quads with `T + 2 Q = n - 2`. -/
theorem leaves_quad_count (K : GeometryKernel P V S) (points : P) :
    ∀ (fuel : Nat) (f : face), 3 ≤ f.length → f.length ≤ fuel + 2 →
      (triLeaves K points fuel f).length + 2 * (quadLeaves K points fuel f).length + 2
        = f.length := by
  intro fuel
  induction fuel with
  | zero => intro f h3 hf; omega
  | succ fuel ih =>
    intro f h3 hf
    by_cases c3 : f.length = 3
    · obtain ⟨e1, e2⟩ := triLeaves_three K points fuel f c3
      rw [e1, e2]; simp; omega
    · by_cases c4 : f.length = 4
      · obtain ⟨e1, e2⟩ := triLeaves_four K points fuel f c4
        rw [e1, e2]; simp; omega
      · obtain ⟨e1, e2⟩ := triLeaves_general K points fuel f (by omega)
        obtain ⟨a1, a2, b1, b2, hsum, -, -⟩ := subFaces_spec K points f (by omega)
        have i1 := ih (subFaces K points f).1 a1 (by omega)
        have i2 := ih (subFaces K points f).2 b1 (by omega)
        rw [e1, e2, List.length_append, List.length_append]
        omega

/-- In `COUNTQUAD` mode the body of `split` returns, whatever the collections:
it adds the number of triangle leaves and of quad leaves to the counters and
leaves both collections as they are. -/
theorem splitBody_countQuad (K : GeometryKernel P V S) (points : P) :
    ∀ (fuel : Nat) (f : face) (t q : Int) (tf qf : faceList),
      3 ≤ f.length → f.length ≤ fuel + 2 →
      splitBody K .COUNTQUAD points fuel f
          { triI := t, quadI := q, triFaces := tf, quadFaces := qf }
        = .ok { triI := t + ((triLeaves K points fuel f).length : Nat),
                quadI := q + ((quadLeaves K points fuel f).length : Nat),
                triFaces := tf, quadFaces := qf } := by
  intro fuel
  induction fuel with
  | zero => intro f t q tf qf h3 hf; omega
  | succ fuel ih =>
    intro f t q tf qf h3 hf
    by_cases c3 : f.length = 3
    · obtain ⟨e1, e2⟩ := triLeaves_three K points fuel f c3
      rw [splitBody_three K _ points fuel f _ c3, e1, e2]
      simp
    · by_cases c4 : f.length = 4
      · obtain ⟨e1, e2⟩ := triLeaves_four K points fuel f c4
        rw [splitBody_four K _ points fuel f _ c4, e1, e2]
        simp
      · obtain ⟨e1, e2⟩ := triLeaves_general K points fuel f (by omega)
        obtain ⟨a1, a2, b1, b2, hsum, -, -⟩ := subFaces_spec K points f (by omega)
        rw [splitBody_general K _ points fuel f _ (by omega), e1, e2]
        rw [ih _ t q tf qf a1 (by omega)]
        simp only
        rw [ih _ _ _ tf qf b1 (by omega)]
        simp only [List.length_append]
        push_cast
        simp only [Int.add_assoc]

/-- In `SPLITQUAD` mode, with room in both collections, the body of `split`
returns: it writes the triangle leaves and the quad leaves at the two cursors
and advances each cursor past what it wrote. -/
theorem splitBody_quad (K : GeometryKernel P V S) (points : P) :
    ∀ (fuel : Nat) (f : face) (c q : Nat) (tf qf : faceList),
      3 ≤ f.length → f.length ≤ fuel + 2 →
      c + (triLeaves K points fuel f).length ≤ tf.length →
      q + (quadLeaves K points fuel f).length ≤ qf.length →
      splitBody K .SPLITQUAD points fuel f
          { triI := (c : Int), quadI := (q : Int), triFaces := tf, quadFaces := qf }
        = .ok { triI := ((c + (triLeaves K points fuel f).length : Nat) : Int),
                quadI := ((q + (quadLeaves K points fuel f).length : Nat) : Int),
                triFaces := overwrite tf c (triLeaves K points fuel f),
                quadFaces := overwrite qf q (quadLeaves K points fuel f) } := by
  intro fuel
  induction fuel with
  | zero => intro f c q tf qf h3 hf; omega
  | succ fuel ih =>
    intro f c q tf qf h3 hf hr1 hr2
    by_cases c3 : f.length = 3
    · obtain ⟨e1, e2⟩ := triLeaves_three K points fuel f c3
      rw [e1] at hr1
      rw [splitBody_three K _ points fuel f _ c3, e1, e2]
      simp only [reduceCtorEq, or_self, if_false]
      rw [wr_ok _ _ _ (by simpa using hr1)]
      simp [overwrite]
    · by_cases c4 : f.length = 4
      · obtain ⟨e1, e2⟩ := triLeaves_four K points fuel f c4
        rw [e2] at hr2
        rw [splitBody_four K _ points fuel f _ c4, e1, e2]
        simp only [reduceCtorEq, if_false]
        rw [wr_ok _ _ _ (by simpa using hr2)]
        simp [overwrite]
      · obtain ⟨e1, e2⟩ := triLeaves_general K points fuel f (by omega)
        obtain ⟨a1, a2, b1, b2, hsum, -, -⟩ := subFaces_spec K points f (by omega)
        rw [e1, List.length_append] at hr1
        rw [e2, List.length_append] at hr2
        rw [splitBody_general K _ points fuel f _ (by omega), e1, e2]
        rw [ih _ c q tf qf a1 (by omega) (by omega) (by omega)]
        simp only
        rw [ih _ _ _ _ _ b1 (by omega) (by rw [overwrite_length]; omega)
          (by rw [overwrite_length]; omega)]
        rw [overwrite_append, overwrite_append, List.length_append, List.length_append,
          Nat.add_assoc, Nat.add_assoc]

theorem wr_benign (l : faceList) (i : Int) (v : face) :
    wr l i v = .error .outOfRange ∨ ∃ t, wr l i v = .ok t := by
  unfold wr
  split
  · right; exact ⟨_, rfl⟩
  · left; rfl

/-- For a face of at least 3 vertices and enough depth, no mode reaches the
fatal branch, at the top or in a recursive call, nor exhausts the depth. -/
theorem splitBody_benign (K : GeometryKernel P V S) (mode : splitMode) (points : P) :
    ∀ (fuel : Nat) (f : face) (st : SplitState),
      3 ≤ f.length → f.length ≤ fuel + 2 →
      benign (splitBody K mode points fuel f st) := by
  intro fuel
  induction fuel with
  | zero => intro f st h3 hf; omega
  | succ fuel ih =>
    intro f st h3 hf
    by_cases c3 : f.length = 3
    · rw [splitBody_three K _ points fuel f _ c3]
      split
      · simp [benign]
      · rcases wr_benign st.triFaces st.triI f with h | ⟨t, h⟩ <;> rw [h] <;> simp [benign]
    · by_cases c4 : f.length = 4
      · rw [splitBody_four K _ points fuel f _ c4]
        split
        · simp [benign]
        · split
          · rcases wr_benign st.triFaces st.triI (quadTriangles K points f).head!
              with h | ⟨t, h⟩ <;> rw [h]
            · simp [benign]
            · rcases wr_benign t (st.triI + 1) (quadTriangles K points f).tail.head!
                with h2 | ⟨t2, h2⟩ <;> simp only [h2] <;> simp [benign]
          · split
            · rcases wr_benign st.quadFaces st.quadI f with h | ⟨t, h⟩ <;> rw [h] <;>
                simp [benign]
            · rcases wr_benign st.quadFaces st.quadI f with h | ⟨t, h⟩ <;> rw [h] <;>
                simp [benign]
      · obtain ⟨a1, a2, b1, b2, hsum, -, -⟩ := subFaces_spec K points f (by omega)
        rw [splitBody_general K _ points fuel f _ (by omega)]
        have i1 := ih (subFaces K points f).1 st a1 (by omega)
        cases hr : splitBody K mode points fuel (subFaces K points f).1 st with
        | error e =>
          rw [hr] at i1
          simpa [benign] using i1
        | ok st1 =>
          exact ih (subFaces K points f).2 st1 b1 (by omega)

end SplitQuad

end Foam

/-! ## Splitting: the claims -/

namespace Foam

section SplitClaims

variable {P V S : Type}

/-- With room for `n - 2` triangles at the cursor `c`, `split` in
`SPLITTRIANGLE` mode returns `n - 2` and writes the leaves at the cursor. -/
theorem split_tri_eq (K : GeometryKernel P V S) (points : P) (f : face)
    (c : Nat) (q : Int) (tf qf : faceList)
    (h3 : 3 ≤ f.length) (hroom : c + (f.length - 2) ≤ tf.length) :
    split K .SPLITTRIANGLE points f
        { triI := (c : Int), quadI := q, triFaces := tf, quadFaces := qf }
      = .ok ((f.length : Int) - 2,
          { triI := (c : Int) + ((f.length : Int) - 2), quadI := q,
            triFaces := overwrite tf c (leaves K false points (f.length + 1) f),
            quadFaces := qf }) := by
  obtain ⟨hl, -⟩ := leaves_tri_spec K points (f.length + 1) f h3 (by omega)
  unfold split
  rw [splitBody_tri K points (f.length + 1) f c q tf qf h3 (by omega) hroom]
  simp only [Except.ok.injEq, Prod.mk.injEq, SplitState.mk.injEq, and_true, true_and]
  constructor <;> omega

/-- The entry at position `c + i` after writing `out` at `c` is the `i`-th
face of `out`. -/
theorem overwrite_at (out : List face) (l : faceList) (c i : Nat)
    (h : c + out.length ≤ l.length) (hi : i < out.length) :
    (overwrite l c out)[c + i]? = out[i]? := by
  rw [overwrite_getElem? _ _ _ _ h, if_pos (by omega), Nat.add_sub_cancel_left]

/-- C1: for every face of `n ≥ 3` vertices, every kernel and every point
array, with room for `n - 2` faces at the triangle cursor, `split` in
generate-triangles mode and `triangles` return and produce exactly `n - 2`
triangles: there is a list `out` of `n - 2` faces, each of 3 vertices (the
leaves of the recursion, in order of production), such that the call returns
`n - 2`, advances the triangle cursor by `n - 2`, leaves the quad cursor and
the quad collection as they were, and the final triangle collection holds the
`i`-th face of `out` at the position `triI + i` and is as before at every
other position. -/
theorem split_triangles_count (K : GeometryKernel P V S) (points : P) (f : face)
    (triI : Int) (triFaces : faceList)
    (h3 : 3 ≤ f.length) (h0 : 0 ≤ triI)
    (hroom : triI + ((f.length : Int) - 2) ≤ triFaces.length) :
    ∃ out : List face,
      out = leaves K false points (f.length + 1) f ∧
      out.length + 2 = f.length ∧
      (∀ t ∈ out, t.length = 3) ∧
      (∀ (quadI : Int) (quadFaces : faceList),
        split K .SPLITTRIANGLE points f
            { triI := triI, quadI := quadI, triFaces := triFaces, quadFaces := quadFaces }
          = .ok ((f.length : Int) - 2,
              { triI := triI + ((f.length : Int) - 2), quadI := quadI,
                triFaces := overwrite triFaces triI.toNat out,
                quadFaces := quadFaces })) ∧
      triangles K points f triI triFaces
        = .ok ((f.length : Int) - 2, triI + ((f.length : Int) - 2),
            overwrite triFaces triI.toNat out) ∧
      (overwrite triFaces triI.toNat out).length = triFaces.length ∧
      (∀ i : Nat, i < out.length →
        (overwrite triFaces triI.toNat out)[triI.toNat + i]? = out[i]?) ∧
      (∀ i : Nat, (i < triI.toNat ∨ triI.toNat + out.length ≤ i) →
        (overwrite triFaces triI.toNat out)[i]? = triFaces[i]?) := by
  obtain ⟨c, rfl⟩ := Int.eq_ofNat_of_zero_le h0
  have hr : c + (f.length - 2) ≤ triFaces.length := by omega
  obtain ⟨hl, hm⟩ := leaves_tri_spec K points (f.length + 1) f h3 (by omega)
  rw [Int.toNat_ofNat]
  refine ⟨_, rfl, hl, fun t ht => (hm t ht).1, ?_, ?_, overwrite_length _ _ _, ?_, ?_⟩
  · intro quadI quadFaces
    exact split_tri_eq K points f c quadI triFaces quadFaces h3 hr
  · unfold triangles
    rw [split_tri_eq K points f c 0 triFaces [] h3 hr]
  · intro i hi
    exact overwrite_at _ _ _ _ (by omega) hi
  · intro i hi
    rw [overwrite_getElem? _ _ _ _ (by omega), if_neg (by omega)]

/-- C1, at the pentagon `[0,1,2,3,4]` with the cursor at `1` of a collection
of 4 entries. -/
theorem split_triangles_count_witness :
    ∃ out : List face,
      out = leaves tableKernel false [10, 20, 170, 40, 50]
        (([0, 1, 2, 3, 4] : face).length + 1) [0, 1, 2, 3, 4] ∧
      out.length + 2 = ([0, 1, 2, 3, 4] : face).length ∧
      (∀ t ∈ out, t.length = 3) ∧
      (∀ (quadI : Int) (quadFaces : faceList),
        split tableKernel .SPLITTRIANGLE [10, 20, 170, 40, 50] [0, 1, 2, 3, 4]
            { triI := 1, quadI := quadI, triFaces := [[], [], [], []],
              quadFaces := quadFaces }
          = .ok ((([0, 1, 2, 3, 4] : face).length : Int) - 2,
              { triI := 1 + ((([0, 1, 2, 3, 4] : face).length : Int) - 2),
                quadI := quadI,
                triFaces := overwrite [[], [], [], []] (1 : Int).toNat out,
                quadFaces := quadFaces })) ∧
      triangles tableKernel [10, 20, 170, 40, 50] [0, 1, 2, 3, 4] 1 [[], [], [], []]
        = .ok ((([0, 1, 2, 3, 4] : face).length : Int) - 2,
            1 + ((([0, 1, 2, 3, 4] : face).length : Int) - 2),
            overwrite [[], [], [], []] (1 : Int).toNat out) ∧
      (overwrite [[], [], [], []] (1 : Int).toNat out).length
        = ([[], [], [], []] : faceList).length ∧
      (∀ i : Nat, i < out.length →
        (overwrite [[], [], [], []] (1 : Int).toNat out)[(1 : Int).toNat + i]? = out[i]?) ∧
      (∀ i : Nat, (i < (1 : Int).toNat ∨ (1 : Int).toNat + out.length ≤ i) →
        (overwrite [[], [], [], []] (1 : Int).toNat out)[i]?
          = ([[], [], [], []] : faceList)[i]?) :=
  split_triangles_count tableKernel [10, 20, 170, 40, 50] [0, 1, 2, 3, 4] 1
    [[], [], [], []] (by decide) (by decide) (by decide)

/-- C2: in every mode, for every kernel, point array, cursors and
collections, `split` ends in the fatal error exactly when the face has fewer
than 3 vertices.  The error stops the call, so for a face of 3 or more
vertices no recursive call reaches the fatal branch either: the two sub-faces
on which a face of more than 4 vertices recurses have at least 3 vertices
themselves, and the depth of the recursion is never exhausted. -/
theorem split_fatal_iff (K : GeometryKernel P V S) (mode : splitMode) (points : P)
    (f : face) (st : SplitState) :
    (split K mode points f st = .error .fatal ↔ f.length < 3) ∧
    split K mode points f st ≠ .error .outOfFuel ∧
    (4 < f.length →
      3 ≤ (subFaces K points f).1.length ∧ 3 ≤ (subFaces K points f).2.length) := by
  refine ⟨?_, ?_, fun h4 =>
    ⟨(subFaces_spec K points f (by omega)).1, (subFaces_spec K points f (by omega)).2.2.1⟩⟩
  · by_cases h : f.length < 3
    · have e : split K mode points f st = .error .fatal := by
        unfold split
        rw [splitBody, if_pos (by omega)]
      rw [e]
      simp [h]
    · have hb := splitBody_benign K mode points (f.length + 1) f st (by omega) (by omega)
      unfold split
      cases hr : splitBody K mode points (f.length + 1) f st with
      | error e =>
        rw [hr] at hb
        simp only [benign, ne_eq, Except.error.injEq] at hb
        simp [h, hb.1]
      | ok st1 => simp [h]
  · by_cases h : f.length < 3
    · have e : split K mode points f st = .error .fatal := by
        unfold split
        rw [splitBody, if_pos (by omega)]
      rw [e]
      simp
    · have hb := splitBody_benign K mode points (f.length + 1) f st (by omega) (by omega)
      unfold split
      cases hr : splitBody K mode points (f.length + 1) f st with
      | error e =>
        rw [hr] at hb
        simp only [benign, ne_eq, Except.error.injEq] at hb
        simp [hb.2]
      | ok st1 => simp

/-- C3: for every face of `n ≥ 3` vertices, every kernel and point array,
with room for `n - 2` faces at the triangle cursor, triangle-only splitting
returns, and in the final triangle collection every position from the old
cursor up to the new one holds a face of exactly 3 vertices, each a vertex of
the original face; every other position, and the quad collection, are as
before, so these are all the faces written. -/
theorem split_triangles_vertices (K : GeometryKernel P V S) (points : P) (f : face)
    (st : SplitState) (h3 : 3 ≤ f.length) (h0 : 0 ≤ st.triI)
    (hroom : st.triI + ((f.length : Int) - 2) ≤ st.triFaces.length) :
    ∃ r st1, split K .SPLITTRIANGLE points f st = .ok (r, st1) ∧
      st1.triI = st.triI + ((f.length : Int) - 2) ∧
      st1.quadFaces = st.quadFaces ∧
      st1.triFaces.length = st.triFaces.length ∧
      (∀ i : Nat, st.triI ≤ i → (i : Int) < st1.triI →
        ∃ t, st1.triFaces[i]? = some t ∧ t.length = 3 ∧ ∀ v ∈ t, v ∈ f) ∧
      (∀ i : Nat, ((i : Int) < st.triI ∨ st1.triI ≤ i) →
        st1.triFaces[i]? = st.triFaces[i]?) := by
  obtain ⟨t0, q, tf, qf⟩ := st
  simp only at h0 hroom ⊢
  obtain ⟨c, rfl⟩ := Int.eq_ofNat_of_zero_le h0
  have hr : c + (f.length - 2) ≤ tf.length := by omega
  obtain ⟨hl, hm⟩ := leaves_tri_spec K points (f.length + 1) f h3 (by omega)
  refine ⟨_, _, split_tri_eq K points f c q tf qf h3 hr, rfl, rfl,
    overwrite_length _ _ _, ?_, ?_⟩
  · intro i hi1 hi2
    simp only at hi2
    rw [overwrite_getElem? _ _ _ _ (by omega), if_pos (by omega)]
    have hlt : i - c < (leaves K false points (f.length + 1) f).length := by omega
    refine ⟨(leaves K false points (f.length + 1) f)[i - c], ?_, ?_⟩
    · exact List.getElem?_eq_getElem hlt
    · exact hm _ (List.getElem_mem _)
  · intro i hi
    simp only at hi
    rw [overwrite_getElem? _ _ _ _ (by omega), if_neg (by omega)]

/-- C3, at the pentagon `[0,1,2,3,4]` written into a collection of 3 entries. -/
theorem split_triangles_vertices_witness :
    ∃ r st1, split tableKernel .SPLITTRIANGLE [10, 20, 170, 40, 50] [0, 1, 2, 3, 4]
        { triI := 0, quadI := 0, triFaces := [[], [], []], quadFaces := [] }
          = .ok (r, st1) ∧
      st1.triI = 0 + ((([0, 1, 2, 3, 4] : face).length : Int) - 2) ∧
      st1.quadFaces = [] ∧
      st1.triFaces.length = ([[], [], []] : faceList).length ∧
      (∀ i : Nat, (0 : Int) ≤ i → (i : Int) < st1.triI →
        ∃ t, st1.triFaces[i]? = some t ∧ t.length = 3 ∧
          ∀ v ∈ t, v ∈ ([0, 1, 2, 3, 4] : face)) ∧
      (∀ i : Nat, ((i : Int) < 0 ∨ st1.triI ≤ i) →
        st1.triFaces[i]? = ([[], [], []] : faceList)[i]?) :=
  split_triangles_vertices tableKernel [10, 20, 170, 40, 50] [0, 1, 2, 3, 4]
    { triI := 0, quadI := 0, triFaces := [[], [], []], quadFaces := [] }
    (by decide) (by decide) (by decide)

/-- C4: for every face of `n ≥ 3` vertices, every kernel and point array
there are numbers `T` and `Q` such that the count-only quad mode, whatever
the collections, adds `T` to the triangle counter and `Q` to the quad counter,
returns `T + Q` and leaves both collections as they are (so does
`nTrianglesQuads`, whose collections are empty), and the generating quad mode
`trianglesQuads`, with room for `T` and `Q` faces at its cursors, advances the
two cursors by the same `T` and `Q` and returns the same `T + Q`. -/
theorem count_quads_agrees (K : GeometryKernel P V S) (points : P) (f : face)
    (h3 : 3 ≤ f.length) :
    ∃ T Q : Nat,
      (∀ st : SplitState, split K .COUNTQUAD points f st
        = .ok ((T : Int) + Q, { st with triI := st.triI + T, quadI := st.quadI + Q })) ∧
      (∀ triI quadI : Int, nTrianglesQuads K points f triI quadI
        = .ok ((T : Int) + Q, triI + T, quadI + Q)) ∧
      (∀ st : SplitState, 0 ≤ st.triI → st.triI + T ≤ st.triFaces.length →
        0 ≤ st.quadI → st.quadI + Q ≤ st.quadFaces.length →
        ∃ tf qf, trianglesQuads K points f st
          = .ok ((T : Int) + Q,
              { triI := st.triI + T, quadI := st.quadI + Q,
                triFaces := tf, quadFaces := qf })) := by
  refine ⟨(triLeaves K points (f.length + 1) f).length,
    (quadLeaves K points (f.length + 1) f).length, ?_, ?_, ?_⟩
  · intro st
    obtain ⟨t, q, tf, qf⟩ := st
    unfold split
    rw [splitBody_countQuad K points (f.length + 1) f t q tf qf h3 (by omega)]
    simp only [Except.ok.injEq, Prod.mk.injEq, and_true]
    omega
  · intro triI quadI
    unfold nTrianglesQuads split
    rw [splitBody_countQuad K points (f.length + 1) f triI quadI [] [] h3 (by omega)]
    simp only [Except.ok.injEq, Prod.mk.injEq, and_true]
    omega
  · intro st h0 hr1 h1 hr2
    obtain ⟨t, q, tf, qf⟩ := st
    simp only at h0 hr1 h1 hr2 ⊢
    obtain ⟨c, rfl⟩ := Int.eq_ofNat_of_zero_le h0
    obtain ⟨d, rfl⟩ := Int.eq_ofNat_of_zero_le h1
    unfold trianglesQuads split
    rw [splitBody_quad K points (f.length + 1) f c d tf qf h3 (by omega)
      (by omega) (by omega)]
    refine ⟨overwrite tf c (triLeaves K points (f.length + 1) f),
      overwrite qf d (quadLeaves K points (f.length + 1) f), ?_⟩
    simp only [Except.ok.injEq, Prod.mk.injEq, SplitState.mk.injEq, and_true, true_and]
    refine ⟨?_, ?_, ?_⟩ <;> push_cast <;> omega

/-- C4, at the hexagon `[0,1,2,3,4,5]`. -/
theorem count_quads_agrees_witness :
    ∃ T Q : Nat,
      (∀ st : SplitState,
        split tableKernel .COUNTQUAD [10, 20, 170, 40, 50, 60] [0, 1, 2, 3, 4, 5] st
        = .ok ((T : Int) + Q, { st with triI := st.triI + T, quadI := st.quadI + Q })) ∧
      (∀ triI quadI : Int,
        nTrianglesQuads tableKernel [10, 20, 170, 40, 50, 60] [0, 1, 2, 3, 4, 5] triI quadI
        = .ok ((T : Int) + Q, triI + T, quadI + Q)) ∧
      (∀ st : SplitState, 0 ≤ st.triI → st.triI + T ≤ st.triFaces.length →
        0 ≤ st.quadI → st.quadI + Q ≤ st.quadFaces.length →
        ∃ tf qf,
          trianglesQuads tableKernel [10, 20, 170, 40, 50, 60] [0, 1, 2, 3, 4, 5] st
          = .ok ((T : Int) + Q,
              { triI := st.triI + T, quadI := st.quadI + Q,
                triFaces := tf, quadFaces := qf })) :=
  count_quads_agrees tableKernel [10, 20, 170, 40, 50, 60] [0, 1, 2, 3, 4, 5] (by decide)

end SplitClaims

end Foam

/-! ## Collapsing -/

namespace Foam

theorem at0_eq_of_getElem? {f : face} {i : Nat} {x : label} (h : f[i]? = some x) :
    at0 f i = x := by
  unfold at0
  rw [List.getD_eq_getElem?_getD, h]
  rfl

theorem take_set_self (l : face) (n : Nat) (x : label) (h : n < l.length) :
    (l.set n x).take (n + 1) = l.take n ++ [x] := by
  rw [List.take_succ]
  have e1 : List.take n (l.set n x) = List.take n l := by
    apply List.ext_getElem?
    intro j
    rw [List.getElem?_take, List.getElem?_take, List.getElem?_set]
    by_cases hj : j < n
    · rw [if_pos hj, if_pos hj, if_neg (by omega)]
    · rw [if_neg hj, if_neg hj]
  rw [e1]
  simp [h]

/-- The loop of `collapse` from position `i` on: the part of the face up to
`ci` grows by the run heads of the part not yet read. -/
theorem collapse_loop : ∀ (rest g : face) (ci i : Nat),
    g.length = i + rest.length → ci < i → g.drop i = rest →
    ((List.range' i rest.length).foldl collapseStep (g, ci)).2 < g.length ∧
    ((List.range' i rest.length).foldl collapseStep (g, ci)).1.length = g.length ∧
    ((List.range' i rest.length).foldl collapseStep (g, ci)).1.take
        (((List.range' i rest.length).foldl collapseStep (g, ci)).2 + 1)
      = g.take (ci + 1) ++ runHeadsFrom (at0 g ci) rest := by
  intro rest
  induction rest with
  | nil =>
    intro g ci i hl hc _
    simp only [List.length_nil, List.range'_zero, List.foldl_nil, runHeadsFrom,
      List.append_nil, and_true]
    simp only [List.length_nil] at hl
    omega
  | cons x rest ih =>
    intro g ci i hl hc hd
    simp only [List.length_cons] at hl
    have hx : at0 g i = x := by
      apply at0_eq_of_getElem?
      have := List.getElem?_drop g i 0
      rw [hd] at this
      simpa using this.symm
    have hd1 : g.drop (i + 1) = rest := by
      have : g.drop (i + 1) = (g.drop i).drop 1 := by rw [List.drop_drop, Nat.add_comm]
      rw [this, hd]; rfl
    simp only [List.length_cons, List.range'_succ, List.foldl_cons]
    by_cases hne : x = at0 g ci
    · have hstep : collapseStep (g, ci) i = (g, ci) := by
        unfold collapseStep
        simp only [hx]
        rw [if_neg (by simpa using hne)]
      rw [hstep]
      obtain ⟨i1, i2, i3⟩ := ih g ci (i + 1) (by omega) (by omega) hd1
      refine ⟨i1, i2, ?_⟩
      rw [i3]
      simp only [runHeadsFrom]
      rw [if_pos hne]
    · have hstep : collapseStep (g, ci) i = (g.set (ci + 1) x, ci + 1) := by
        unfold collapseStep
        simp only [hx]
        rw [if_pos (by simpa using hne)]
      rw [hstep]
      have hd2 : (g.set (ci + 1) x).drop (i + 1) = rest := by
        rw [List.drop_set_of_lt _ _ (by omega)]; exact hd1
      have hat : at0 (g.set (ci + 1) x) (ci + 1) = x := by
        apply at0_eq_of_getElem?
        rw [List.getElem?_set]
        simp
        omega
      obtain ⟨i1, i2, i3⟩ := ih (g.set (ci + 1) x) (ci + 1) (i + 1)
        (by rw [List.length_set]; omega) (by omega) hd2
      rw [List.length_set] at i1 i2
      refine ⟨i1, i2, ?_⟩
      rw [i3, hat, take_set_self _ _ _ (by omega)]
      simp only [runHeadsFrom]
      rw [if_neg hne]
      simp

theorem keepRunHeads_ne_nil {f : face} (h : f ≠ []) : keepRunHeads f ≠ [] := by
  cases f with
  | nil => exact absurd rfl h
  | cons x rest => simp [keepRunHeads]

/-- The face that `collapse` leaves is the one the specification words. -/
theorem collapse_eq_spec (f : face) (h : f.length > 1) :
    collapse f = (((dropLastIfFirst (keepRunHeads f)).length : Int),
      dropLastIfFirst (keepRunHeads f)) := by
  cases f with
  | nil => simp at h
  | cons x0 rest =>
    obtain ⟨h1, h2, h3⟩ := collapse_loop rest (x0 :: rest) 0 1
      (by simp; omega) (by omega) (by simp)
    have hk : keepRunHeads (x0 :: rest) = x0 :: runHeadsFrom x0 rest := rfl
    have hat0 : at0 (x0 :: rest) 0 = x0 := rfl
    rw [hat0] at h3
    simp only [List.take_succ_cons, List.take_zero, List.singleton_append, zero_add] at h3
    unfold collapse
    rw [if_pos h]
    simp only [List.length_cons, Nat.add_sub_cancel]
    generalize (List.range' 1 rest.length).foldl collapseStep (x0 :: rest, 0) = s at h1 h2 h3
    rw [hk]
    generalize hK : x0 :: runHeadsFrom x0 rest = kept at h3
    have hlen : kept.length = s.2 + 1 := by
      rw [← h3, List.length_take]; omega
    have hlast : kept[s.2]? = s.1[s.2]? := by
      rw [← h3, List.getElem?_take_of_lt (by omega)]
    have hhead : kept[0]? = s.1[0]? := by
      rw [← h3, List.getElem?_take_of_lt (by omega)]
    have hh0 : kept[0]? = some x0 := by rw [← hK]; simp
    have hs0 : at0 s.1 0 = x0 := at0_eq_of_getElem? (by rw [← hhead, hh0])
    have hs2 : s.1[s.2]? = some (at0 s.1 s.2) := by
      rw [List.getElem?_eq_getElem (by omega)]
      congr 1
      exact (at0_eq_of_getElem? (List.getElem?_eq_getElem (by omega))).symm
    generalize at0 s.1 s.2 = y at hs2
    have hd : dropLastIfFirst kept = if y = x0 then kept.dropLast else kept := by
      have e1 : kept.head? = some x0 := by rw [List.head?_eq_getElem?, hh0]
      have e2 : kept.getLast? = some y := by
        rw [List.getLast?_eq_getElem?, hlen, Nat.add_sub_cancel, hlast, hs2]
      unfold dropLastIfFirst
      rw [e1, e2]
    rw [hd, hs0]
    by_cases he : y = x0
    · rw [if_neg (by simpa using he), if_pos he]
      have : List.take s.2 s.1 = kept.dropLast := by
        rw [List.dropLast_eq_take, ← h3, List.take_take, List.length_take]
        congr 1
        omega
      rw [this]
    · rw [if_pos (by simpa using he), if_neg he, h3]

/-- C10: for every face of more than one vertex `collapse()` leaves exactly
the list obtained by keeping the first vertex of each run of consecutive
equal vertices and then dropping the last kept vertex if it equals the first
one, and returns its length; a face of at most one vertex is left unchanged;
and `[1,1,2,3,3]` becomes `[1,2,3]` with 3 returned. -/
theorem collapse_spec (f : face) :
    (f.length > 1 →
      collapse f = (((dropLastIfFirst (keepRunHeads f)).length : Int),
        dropLastIfFirst (keepRunHeads f))) ∧
    (f.length ≤ 1 → collapse f = ((f.length : Int), f)) ∧
    collapse f = (((collapseSpec f).length : Int), collapseSpec f) ∧
    collapse [1, 1, 2, 3, 3] = (3, [1, 2, 3]) := by
  refine ⟨collapse_eq_spec f, ?_, ?_, by decide⟩
  · intro h
    unfold collapse
    rw [if_neg (by omega)]
  · unfold collapseSpec
    by_cases h : f.length > 1
    · rw [if_pos h]; exact collapse_eq_spec f h
    · rw [if_neg h]
      unfold collapse
      rw [if_neg h]

end Foam

/-! ## Circular comparison: the loops -/

namespace Foam

theorem at0_eq_getElem (f : face) {i : Nat} (h : i < f.length) : at0 f i = f[i] := by
  unfold at0
  exact List.getD_eq_getElem _ _ h

theorem at0_inj {f : face} (hf : f.Nodup) {i j : Nat} (hi : i < f.length)
    (hj : j < f.length) (h : at0 f i = at0 f j) : i = j := by
  rw [at0_eq_getElem f hi, at0_eq_getElem f hj] at h
  exact (hf.getElem_inj_iff).mp h

theorem rd_nat (f : face) (i : Nat) (h : i < f.length) :
    rd f (i : Int) = .ok (at0 f i) := by
  unfold rd
  rw [if_pos (by omega)]
  simp only [Int.toNat_ofNat, List.get?_eq_getElem?, List.getElem?_eq_getElem h]
  rw [at0_eq_getElem f h]

theorem rd_nil (i : Int) : rd [] i = .error .outOfRange := by
  unfold rd
  split <;> simp

theorem findFirst_eq (x : label) : ∀ (b : face) (i : Int),
    findFirst x b i = if x ∈ b then i + (List.indexOf x b : Int) else -1 := by
  intro b
  induction b with
  | nil => intro i; simp [findFirst]
  | cons y ys ih =>
    intro i
    unfold findFirst
    by_cases hy : y = x
    · rw [if_pos hy, if_pos (by simp [hy]), List.indexOf_cons_eq _ hy]
      simp
    · rw [if_neg hy, ih, List.indexOf_cons_ne _ hy]
      have hmem : x ∈ y :: ys ↔ x ∈ ys := by
        simp only [List.mem_cons]
        constructor
        · rintro (h | h)
          · exact absurd h.symm hy
          · exact h
        · exact Or.inr
      by_cases hm : x ∈ ys
      · rw [if_pos hm, if_pos (hmem.mpr hm)]
        push_cast
        omega
      · rw [if_neg hm, if_neg (fun h => hm (hmem.mp h))]

theorem wrapUp {n A : Nat} (h : A < n) :
    (if (A : Int) + 1 ≥ (n : Int) then (0 : Int) else (A : Int) + 1)
      = (((A + 1) % n : Nat) : Int) := by
  rw [mod_two_cases (by omega)]
  split <;> split <;> omega

theorem wrapDown {n B : Nat} (h : B < n) :
    (if (B : Int) - 1 < 0 then (n : Int) - 1 else (B : Int) - 1)
      = (((B + n - 1) % n : Nat) : Int) := by
  rw [mod_two_cases (by omega)]
  split <;> split <;> omega

theorem mod_succ_shift (x n t : Nat) : (x % n + 1 + t) % n = (x + (t + 1)) % n := by
  rw [Nat.add_assoc, Nat.mod_add_mod]
  congr 1
  omega

/-- The walk 'up': it ends in a value, and that value is `true` exactly when
the `cnt` elements after `Aptr` in `a` equal those after `Bptr` in `b`. -/
theorem walkUp_spec (a b : face) (n : Nat) (ha : a.length = n) (hb : b.length = n) :
    ∀ (cnt A B : Nat), A < n → B < n →
      ∃ r, walkUp a b cnt (A : Int) (B : Int) = .ok r ∧
        (r = true ↔ ∀ t < cnt, at0 a ((A + 1 + t) % n) = at0 b ((B + 1 + t) % n)) := by
  intro cnt
  induction cnt with
  | zero =>
    intro A B _ _
    exact ⟨true, rfl, by simp⟩
  | succ cnt ih =>
    intro A B hA hB
    have hn : 0 < n := by omega
    unfold walkUp
    simp only [ha, hb]
    rw [wrapUp hA, wrapUp hB]
    rw [rd_nat a _ (by rw [ha]; exact Nat.mod_lt _ hn),
      rd_nat b _ (by rw [hb]; exact Nat.mod_lt _ hn)]
    simp only
    by_cases hxy : at0 a ((A + 1) % n) = at0 b ((B + 1) % n)
    · rw [if_neg (by simpa using hxy)]
      obtain ⟨r, hr, hiff⟩ := ih ((A + 1) % n) ((B + 1) % n)
        (Nat.mod_lt _ hn) (Nat.mod_lt _ hn)
      refine ⟨r, hr, ?_⟩
      rw [hiff]
      constructor
      · intro hall t ht
        cases t with
        | zero => simpa using hxy
        | succ t =>
          have := hall t (by omega)
          rw [mod_succ_shift, mod_succ_shift] at this
          exact this
      · intro hall t ht
        have := hall (t + 1) (by omega)
        rw [mod_succ_shift, mod_succ_shift]
        exact this
    · rw [if_pos (by simpa using hxy)]
      refine ⟨false, rfl, ?_⟩
      simp only [Bool.false_eq_true, false_iff, not_forall]
      exact ⟨0, by omega, by simpa using hxy⟩

theorem at0_reverse (b : face) {i : Nat} (h : i < b.length) :
    at0 b.reverse i = at0 b (b.length - 1 - i) := by
  rw [at0_eq_getElem _ (by simpa using h), at0_eq_getElem _ (by omega),
    List.getElem_reverse]

theorem reverse_step (b : face) (n : Nat) (hb : b.length = n) {B : Nat} (hB : B < n) :
    (n - 1 - B + 1) % n = n - 1 - (B + n - 1) % n ∧
    at0 b.reverse ((n - 1 - B + 1) % n) = at0 b ((B + n - 1) % n) := by
  have hn : 0 < n := by omega
  have hrel : (n - 1 - B + 1) % n = n - 1 - (B + n - 1) % n := by
    rw [mod_two_cases (show n - 1 - B + 1 < 2 * n by omega),
      mod_two_cases (show B + n - 1 < 2 * n by omega)]
    split <;> split <;> omega
  refine ⟨hrel, ?_⟩
  have hB1 : (B + n - 1) % n < n := Nat.mod_lt _ hn
  rw [at0_reverse b (by rw [hb]; exact Nat.mod_lt _ hn), hb, hrel]
  congr 1
  omega

/-- The walk 'down' along `b` is the walk 'up' along `b` reversed. -/
theorem walkDown_eq_walkUp (a b : face) (n : Nat) (hb : b.length = n) :
    ∀ (cnt : Nat) (A : Int) (B : Nat), B < n →
      walkDown a b cnt A (B : Int) = walkUp a b.reverse cnt A ((n - 1 - B : Nat) : Int) := by
  intro cnt
  induction cnt with
  | zero => intro A B _; rfl
  | succ cnt ih =>
    intro A B hB
    have hn : 0 < n := by omega
    unfold walkDown walkUp
    simp only [hb, List.length_reverse]
    rw [wrapDown hB, wrapUp (show n - 1 - B < n by omega)]
    have hB1 : (B + n - 1) % n < n := Nat.mod_lt _ hn
    obtain ⟨hrel, hval⟩ := reverse_step b n hb hB
    rw [rd_nat b _ (by rw [hb]; exact hB1),
      rd_nat b.reverse _ (by rw [List.length_reverse, hb]; exact Nat.mod_lt _ hn)]
    rw [hval, hrel]
    cases rd a (if A + 1 ≥ ↑a.length then 0 else A + 1) with
    | error e => rfl
    | ok x =>
      simp only
      split
      · rfl
      · exact ih _ _ hB1

end Foam

/-! ## Circular comparison: direction and alignment -/

namespace Foam

theorem wrapEq {n j : Nat} (h : j < n) :
    (if (j : Int) + 1 = (n : Int) then (0 : Int) else (j : Int) + 1)
      = (((j + 1) % n : Nat) : Int) := by
  rw [mod_two_cases (by omega)]
  split <;> split <;> omega

theorem wrapBack {n j : Nat} (h : j < n) (hn : 2 ≤ n) :
    (if (((j + 1) % n : Nat) : Int) - 2 < 0 then (((j + 1) % n : Nat) : Int) - 2 + (n : Int)
      else (((j + 1) % n : Nat) : Int) - 2)
      = (((j + n - 1) % n : Nat) : Int) := by
  rw [mod_two_cases (show j + 1 < 2 * n by omega),
    mod_two_cases (show j + n - 1 < 2 * n by omega)]
  split <;> split <;> split <;> omega

theorem aligned_of_walk (a b : face) (n : Nat) (ha : a.length = n) (hb : b.length = n)
    (hn : 2 ≤ n) (j : Nat) (h0 : at0 a 0 = at0 b j) (hj : j < n)
    (h1 : at0 a 1 = at0 b ((j + 1) % n)) :
    (∀ t < n - 2, at0 a ((1 + 1 + t) % n) = at0 b (((j + 1) % n + 1 + t) % n)) ↔
      aligned a b j := by
  unfold aligned
  rw [ha, hb]
  constructor
  · intro hall t ht
    rcases Nat.lt_or_ge t 2 with h2 | h2
    · rcases Nat.lt_or_ge t 1 with h | h
      · have : t = 0 := by omega
        subst this
        rw [Nat.add_zero, Nat.mod_eq_of_lt hj]; exact h0
      · have : t = 1 := by omega
        subst this
        exact h1
    · have := hall (t - 2) (by omega)
      rw [mod_succ_shift, Nat.mod_eq_of_lt (show 1 + 1 + (t - 2) < n by omega)] at this
      have e1 : 1 + 1 + (t - 2) = t := by omega
      have e2 : j + 1 + (t - 2 + 1) = j + t := by omega
      rw [e1, e2] at this
      exact this
  · intro hall t ht
    have := hall (t + 2) (by omega)
    rw [mod_succ_shift, Nat.mod_eq_of_lt (show 1 + 1 + t < n by omega)]
    have e1 : 1 + 1 + t = t + 2 := by omega
    have e2 : j + 1 + (t + 1) = j + (t + 2) := by omega
    rw [e1, e2]
    exact this

/-- The search for the direction and the walk: the result is `+1` exactly when
`a` is aligned with `b` at `j`, and `-1` exactly when the upward neighbour does
not match and `a` is aligned with `b` reversed at the mirrored position. -/
theorem compareDirection_spec (a b : face) (n : Nat) (ha : a.length = n)
    (hb : b.length = n) (hn : 2 ≤ n) (j : Nat) (hj : j < n)
    (h0 : at0 a 0 = at0 b j) :
    ∃ r, compareDirection a b (at0 a 1) (j : Int) = .ok r ∧
      (r = 1 ∨ r = -1 ∨ r = 0) ∧
      (r = 1 ↔ aligned a b j) ∧
      (r = -1 ↔ at0 b ((j + 1) % n) ≠ at0 a 1 ∧ aligned a b.reverse (n - 1 - j)) := by
  have hn0 : 0 < n := by omega
  have hj1 : (j + 1) % n < n := Nat.mod_lt _ hn0
  have hj4 : (j + n - 1) % n < n := Nat.mod_lt _ hn0
  unfold compareDirection
  simp only [hb, ha]
  rw [wrapEq hj, rd_nat b _ (by rw [hb]; exact hj1)]
  simp only
  by_cases hup : at0 b ((j + 1) % n) = at0 a 1
  · rw [if_pos hup]
    obtain ⟨r, hr, hiff⟩ := walkUp_spec a b n ha hb (n - 2) 1 ((j + 1) % n) (by omega) hj1
    have hr1 : walkUp a b (n - 2) 1 (((j + 1) % n : Nat) : Int) = .ok r := by
      simpa using hr
    rw [hr1]
    simp only
    rw [aligned_of_walk a b n ha hb hn j h0 hj hup.symm] at hiff
    cases r with
    | true =>
      refine ⟨1, rfl, Or.inl rfl, ?_, ?_⟩
      · simpa using hiff
      · simp [hup]
    | false =>
      refine ⟨0, rfl, Or.inr (Or.inr rfl), ?_, ?_⟩
      · simpa using hiff
      · simp [hup]
  · rw [if_neg hup]
    have hnot : ¬ aligned a b j := by
      intro hal
      have := hal 1 (by omega)
      rw [hb] at this
      exact hup this.symm
    rw [wrapBack hj hn, rd_nat b _ (by rw [hb]; exact hj4)]
    simp only
    obtain ⟨hrel, hval⟩ := reverse_step b n hb hj
    have hj' : n - 1 - j < n := by omega
    have h0' : at0 a 0 = at0 b.reverse (n - 1 - j) := by
      rw [at0_reverse b (by omega), hb, h0]
      congr 1
      omega
    by_cases hdown : at0 b ((j + n - 1) % n) = at0 a 1
    · rw [if_pos hdown, walkDown_eq_walkUp a b n hb _ _ _ hj4]
      obtain ⟨r, hr, hiff⟩ := walkUp_spec a b.reverse n ha (by simpa using hb)
        (n - 2) 1 (n - 1 - (j + n - 1) % n) (by omega) (by omega)
      have hr1 : walkUp a b.reverse (n - 2) 1 ((n - 1 - (j + n - 1) % n : Nat) : Int)
          = .ok r := by simpa using hr
      rw [hr1]
      simp only
      rw [← hrel] at hiff
      have e : n - 1 - j + 1 = (n - 1 - j) + 1 := rfl
      rw [aligned_of_walk a b.reverse n ha (by simpa using hb) hn (n - 1 - j) h0' hj'
        (by rw [hval, hdown])] at hiff
      cases r with
      | true =>
        refine ⟨-1, rfl, Or.inr (Or.inl rfl), ?_, ?_⟩
        · simpa using hnot
        · simp only [true_iff]
          exact ⟨hup, hiff.mp rfl⟩
      | false =>
        refine ⟨0, rfl, Or.inr (Or.inr rfl), ?_, ?_⟩
        · simpa using hnot
        · simp only [Bool.false_eq_true, false_iff] at hiff
          simp [hiff]
    · rw [if_neg hdown]
      refine ⟨0, rfl, Or.inr (Or.inr rfl), ?_, ?_⟩
      · simpa using hnot
      · have : ¬ aligned a b.reverse (n - 1 - j) := by
          intro hal
          have := hal 1 (by omega)
          rw [List.length_reverse, hb, hval] at this
          exact hdown this.symm
        simp [this]

theorem at0_rotate (b : face) (j t : Nat) (ht : t < b.length) :
    at0 (b.rotate j) t = at0 b ((j + t) % b.length) := by
  unfold at0
  rw [List.getD_eq_getElem?_getD, List.getD_eq_getElem?_getD, List.getElem?_rotate ht,
    Nat.add_comm]

theorem aligned_iff_rotate (a b : face) (h : a.length = b.length) (j : Nat) :
    aligned a b j ↔ a = b.rotate j := by
  constructor
  · intro hal
    apply List.ext_getElem (by rw [List.length_rotate, h])
    intro t h1 h2
    have := hal t h1
    rw [← at0_rotate b j t (by omega), at0_eq_getElem _ h1, at0_eq_getElem _ h2] at this
    exact this
  · intro e t ht
    rw [← at0_rotate b j t (by omega), ← e]

theorem isRotated_iff_aligned (a b : face) (h : a.length = b.length)
    (hn : 0 < b.length) :
    List.IsRotated a b ↔ ∃ j, j < b.length ∧ aligned a b j := by
  constructor
  · intro hr
    obtain ⟨k, hk⟩ := hr.symm
    refine ⟨k % b.length, Nat.mod_lt _ hn, ?_⟩
    rw [aligned_iff_rotate a b h, List.rotate_mod, hk]
  · rintro ⟨j, -, hal⟩
    rw [aligned_iff_rotate a b h] at hal
    exact List.IsRotated.symm ⟨j, hal.symm⟩

/-- In a face without repeated labels, an alignment position is the first
position of `a`'s first label. -/
theorem aligned_index (a b : face) (hb : b.Nodup) (hn : 0 < a.length) (j : Nat)
    (hj : j < b.length) (hal : aligned a b j) :
    at0 a 0 ∈ b ∧ List.indexOf (at0 a 0) b = j := by
  have h0 := hal 0 hn
  rw [Nat.add_zero, Nat.mod_eq_of_lt hj, at0_eq_getElem b hj] at h0
  rw [h0]
  exact ⟨List.getElem_mem _, List.indexOf_getElem hb j hj⟩

end Foam

/-! ## Circular comparison: faces without repeated labels -/

namespace Foam

theorem degenerate_false (a : face) (n : Nat) (ha : a.length = n) (hn : 2 ≤ n)
    (hd1 : at0 a 1 ≠ at0 a 0) (hd2 : at0 a 0 ≠ at0 a (n - 1)) :
    degenerate a (at0 a 0) (at0 a 1) = .ok false := by
  unfold degenerate
  rw [if_pos (by omega), if_neg hd1]
  have : ((a.length : Int) - 1) = ((n - 1 : Nat) : Int) := by omega
  rw [this, rd_nat a _ (by omega)]
  simp [hd2]

/-- On faces of equal size `n ≥ 2` whose first label differs from the second
and from the last, `compare` does not recurse: it is the search for the
direction from the first position of `a[0]` in `b`. -/
theorem compareBody_nondegenerate (a b : face) (n : Nat) (ha : a.length = n)
    (hb : b.length = n) (hn : 2 ≤ n)
    (hd1 : at0 a 1 ≠ at0 a 0) (hd2 : at0 a 0 ≠ at0 a (n - 1)) (fuel : Nat) :
    compareBody (fuel + 1) a b =
      if at0 a 0 ∈ b then
        compareDirection a b (at0 a 1) (List.indexOf (at0 a 0) b : Int)
      else .ok 0 := by
  have r0 : rd a 0 = .ok (at0 a 0) := by simpa using rd_nat a 0 (by omega)
  have r1 : rd a 1 = .ok (at0 a 1) := by simpa using rd_nat a 1 (by omega)
  rw [compareBody]
  rw [if_neg (by simp [ha, hb]), r0]
  simp only
  rw [findFirst_eq]
  by_cases hm : at0 a 0 ∈ b
  · rw [if_pos hm, if_pos hm, if_neg (by omega), r1]
    simp only
    rw [degenerate_false a n ha hn hd1 hd2]
    simp
  · rw [if_neg hm, if_neg hm, if_pos (by omega)]

theorem mod_succ_ne_pred {n j : Nat} (hj : j < n) (hn : 3 ≤ n) :
    (j + 1) % n ≠ (j + n - 1) % n := by
  rw [mod_two_cases (show j + 1 < 2 * n by omega),
    mod_two_cases (show j + n - 1 < 2 * n by omega)]
  split <;> split <;> omega

/-- For two faces of the same size `n ≥ 3`, each without repeated labels,
`compare` returns `+1`, `-1` or `0`: `+1` exactly when `b` is a rotation of
`a`, `-1` exactly when `b` is a rotation of `a` reversed. -/
theorem compare_nodup (a b : face) (ha : a.Nodup) (hb : b.Nodup) (h3 : 3 ≤ a.length)
    (hlen : a.length = b.length) :
    ∃ r, compare a b = .ok r ∧ (r = 1 ∨ r = -1 ∨ r = 0) ∧
      (r = 1 ↔ List.IsRotated a b) ∧ (r = -1 ↔ List.IsRotated a.reverse b) := by
  have hbn : b.length = a.length := hlen.symm
  have hd1 : at0 a 1 ≠ at0 a 0 := fun h => by
    have := at0_inj ha (by omega) (by omega) h
    omega
  have hd2 : at0 a 0 ≠ at0 a (a.length - 1) := fun h => by
    have := at0_inj ha (by omega) (by omega) h
    omega
  unfold compare
  rw [compareBody_nondegenerate a b a.length rfl hbn (by omega) hd1 hd2]
  by_cases hm : at0 a 0 ∈ b
  · rw [if_pos hm]
    have hj : List.indexOf (at0 a 0) b < a.length := by
      rw [← hbn]; exact List.indexOf_lt_length.mpr hm
    have h0 : at0 a 0 = at0 b (List.indexOf (at0 a 0) b) := by
      rw [at0_eq_getElem b (by omega), List.getElem_indexOf]
    obtain ⟨r, hr, hcases, hone, hneg⟩ :=
      compareDirection_spec a b a.length rfl hbn (by omega) _ hj h0
    refine ⟨r, hr, hcases, ?_, ?_⟩
    · rw [hone, isRotated_iff_aligned a b hlen (by omega)]
      constructor
      · intro hal
        exact ⟨_, by omega, hal⟩
      · rintro ⟨j, hjb, hal⟩
        obtain ⟨-, hidx⟩ := aligned_index a b hb (by omega) j hjb hal
        rw [hidx]
        exact hal
    · rw [hneg, List.isRotated_reverse_comm_iff,
        isRotated_iff_aligned a b.reverse (by simpa using hlen) (by simp; omega)]
      constructor
      · rintro ⟨-, hal⟩
        exact ⟨_, by simp; omega, hal⟩
      · rintro ⟨j, hjb, hal⟩
        rw [List.length_reverse] at hjb
        have hj0 := hal 0 (by omega)
        rw [Nat.add_zero, List.length_reverse, Nat.mod_eq_of_lt hjb,
          at0_reverse b hjb, h0] at hj0
        have hjj := at0_inj hb (by omega) (by omega) hj0
        have hje : j = a.length - 1 - List.indexOf (at0 a 0) b := by omega
        rw [hje] at hal
        refine ⟨?_, hal⟩
        intro hup
        have h1 := hal 1 (by omega)
        rw [List.length_reverse, hbn, (reverse_step b a.length hbn hj).2, ← hup] at h1
        have := at0_inj hb (by rw [hbn]; exact Nat.mod_lt _ (by omega))
          (by rw [hbn]; exact Nat.mod_lt _ (by omega)) h1
        exact mod_succ_ne_pred hj h3 this
  · rw [if_neg hm]
    have hmem : at0 a 0 ∈ a := at0_mem a (by omega)
    refine ⟨0, rfl, Or.inr (Or.inr rfl), ?_, ?_⟩
    · constructor
      · intro h; omega
      · intro hr
        exact absurd (hr.perm.subset hmem) hm
    · constructor
      · intro h; omega
      · intro hr
        exact absurd (hr.perm.subset (List.mem_reverse.mpr hmem)) hm

end Foam

/-! ## A face compared with itself -/

namespace Foam

theorem at0_cons_succ (x : label) (l : face) (i : Nat) :
    at0 (x :: l) (i + 1) = at0 l i := by
  simp [at0]

theorem at0_take (l : face) {m i : Nat} (h : i < m) : at0 (l.take m) i = at0 l i := by
  unfold at0
  rw [List.getD_eq_getElem?_getD, List.getD_eq_getElem?_getD,
    List.getElem?_take_of_lt h]

/-- The run heads after `prev`: the first differs from `prev` and no two
neighbours are equal. -/
theorem runHeadsFrom_adjacent : ∀ (l : face) (prev : label),
    (0 < (runHeadsFrom prev l).length → at0 (runHeadsFrom prev l) 0 ≠ prev) ∧
    ∀ i, i + 1 < (runHeadsFrom prev l).length →
      at0 (runHeadsFrom prev l) i ≠ at0 (runHeadsFrom prev l) (i + 1) := by
  intro l
  induction l with
  | nil => intro prev; simp [runHeadsFrom]
  | cons y rest ih =>
    intro prev
    unfold runHeadsFrom
    by_cases hy : y = prev
    · rw [if_pos hy]; exact ih prev
    · rw [if_neg hy]
      obtain ⟨i1, i2⟩ := ih y
      refine ⟨fun _ => by simpa [at0] using hy, ?_⟩
      intro i hi
      simp only [List.length_cons] at hi
      cases i with
      | zero =>
        rw [at0_cons_succ]
        have := i1 (by omega)
        simpa [at0] using this.symm
      | succ i =>
        rw [at0_cons_succ, at0_cons_succ]
        exact i2 i (by omega)

theorem runHeadsFrom_ne_nil : ∀ (l : face) (prev : label),
    (∃ y, y ∈ l ∧ y ≠ prev) → 0 < (runHeadsFrom prev l).length := by
  intro l
  induction l with
  | nil => intro prev ⟨y, hy, _⟩; simp at hy
  | cons z rest ih =>
    intro prev ⟨y, hy, hne⟩
    unfold runHeadsFrom
    by_cases hz : z = prev
    · rw [if_pos hz]
      apply ih
      rcases List.mem_cons.mp hy with h | h
      · exact absurd (h.trans hz) hne
      · exact ⟨y, h, hne⟩
    · rw [if_neg hz]; simp

/-- A face of at least 2 vertices that are not all equal collapses to a face
of at least 2 vertices whose first label differs from its second and from its
last. -/
theorem collapse_nondegenerate (f : face) (h2 : 2 ≤ f.length)
    (hne : ∃ i, i < f.length ∧ at0 f i ≠ at0 f 0) :
    2 ≤ (collapse f).2.length ∧
    at0 (collapse f).2 1 ≠ at0 (collapse f).2 0 ∧
    at0 (collapse f).2 0 ≠ at0 (collapse f).2 ((collapse f).2.length - 1) := by
  rw [collapse_eq_spec f (by omega)]
  simp only
  cases f with
  | nil => simp at h2
  | cons x rest =>
    have hk : keepRunHeads (x :: rest) = x :: runHeadsFrom x rest := rfl
    obtain ⟨a1, a2⟩ := runHeadsFrom_adjacent rest x
    have hpos : 0 < (runHeadsFrom x rest).length := by
      apply runHeadsFrom_ne_nil
      obtain ⟨i, hi, hv⟩ := hne
      cases i with
      | zero => exact absurd rfl hv
      | succ i =>
        rw [at0_cons_succ] at hv
        simp only [List.length_cons] at hi
        exact ⟨at0 rest i, at0_mem rest (by omega), by simpa [at0] using hv⟩
    rw [hk]
    generalize hr : runHeadsFrom x rest = r at a1 a2 hpos
    have hadj : ∀ i, i + 1 < (x :: r).length → at0 (x :: r) i ≠ at0 (x :: r) (i + 1) := by
      intro i hi
      simp only [List.length_cons] at hi
      cases i with
      | zero =>
        rw [at0_cons_succ]
        exact fun h => a1 hpos h.symm
      | succ i =>
        rw [at0_cons_succ, at0_cons_succ]
        exact a2 i (by omega)
    have hx0 : at0 (x :: r) 0 = x := rfl
    have hlast : (x :: r).getLast? = some (at0 (x :: r) r.length) := by
      rw [List.getLast?_eq_getElem?]
      simp only [List.length_cons, Nat.add_sub_cancel]
      rw [List.getElem?_eq_getElem (by simp), at0_eq_getElem _ (by simp)]
    have hd : dropLastIfFirst (x :: r)
        = if at0 (x :: r) r.length = x then (x :: r).dropLast else x :: r := by
      unfold dropLastIfFirst
      rw [hlast]
      rfl
    rw [hd]
    by_cases he : at0 (x :: r) r.length = x
    · rw [if_pos he, List.dropLast_eq_take]
      simp only [List.length_cons, Nat.add_sub_cancel]
      have h01 := hadj 0 (by simp; omega)
      have hlen3 : 2 ≤ r.length := by
        rcases Nat.lt_or_ge r.length 2 with h | h
        · have : r.length = 1 := by omega
          rw [this] at he
          rw [hx0] at h01
          exact absurd he.symm h01
        · exact h
      have hl : (List.take r.length (x :: r)).length = r.length := by
        rw [List.length_take]; simp
      rw [hl]
      refine ⟨hlen3, ?_, ?_⟩
      · rw [at0_take _ (by omega), at0_take _ (by omega)]
        exact fun h => h01 h.symm
      · rw [at0_take _ (by omega), at0_take _ (by omega), hx0]
        have := hadj (r.length - 1) (by simp; omega)
        rw [show r.length - 1 + 1 = r.length by omega, he] at this
        exact fun h => this h.symm
    · rw [if_neg he]
      simp only [List.length_cons, Nat.add_sub_cancel]
      refine ⟨by omega, ?_, ?_⟩
      · exact fun h => hadj 0 (by simp; omega) h.symm
      · rw [hx0]; exact fun h => he h.symm

theorem compareBody_self_nondegenerate (a : face) (hn : 2 ≤ a.length)
    (hd1 : at0 a 1 ≠ at0 a 0) (hd2 : at0 a 0 ≠ at0 a (a.length - 1)) (fuel : Nat) :
    compareBody (fuel + 1) a a = .ok 1 := by
  rw [compareBody_nondegenerate a a a.length rfl rfl hn hd1 hd2, if_pos (at0_mem a (by omega))]
  have hidx : List.indexOf (at0 a 0) a = 0 := by
    cases a with
    | nil => simp at hn
    | cons x rest => exact List.indexOf_cons_self x rest
  rw [hidx]
  obtain ⟨r, hr, -, hone, -⟩ := compareDirection_spec a a a.length rfl rfl hn 0 (by omega) rfl
  rw [hr]
  have : aligned a a 0 := by
    intro t ht
    rw [Nat.zero_add, Nat.mod_eq_of_lt ht]
  rw [hone.mpr this]

/-- A face of at least 2 vertices that are not all equal, compared with
itself, gives `+1`. -/
theorem compare_self (f : face) (h2 : 2 ≤ f.length)
    (hne : ∃ i, i < f.length ∧ at0 f i ≠ at0 f 0) :
    compare f f = .ok 1 := by
  by_cases hdeg : at0 f 1 ≠ at0 f 0 ∧ at0 f 0 ≠ at0 f (f.length - 1)
  · exact compareBody_self_nondegenerate f h2 hdeg.1 hdeg.2 _
  · have r0 : rd f 0 = .ok (at0 f 0) := by simpa using rd_nat f 0 (by omega)
    have r1 : rd f 1 = .ok (at0 f 1) := by simpa using rd_nat f 1 (by omega)
    have hd : degenerate f (at0 f 0) (at0 f 1) = .ok true := by
      unfold degenerate
      rw [if_pos (by omega)]
      by_cases h1 : at0 f 1 = at0 f 0
      · rw [if_pos h1]
      · rw [if_neg h1]
        have : ((f.length : Int) - 1) = ((f.length - 1 : Nat) : Int) := by omega
        rw [this, rd_nat f _ (by omega)]
        have : at0 f 0 = at0 f (f.length - 1) := by
          by_contra hc
          exact hdeg ⟨h1, hc⟩
        simp [this]
    obtain ⟨c2, c1, c0⟩ := collapse_nondegenerate f h2 hne
    unfold compare
    rw [compareBody]
    rw [if_neg (by simp), r0]
    simp only
    rw [findFirst_eq, if_pos (at0_mem f (by omega)), if_neg (by omega), r1]
    simp only
    rw [hd]
    simp only
    obtain ⟨m, hm⟩ : ∃ m, f.length = m + 1 := ⟨f.length - 1, by omega⟩
    rw [hm]
    exact compareBody_self_nondegenerate _ c2 c1 c0 m

end Foam

/-! ## Circular comparison: the claims -/

namespace Foam

/-- C6: for all faces `a` and `b` of pairwise-distinct vertex labels, `a` of at
least 3 vertices (`b` then has at least 3 whenever the sizes agree, and the
result is `0` when they do not), `compare(a, b)` is `+1` if and only if `b` is
a cyclic rotation of `a`, `-1` if and only if `b` is a cyclic rotation of `a`
reversed, and `0` in every other case, in particular when the sizes differ or
`a`'s first vertex does not occur in `b`. -/
theorem compare_spec (a b : face) (ha : a.Nodup) (hb : b.Nodup)
    (h3a : 3 ≤ a.length) :
    (compare a b = .ok 1 ↔ List.IsRotated a b) ∧
    (compare a b = .ok (-1) ↔ List.IsRotated a.reverse b) ∧
    (¬ List.IsRotated a b → ¬ List.IsRotated a.reverse b → compare a b = .ok 0) ∧
    (a.length ≠ b.length → compare a b = .ok 0) ∧
    (at0 a 0 ∉ b → compare a b = .ok 0) := by
  by_cases hlen : a.length = b.length
  · obtain ⟨r, hr, hcases, hone, hneg⟩ := compare_nodup a b ha hb h3a hlen
    rw [hr]
    simp only [Except.ok.injEq]
    refine ⟨hone, hneg, ?_, fun h => absurd hlen h, ?_⟩
    · intro h1 h2
      rcases hcases with h | h | h
      · exact absurd (hone.mp h) h1
      · exact absurd (hneg.mp h) h2
      · exact h
    · intro hm
      rcases hcases with h | h | h
      · exact absurd ((hone.mp h).perm.subset (at0_mem a (by omega))) hm
      · exact absurd ((hneg.mp h).perm.subset
          (List.mem_reverse.mpr (at0_mem a (by omega)))) hm
      · exact h
  · have h0 : compare a b = .ok 0 := by
      unfold compare
      rw [compareBody, if_pos hlen]
    rw [h0]
    refine ⟨?_, ?_, fun _ _ => rfl, fun _ => rfl, fun _ => rfl⟩
    · constructor
      · intro h; simp at h
      · intro h; exact absurd h.perm.length_eq hlen
    · constructor
      · intro h; simp at h
      · intro h
        exact absurd (by simpa using h.perm.length_eq) hlen

/-- C6, at `a = [1,2,3,4]` and its rotation `b = [3,4,1,2]`. -/
theorem compare_spec_witness :
    (compare [1, 2, 3, 4] [3, 4, 1, 2] = .ok 1
      ↔ List.IsRotated ([1, 2, 3, 4] : face) [3, 4, 1, 2]) ∧
    (compare [1, 2, 3, 4] [3, 4, 1, 2] = .ok (-1)
      ↔ List.IsRotated ([1, 2, 3, 4] : face).reverse [3, 4, 1, 2]) ∧
    (¬ List.IsRotated ([1, 2, 3, 4] : face) [3, 4, 1, 2] →
      ¬ List.IsRotated ([1, 2, 3, 4] : face).reverse [3, 4, 1, 2] →
      compare [1, 2, 3, 4] [3, 4, 1, 2] = .ok 0) ∧
    (([1, 2, 3, 4] : face).length ≠ ([3, 4, 1, 2] : face).length →
      compare [1, 2, 3, 4] [3, 4, 1, 2] = .ok 0) ∧
    (at0 [1, 2, 3, 4] 0 ∉ ([3, 4, 1, 2] : face) →
      compare [1, 2, 3, 4] [3, 4, 1, 2] = .ok 0) :=
  compare_spec [1, 2, 3, 4] [3, 4, 1, 2] (by decide) (by decide) (by decide)

/-- C7, the code on faces that are equal to themselves but do not give `+1`:
`[5,5,5]` collapses to the empty face, on which the recursive call reads
`a[0]` out of range; the empty face does so at once, and a one-vertex face
reads `a[1]` out of range. -/
theorem compare_self_degenerate :
    compare [5, 5, 5] [5, 5, 5] = .error .outOfRange ∧
    (collapse [5, 5, 5]).2 = [] ∧
    compare [] [] = .error .outOfRange ∧
    compare [7] [7] = .error .outOfRange := by
  refine ⟨rfl, rfl, rfl, rfl⟩

theorem reverseFace_eq (f : face) (h : 0 < f.length) :
    ∃ r, reverseFace f = .ok r ∧ r = f.reverse.rotate (f.length - 1) ∧
      r.length = f.length ∧ at0 r 0 = at0 f 0 ∧
      ∀ i, 0 < i → i < f.length → at0 r i = at0 f (f.length - i) := by
  have hlen : ((List.range f.length).map
      (fun pointI => if pointI = 0 then at0 f 0 else at0 f (f.length - pointI))).length
      = f.length := by simp
  have hval : ∀ i, i < f.length → at0 ((List.range f.length).map
      (fun pointI => if pointI = 0 then at0 f 0 else at0 f (f.length - pointI))) i
      = if i = 0 then at0 f 0 else at0 f (f.length - i) := by
    intro i hi
    rw [at0_eq_getElem _ (by rw [hlen]; exact hi)]
    simp
  refine ⟨_, ?_, ?_, hlen, ?_, ?_⟩
  · unfold reverseFace
    rw [if_neg (by omega)]
  · apply List.ext_getElem (by simp)
    intro i h1 h2
    rw [hlen] at h1
    rw [← at0_eq_getElem _ (by rw [hlen]; exact h1), ← at0_eq_getElem _ h2, hval i h1,
      at0_rotate _ _ _ (by simpa using h1), List.length_reverse,
      at0_reverse f (Nat.mod_lt _ h),
      mod_two_cases (show f.length - 1 + i < 2 * f.length by omega)]
    by_cases hi : i = 0
    · subst hi
      rw [if_pos rfl, if_pos (by omega)]
      congr 1
      omega
    · rw [if_neg hi, if_neg (by omega)]
      congr 1
      omega
  · rw [hval 0 h, if_pos rfl]
  · intro i hi0 hi
    rw [hval i hi, if_neg (by omega)]

/-- C9: for every face `f` of at least 3 pairwise-distinct vertex labels,
`reverseFace()` returns a face that differs from `f`, and `compare` of `f` with
it returns `-1`. -/
theorem compare_reverseFace (f : face) (hf : f.Nodup) (h3 : 3 ≤ f.length) :
    ∃ r, reverseFace f = .ok r ∧ r ≠ f ∧ compare f r = .ok (-1) := by
  obtain ⟨r, hr, hrot, hlen, -, hval⟩ := reverseFace_eq f (by omega)
  have hrel : List.IsRotated f.reverse r := ⟨f.length - 1, hrot.symm⟩
  have hnd : r.Nodup := (hrel.nodup_iff).mp (List.nodup_reverse.mpr hf)
  refine ⟨r, hr, ?_, ?_⟩
  · intro e
    have h1 := hval 1 (by omega) (by omega)
    rw [e] at h1
    have := at0_inj hf (by omega) (by omega) h1
    omega
  · obtain ⟨x, hx, -, -, hneg⟩ := compare_nodup f r hf hnd h3 hlen.symm
    rw [hx, hneg.mpr hrel]

/-- C9, at `f = [4,7,1,9]`. -/
theorem compare_reverseFace_witness :
    ∃ r, reverseFace [4, 7, 1, 9] = .ok r ∧ r ≠ [4, 7, 1, 9] ∧
      compare [4, 7, 1, 9] r = .ok (-1) :=
  compare_reverseFace [4, 7, 1, 9] (by decide) (by decide)

end Foam

/-! ## Orientation reversal: `flip` and `reverseFace` -/

namespace Foam

theorem swapAt_length (g : face) (i j : Nat) : (swapAt g i j).length = g.length := by
  simp [swapAt]

theorem at0_set (g : face) (i j : Nat) (v : label) (hi : i < g.length) :
    at0 (g.set i v) j = if j = i then v else at0 g j := by
  unfold at0
  rw [List.getD_eq_getElem?_getD, List.getD_eq_getElem?_getD, List.getElem?_set]
  by_cases h : i = j
  · subst h
    rw [if_pos rfl, if_pos hi, if_pos rfl]
    rfl
  · rw [if_neg h, if_neg (fun e => h e.symm)]

theorem at0_swapAt (g : face) (i k j : Nat) (hi : i < g.length) (hk : k < g.length) :
    at0 (swapAt g i k) j
      = if j = k then at0 g i else if j = i then at0 g k else at0 g j := by
  unfold swapAt
  simp only
  rw [at0_set _ _ _ _ (by rw [List.length_set]; exact hk), at0_set _ _ _ _ hi]

/-- The loop of `flip` after `c` exchanges: the positions `1..c` and their
mirror images hold the mirrored labels, the others are as before. -/
theorem flip_loop (f : face) : ∀ c, 2 * c + 1 ≤ f.length →
    ((List.range' 1 c).foldl (fun g i => swapAt g i (f.length - i)) f).length
        = f.length ∧
    ∀ j, j < f.length →
      at0 ((List.range' 1 c).foldl (fun g i => swapAt g i (f.length - i)) f) j
        = if 0 < j ∧ (j ≤ c ∨ f.length - j ≤ c) then at0 f (f.length - j)
          else at0 f j := by
  intro c
  induction c with
  | zero =>
    intro _
    refine ⟨rfl, ?_⟩
    intro j hj
    rw [if_neg (by omega)]
    rfl
  | succ c ih =>
    intro hc
    obtain ⟨hl, hv⟩ := ih (by omega)
    rw [List.range'_concat, List.foldl_append]
    simp only [List.foldl_cons, List.foldl_nil, Nat.one_mul]
    refine ⟨by rw [swapAt_length, hl], ?_⟩
    intro j hj
    rw [at0_swapAt _ _ _ _ (by omega) (by omega)]
    by_cases h1 : j = f.length - (1 + c)
    · rw [if_pos h1, hv _ (by omega), if_neg (by omega), if_pos (by omega)]
      congr 1
      omega
    · rw [if_neg h1]
      by_cases h2 : j = 1 + c
      · rw [if_pos h2, hv _ (by omega), if_neg (by omega), if_pos (by omega), h2]
      · rw [if_neg h2, hv j hj]
        by_cases h3 : 0 < j ∧ (j ≤ c ∨ f.length - j ≤ c)
        · rw [if_pos h3, if_pos (by omega)]
        · rw [if_neg h3, if_neg (by omega)]

/-- The face that `flip` leaves: same size, element 0 kept, element `j`
replaced by element `n - j`. -/
theorem flip_spec (f : face) :
    (flip f).length = f.length ∧
    ∀ j, j < f.length → at0 (flip f) j = if j = 0 then at0 f 0 else at0 f (f.length - j) := by
  unfold flip
  by_cases h : f.length > 2
  · rw [if_pos h]
    obtain ⟨hl, hv⟩ := flip_loop f ((f.length + 1) / 2 - 1) (by omega)
    refine ⟨hl, ?_⟩
    intro j hj
    rw [hv j hj]
    by_cases h0 : j = 0
    · subst h0
      rw [if_neg (by omega), if_pos rfl]
    · rw [if_neg h0]
      by_cases hm : 0 < j ∧ (j ≤ (f.length + 1) / 2 - 1 ∨ f.length - j ≤ (f.length + 1) / 2 - 1)
      · rw [if_pos hm]
      · rw [if_neg hm]
        congr 1
        omega
  · rw [if_neg h]
    refine ⟨rfl, ?_⟩
    intro j hj
    by_cases h0 : j = 0
    · subst h0; rw [if_pos rfl]
    · rw [if_neg h0]
      congr 1
      omega

theorem face_ext_at0 (g h : face) (hl : g.length = h.length)
    (hv : ∀ j, j < g.length → at0 g j = at0 h j) : g = h := by
  apply List.ext_getElem hl
  intro j h1 h2
  have := hv j h1
  rwa [at0_eq_getElem g h1, at0_eq_getElem h h2] at this

/-- C11: for every face, of any length, `flip()` applied twice restores the
original vertex order. -/
theorem flip_flip (f : face) : flip (flip f) = f := by
  obtain ⟨hl1, hv1⟩ := flip_spec f
  obtain ⟨hl2, hv2⟩ := flip_spec (flip f)
  apply face_ext_at0 _ _ (by rw [hl2, hl1])
  intro j hj
  rw [hl2, hl1] at hj
  rw [hv2 j (by rw [hl1]; exact hj), hl1]
  by_cases h0 : j = 0
  · subst h0
    rw [if_pos rfl, hv1 0 hj, if_pos rfl]
  · rw [if_neg h0, hv1 _ (by omega), if_neg (by omega)]
    congr 1
    omega

/-- C12: for every non-empty face `f` of `n` vertices the in-place exchange
loop of `flip()` and the allocating `reverseFace()` agree: `reverseFace()`
returns the face that `flip()` leaves, and that face has `n` vertices, element
0 equal to `f[0]` and element `i` equal to `f[n - i]` for `1 ≤ i < n`.
`reverseFace()` is a function of `f` that builds a new list, so `f` itself is
as before. -/
theorem flip_eq_reverseFace (f : face) (h : 0 < f.length) :
    reverseFace f = .ok (flip f) ∧
    (flip f).length = f.length ∧
    at0 (flip f) 0 = at0 f 0 ∧
    ∀ i, 1 ≤ i → i < f.length → at0 (flip f) i = at0 f (f.length - i) := by
  obtain ⟨hl, hv⟩ := flip_spec f
  obtain ⟨r, hr, -, hrl, hr0, hrv⟩ := reverseFace_eq f h
  have e : r = flip f := by
    apply face_ext_at0 _ _ (by rw [hrl, hl])
    intro j hj
    rw [hrl] at hj
    rw [hv j hj]
    by_cases h0 : j = 0
    · subst h0; rw [if_pos rfl, hr0]
    · rw [if_neg h0, hrv j (by omega) hj]
  rw [hr, e]
  refine ⟨rfl, hl, ?_, ?_⟩
  · rw [hv 0 h, if_pos rfl]
  · intro i hi1 hi2
    rw [hv i hi2, if_neg (by omega)]

/-- C12, at `f = [4,7,1,9,3]`. -/
theorem flip_eq_reverseFace_witness :
    reverseFace [4, 7, 1, 9, 3] = .ok (flip [4, 7, 1, 9, 3]) ∧
    (flip [4, 7, 1, 9, 3]).length = ([4, 7, 1, 9, 3] : face).length ∧
    at0 (flip [4, 7, 1, 9, 3]) 0 = at0 [4, 7, 1, 9, 3] 0 ∧
    ∀ i, 1 ≤ i → i < ([4, 7, 1, 9, 3] : face).length →
      at0 (flip [4, 7, 1, 9, 3]) i
        = at0 [4, 7, 1, 9, 3] (([4, 7, 1, 9, 3] : face).length - i) :=
  flip_eq_reverseFace [4, 7, 1, 9, 3] (by decide)

end Foam

/-! ## Direction of an edge -/

namespace Foam

theorem edgeDirectionLoop_range (f : face) (e : edge) : ∀ (c i : Nat),
    edgeDirectionLoop f e c i = 1 ∨ edgeDirectionLoop f e c i = -1 ∨
      edgeDirectionLoop f e c i = 0 := by
  intro c
  induction c with
  | zero => intro i; right; right; rfl
  | succ c ih =>
    intro i
    unfold edgeDirectionLoop
    split
    · split
      · right; left; rfl
      · split
        · left; rfl
        · right; right; rfl
    · split
      · split
        · left; rfl
        · split
          · right; left; rfl
          · right; right; rfl
      · exact ih (i + 1)

theorem edgeDirectionLoop_skip (f : face) (e : edge) : ∀ (c c2 i : Nat),
    (∀ j, i ≤ j → j < i + c → at0 f j ≠ e.1 ∧ at0 f j ≠ e.2) →
    edgeDirectionLoop f e (c + c2) i = edgeDirectionLoop f e c2 (i + c) := by
  intro c
  induction c with
  | zero => intro c2 i _; simp
  | succ c ih =>
    intro c2 i h
    have hi := h i (by omega) (by omega)
    rw [show c + 1 + c2 = (c + c2) + 1 by omega, edgeDirectionLoop,
      if_neg hi.1, if_neg hi.2, ih c2 (i + 1) (fun j h1 h2 => h j (by omega) (by omega))]
    congr 1
    omega

/-- When position `k` is the first one that holds an endpoint of `e`, the
result of `edgeDirection` is decided there. -/
theorem edgeDirection_found (f : face) (e : edge) (k : Nat) (hk : k < f.length)
    (h : ∀ j, j < k → at0 f j ≠ e.1 ∧ at0 f j ≠ e.2) :
    edgeDirection f e =
      if at0 f k = e.1 then
        if at0 f (rcIndex f.length k) = e.2 then -1
        else if at0 f (fcIndex f.length k) = e.2 then 1
        else 0
      else if at0 f k = e.2 then
        if at0 f (rcIndex f.length k) = e.1 then 1
        else if at0 f (fcIndex f.length k) = e.1 then -1
        else 0
      else edgeDirectionLoop f e (f.length - k - 1) (k + 1) := by
  unfold edgeDirection
  have e1 : f.length = k + ((f.length - k - 1) + 1) := by omega
  conv_lhs => rw [e1]
  rw [edgeDirectionLoop_skip f e k _ 0 (fun j _ h2 => h j (by omega)), Nat.zero_add,
    edgeDirectionLoop]

theorem edgeDirectionLoop_pos (f : face) (e : edge) : ∀ (c i : Nat),
    i + c ≤ f.length → edgeDirectionLoop f e c i = 1 →
    ∃ j, j < f.length ∧
      ((at0 f j = e.1 ∧ at0 f (fcIndex f.length j) = e.2) ∨
       (at0 f j = e.2 ∧ at0 f (rcIndex f.length j) = e.1)) := by
  intro c
  induction c with
  | zero => intro i _ h; simp [edgeDirectionLoop] at h
  | succ c ih =>
    intro i hic h
    unfold edgeDirectionLoop at h
    split at h
    · rename_i h1
      split at h
      · omega
      · split at h
        · rename_i h3
          exact ⟨i, by omega, Or.inl ⟨h1, h3⟩⟩
        · omega
    · split at h
      · rename_i h2
        split at h
        · rename_i h3
          exact ⟨i, by omega, Or.inr ⟨h2, h3⟩⟩
        · split at h <;> omega
      · exact ih (i + 1) (by omega) h

theorem edgeDirectionLoop_neg (f : face) (e : edge) : ∀ (c i : Nat),
    i + c ≤ f.length → edgeDirectionLoop f e c i = -1 →
    ∃ j, j < f.length ∧
      ((at0 f j = e.1 ∧ at0 f (rcIndex f.length j) = e.2) ∨
       (at0 f j = e.2 ∧ at0 f (fcIndex f.length j) = e.1)) := by
  intro c
  induction c with
  | zero => intro i _ h; simp [edgeDirectionLoop] at h
  | succ c ih =>
    intro i hic h
    unfold edgeDirectionLoop at h
    split at h
    · rename_i h1
      split at h
      · rename_i h3
        exact ⟨i, by omega, Or.inl ⟨h1, h3⟩⟩
      · split at h <;> omega
    · split at h
      · rename_i h2
        split at h
        · omega
        · split at h
          · rename_i h4
            exact ⟨i, by omega, Or.inr ⟨h2, h4⟩⟩
          · omega
      · exact ih (i + 1) (by omega) h

theorem rcIndex_lt {n : Nat} (i : Nat) (hn : 0 < n) : rcIndex n i < n :=
  Nat.mod_lt _ hn

theorem fcIndex_rcIndex {n i : Nat} (hi : i < n) : fcIndex n (rcIndex n i) = i := by
  unfold fcIndex rcIndex
  rw [Nat.mod_add_mod, mod_two_cases (by omega)]
  split <;> omega

theorem rcIndex_ne_fcIndex {n i : Nat} (hi : i < n) (hn : 3 ≤ n) :
    rcIndex n i ≠ fcIndex n i := by
  unfold fcIndex rcIndex
  rw [mod_two_cases (show i + 1 < 2 * n by omega),
    mod_two_cases (show i + n - 1 < 2 * n by omega)]
  split <;> split <;> omega

/-- An ordered pair of labels that are consecutive in the face, the second
after the first. -/
theorem edgeDirection_forward (f : face) (e : edge) (hf : f.Nodup) (h3 : 3 ≤ f.length)
    (k : Nat) (hk : k < f.length) (h1 : at0 f k = e.1)
    (h2 : at0 f (fcIndex f.length k) = e.2) : edgeDirection f e = 1 := by
  have hn : 0 < f.length := by omega
  have hfc : fcIndex f.length k < f.length := fcIndex_lt _ hn
  have hrc : rcIndex f.length k < f.length := rcIndex_lt _ hn
  have hfck : fcIndex f.length k = if k + 1 < f.length then k + 1 else 0 := by
    unfold fcIndex
    rw [mod_two_cases (by omega)]
    split <;> omega
  by_cases hlast : k + 1 < f.length
  · rw [if_pos hlast] at hfck
    rw [edgeDirection_found f e k hk, if_pos h1]
    · rw [if_neg, if_pos h2]
      intro h
      have := at0_inj hf hrc hfc (h.trans h2.symm)
      exact rcIndex_ne_fcIndex hk h3 this
    · intro j hj
      constructor
      · intro h
        have := at0_inj hf (by omega) hk (h.trans h1.symm)
        omega
      · intro h
        have := at0_inj hf (by omega) hfc (h.trans h2.symm)
        omega
  · rw [if_neg hlast] at hfck
    rw [hfck] at h2
    have hk' : k = f.length - 1 := by omega
    rw [edgeDirection_found f e 0 hn (fun j hj => by omega)]
    rw [if_neg, if_pos h2, if_pos]
    · have : rcIndex f.length 0 = k := by
        unfold rcIndex
        rw [Nat.zero_add, Nat.mod_eq_of_lt (by omega)]
        omega
      rw [this]; exact h1
    · intro h
      have := at0_inj hf hn hk (h.trans h1.symm)
      omega

/-- An ordered pair of labels that are consecutive in the face, the first
after the second. -/
theorem edgeDirection_backward (f : face) (e : edge) (hf : f.Nodup) (h3 : 3 ≤ f.length)
    (k : Nat) (hk : k < f.length) (h1 : at0 f k = e.2)
    (h2 : at0 f (fcIndex f.length k) = e.1) : edgeDirection f e = -1 := by
  have hn : 0 < f.length := by omega
  have hfc : fcIndex f.length k < f.length := fcIndex_lt _ hn
  have hrc : rcIndex f.length k < f.length := rcIndex_lt _ hn
  have hfck : fcIndex f.length k = if k + 1 < f.length then k + 1 else 0 := by
    unfold fcIndex
    rw [mod_two_cases (by omega)]
    split <;> omega
  by_cases hlast : k + 1 < f.length
  · rw [if_pos hlast] at hfck
    rw [edgeDirection_found f e k hk, if_neg, if_pos h1]
    · rw [if_neg, if_pos h2]
      intro h
      have := at0_inj hf hrc hfc (h.trans h2.symm)
      exact rcIndex_ne_fcIndex hk h3 this
    · intro h
      have := at0_inj hf hk hfc (h.trans h2.symm)
      omega
    · intro j hj
      constructor
      · intro h
        have := at0_inj hf (by omega) hfc (h.trans h2.symm)
        omega
      · intro h
        have := at0_inj hf (by omega) hk (h.trans h1.symm)
        omega
  · rw [if_neg hlast] at hfck
    rw [hfck] at h2
    have hk' : k = f.length - 1 := by omega
    rw [edgeDirection_found f e 0 hn (fun j hj => by omega)]
    rw [if_pos h2, if_pos]
    have : rcIndex f.length 0 = k := by
      unfold rcIndex
      rw [Nat.zero_add, Nat.mod_eq_of_lt (by omega)]
      omega
    rw [this]; exact h1

theorem edges_eq (f : face) (h : 0 < f.length) :
    edges f = .ok ((List.range f.length).map
      (fun i => (at0 f i, at0 f (fcIndex f.length i)))) := by
  unfold edges
  rw [if_neg (by omega)]
  congr 1
  apply List.map_congr_left
  intro i hi
  have hi := List.mem_range.mp hi
  unfold fcIndex
  rw [mod_two_cases (by omega)]
  by_cases h1 : i < f.length - 1
  · rw [if_pos h1, if_pos (by omega)]
  · rw [if_neg h1, if_neg (by omega)]
    have : i = f.length - 1 := by omega
    rw [this]
    congr 2
    omega

theorem mem_edges_iff (f : face) (a b : label) :
    (a, b) ∈ (List.range f.length).map (fun i => (at0 f i, at0 f (fcIndex f.length i)))
      ↔ ∃ k, k < f.length ∧ at0 f k = a ∧ at0 f (fcIndex f.length k) = b := by
  simp only [List.mem_map, List.mem_range, Prod.mk.injEq]

end Foam

namespace Foam

/-- C13: for every face `f` of `n ≥ 3` pairwise-distinct vertex labels and
every edge `e`, with `es` the `n` pairs `(f[i], f[(i+1) mod n])` that `edges()`
produces (closing edge included): `edgeDirection(e)` is `+1` if and only if
`(e.start, e.end)` is one of them, `-1` if and only if `(e.end, e.start)` is
one of them, and `0` otherwise, in particular when the endpoints are not
vertices of `f`.  On `[0,1,2,3]` the edge `(1,2)` gives `+1`, `(2,1)` gives
`-1` and `(5,6)` gives `0`. -/
theorem edgeDirection_spec (f : face) (e : edge) (hf : f.Nodup) (h3 : 3 ≤ f.length) :
    ∃ es, edges f = .ok es ∧ es.length = f.length ∧
      (∀ i, i < f.length → es[i]? = some (at0 f i, at0 f ((i + 1) % f.length))) ∧
      (edgeDirection f e = 1 ↔ (e.1, e.2) ∈ es) ∧
      (edgeDirection f e = -1 ↔ (e.2, e.1) ∈ es) ∧
      (¬ (e.1, e.2) ∈ es → ¬ (e.2, e.1) ∈ es → edgeDirection f e = 0) ∧
      (e.1 ∉ f → e.2 ∉ f → edgeDirection f e = 0) ∧
      edgeDirection [0, 1, 2, 3] (1, 2) = 1 ∧
      edgeDirection [0, 1, 2, 3] (2, 1) = -1 ∧
      edgeDirection [0, 1, 2, 3] (5, 6) = 0 := by
  have hn : 0 < f.length := by omega
  have hpos : edgeDirection f e = 1 ↔
      (e.1, e.2) ∈ (List.range f.length).map
        (fun i => (at0 f i, at0 f (fcIndex f.length i))) := by
    rw [mem_edges_iff]
    constructor
    · intro h
      obtain ⟨j, hj, hc | hc⟩ := edgeDirectionLoop_pos f e f.length 0 (by omega) h
      · exact ⟨j, hj, hc.1, hc.2⟩
      · exact ⟨rcIndex f.length j, rcIndex_lt _ hn, hc.2, by rw [fcIndex_rcIndex hj]; exact hc.1⟩
    · rintro ⟨k, hk, h1, h2⟩
      exact edgeDirection_forward f e hf h3 k hk h1 h2
  have hneg : edgeDirection f e = -1 ↔
      (e.2, e.1) ∈ (List.range f.length).map
        (fun i => (at0 f i, at0 f (fcIndex f.length i))) := by
    rw [mem_edges_iff]
    constructor
    · intro h
      obtain ⟨j, hj, hc | hc⟩ := edgeDirectionLoop_neg f e f.length 0 (by omega) h
      · exact ⟨rcIndex f.length j, rcIndex_lt _ hn, hc.2, by rw [fcIndex_rcIndex hj]; exact hc.1⟩
      · exact ⟨j, hj, hc.1, hc.2⟩
    · rintro ⟨k, hk, h1, h2⟩
      exact edgeDirection_backward f e hf h3 k hk h1 h2
  have hzero : ¬ (e.1, e.2) ∈ (List.range f.length).map
        (fun i => (at0 f i, at0 f (fcIndex f.length i))) →
      ¬ (e.2, e.1) ∈ (List.range f.length).map
        (fun i => (at0 f i, at0 f (fcIndex f.length i))) →
      edgeDirection f e = 0 := by
    intro n1 n2
    rcases edgeDirectionLoop_range f e f.length 0 with h | h | h
    · exact absurd (hpos.mp h) n1
    · exact absurd (hneg.mp h) n2
    · exact h
  refine ⟨_, edges_eq f hn, by simp, ?_, hpos, hneg, hzero, ?_, by decide, by decide,
    by decide⟩
  · intro i hi
    rw [List.getElem?_eq_getElem (by simpa using hi)]
    simp [fcIndex]
  · intro m1 _
    apply hzero
    · rw [mem_edges_iff]
      rintro ⟨k, hk, h1, -⟩
      exact m1 (h1 ▸ at0_mem f hk)
    · rw [mem_edges_iff]
      rintro ⟨k, hk, -, h2⟩
      exact m1 (h2 ▸ at0_mem f (fcIndex_lt _ hn))

/-- C13, at the face `[0,1,2,3]` and the edge `(3,0)`, its closing edge. -/
theorem edgeDirection_spec_witness :
    ∃ es, edges [0, 1, 2, 3] = .ok es ∧ es.length = ([0, 1, 2, 3] : face).length ∧
      (∀ i, i < ([0, 1, 2, 3] : face).length →
        es[i]? = some (at0 [0, 1, 2, 3] i,
          at0 [0, 1, 2, 3] ((i + 1) % ([0, 1, 2, 3] : face).length))) ∧
      (edgeDirection [0, 1, 2, 3] (3, 0) = 1 ↔ (((3, 0) : edge).1, ((3, 0) : edge).2) ∈ es) ∧
      (edgeDirection [0, 1, 2, 3] (3, 0) = -1 ↔ (((3, 0) : edge).2, ((3, 0) : edge).1) ∈ es) ∧
      (¬ (((3, 0) : edge).1, ((3, 0) : edge).2) ∈ es →
        ¬ (((3, 0) : edge).2, ((3, 0) : edge).1) ∈ es →
        edgeDirection [0, 1, 2, 3] (3, 0) = 0) ∧
      (((3, 0) : edge).1 ∉ ([0, 1, 2, 3] : face) → ((3, 0) : edge).2 ∉ ([0, 1, 2, 3] : face) →
        edgeDirection [0, 1, 2, 3] (3, 0) = 0) ∧
      edgeDirection [0, 1, 2, 3] (1, 2) = 1 ∧
      edgeDirection [0, 1, 2, 3] (2, 1) = -1 ∧
      edgeDirection [0, 1, 2, 3] (5, 6) = 0 :=
  edgeDirection_spec [0, 1, 2, 3] (3, 0) (by decide) (by decide)

end Foam

/-! ## Splitting: the 4-vertex face and the chord of the general case -/

namespace Foam

section SplitShape

variable {P V S : Type}

/-- C17: for a 4-vertex face `f` in generate-triangles mode, with `s` the index
returned by `mostConcaveAngle` and room for two faces at the cursor, `split`
returns 2 and writes exactly two triangles at consecutive cursor positions:
first `(f[s], f[s+1], f[s+2])`, then `(f[s+2], f[s+3], f[s])`, indices taken
mod 4; both contain the ends `f[s]` and `f[s+2]` of the diagonal, and every
vertex of `f` is in one of them. -/
theorem split_four_triangles (K : GeometryKernel P V S) (points : P) (f : face)
    (c : Nat) (q : Int) (tf qf : faceList)
    (h4 : f.length = 4) (hroom : c + 2 ≤ tf.length) :
    (mostConcaveAngle K points f (calcEdges K points f)).1 < 4 ∧
    split K .SPLITTRIANGLE points f
        { triI := (c : Int), quadI := q, triFaces := tf, quadFaces := qf }
      = .ok (2,
          { triI := (c : Int) + 2, quadI := q,
            triFaces :=
              (tf.set c
                [at0 f (mostConcaveAngle K points f (calcEdges K points f)).1,
                 at0 f (((mostConcaveAngle K points f (calcEdges K points f)).1 + 1) % 4),
                 at0 f (((mostConcaveAngle K points f (calcEdges K points f)).1 + 2) % 4)]).set
                (c + 1)
                [at0 f (((mostConcaveAngle K points f (calcEdges K points f)).1 + 2) % 4),
                 at0 f (((mostConcaveAngle K points f (calcEdges K points f)).1 + 3) % 4),
                 at0 f (mostConcaveAngle K points f (calcEdges K points f)).1],
            quadFaces := qf }) ∧
    (∀ i, i < 4 →
      at0 f i ∈ [at0 f (mostConcaveAngle K points f (calcEdges K points f)).1,
                 at0 f (((mostConcaveAngle K points f (calcEdges K points f)).1 + 1) % 4),
                 at0 f (((mostConcaveAngle K points f (calcEdges K points f)).1 + 2) % 4)] ∨
      at0 f i ∈ [at0 f (((mostConcaveAngle K points f (calcEdges K points f)).1 + 2) % 4),
                 at0 f (((mostConcaveAngle K points f (calcEdges K points f)).1 + 3) % 4),
                 at0 f (mostConcaveAngle K points f (calcEdges K points f)).1]) := by
  have hs : (mostConcaveAngle K points f (calcEdges K points f)).1 < 4 := by
    have := mostConcaveAngle_lt K points f (calcEdges K points f)
      (by rw [calcEdges_length]; omega)
    rwa [calcEdges_length, h4] at this
  have hq : quadTriangles K points f =
      [[at0 f (mostConcaveAngle K points f (calcEdges K points f)).1,
        at0 f (((mostConcaveAngle K points f (calcEdges K points f)).1 + 1) % 4),
        at0 f (((mostConcaveAngle K points f (calcEdges K points f)).1 + 2) % 4)],
       [at0 f (((mostConcaveAngle K points f (calcEdges K points f)).1 + 2) % 4),
        at0 f (((mostConcaveAngle K points f (calcEdges K points f)).1 + 3) % 4),
        at0 f (mostConcaveAngle K points f (calcEdges K points f)).1]] := by
    unfold quadTriangles
    simp only [h4]
    generalize (mostConcaveAngle K points f (calcEdges K points f)).1 = s at hs
    unfold fcIndex
    interval_cases s <;> rfl
  refine ⟨hs, ?_, ?_⟩
  · rw [split_tri_eq K points f c q tf qf (by omega) (by omega), h4,
      leaves_four K false points 4 f h4, hq]
    simp [overwrite]
  · generalize (mostConcaveAngle K points f (calcEdges K points f)).1 = s at hs
    intro i hi
    interval_cases s <;> interval_cases i <;> simp

/-- C17, at the face `[10,11,12,13]` with the largest angle at position 2. -/
theorem split_four_triangles_witness :
    split tableKernel .SPLITTRIANGLE [10, 20, 170, 40] [10, 11, 12, 13]
        { triI := 0, quadI := 0, triFaces := [[], []], quadFaces := [] }
      = .ok (2, { triI := 2, quadI := 0,
                  triFaces := [[12, 13, 10], [10, 11, 12]], quadFaces := [] }) :=
  (split_four_triangles tableKernel [10, 20, 170, 40] [10, 11, 12, 13] 0 0 [[], []] []
    (by decide) (by decide)).2.1

end SplitShape

end Foam

/-! ## Splitting: the two sub-faces of the general case -/

namespace Foam

section SplitRuns

variable {P V S : Type}

theorem collect_eq_run (f : face) : ∀ (cnt index : Nat), index < f.length →
    collect f cnt index = (circularRun f.length index cnt).map (at0 f) := by
  intro cnt
  induction cnt with
  | zero => intro index _; rfl
  | succ cnt ih =>
    intro index hidx
    have hn : 0 < f.length := by omega
    rw [collect, ih _ (fcIndex_lt _ hn)]
    unfold circularRun
    rw [List.range_succ_eq_map]
    simp only [List.map_cons, List.map_map, Nat.add_zero, Nat.mod_eq_of_lt hidx]
    congr 1
    apply List.map_congr_left
    intro j _
    simp only [Function.comp, fcIndex]
    rw [Nat.mod_add_mod]
    congr 2
    omega

theorem circularRun_nodup (n start len : Nat) (h : len ≤ n) :
    (circularRun n start len).Nodup := by
  unfold circularRun
  apply List.Nodup.map_on _ (List.nodup_range len)
  intro x hx y hy hxy
  have hx := List.mem_range.mp hx
  have hy := List.mem_range.mp hy
  have e := congrArg (fun v => (v + (n - start % n)) % n) hxy
  simp only at e
  have key : ∀ z, z < n → ((start + z) % n + (n - start % n)) % n = z := by
    intro z hz
    have hn : 0 < n := by omega
    have hsm : start % n < n := Nat.mod_lt _ hn
    rw [Nat.add_mod start z n, Nat.mod_eq_of_lt hz, Nat.mod_add_mod,
      mod_two_cases (show start % n + z + (n - start % n) < 2 * n by omega)]
    split <;> omega
  rw [key x (by omega), key y (by omega)] at e
  exact e

theorem circularRun_ends (n start len : Nat) (hs : start < n) :
    (circularRun n start (len + 1)).head? = some start ∧
    (circularRun n start (len + 1)).getLast? = some ((start + len) % n) := by
  unfold circularRun
  constructor
  · rw [List.head?_map, List.head?_range]
    simp [Nat.mod_eq_of_lt hs]
  · rw [List.getLast?_map, List.getLast?_range]
    simp

/-- The run from `s` over `d` edges and the run from its end over the other
`n - d` edges have the positions `s` and `s + d` in common and otherwise go
once through every position of the ring. -/
theorem circularRun_perm (n s d : Nat) (hs : s < n) (hd : d ≤ n) :
    List.Perm (circularRun n s (d + 1) ++ circularRun n ((s + d) % n) (n - d + 1))
      (s :: ((s + d) % n) :: List.range n) := by
  have e2 : circularRun n ((s + d) % n) (n - d + 1)
      = (List.range' d (n - d + 1)).map (fun j => (s + j) % n) := by
    unfold circularRun
    rw [List.range'_eq_map_range, List.map_map]
    apply List.map_congr_left
    intro j _
    simp only [Function.comp]
    rw [Nat.mod_add_mod, Nat.add_assoc]
  have e3 : List.Perm (List.range (d + 1) ++ List.range' d (n - d + 1))
      (d :: n :: List.range n) := by
    have r1 : List.range n = List.range d ++ List.range' d (n - d) := by
      rw [List.range_eq_range', List.range_eq_range']
      have := List.range'_append 0 d (n - d) 1
      simp only [Nat.one_mul, Nat.zero_add] at this
      rw [this]
      congr 1
      omega
    rw [r1, List.range_succ, List.range'_concat]
    rw [List.perm_iff_count]
    intro a
    simp only [List.count_append, List.count_cons, List.count_nil, Nat.one_mul]
    have : d + (n - d) = n := by omega
    rw [this]
    omega
  have e4 : (List.range n).map (fun j => (s + j) % n) = (List.range n).rotate s := by
    apply List.ext_getElem (by simp)
    intro j h1 h2
    rw [List.getElem_rotate]
    simp [Nat.add_comm]
  unfold circularRun at e2 ⊢
  rw [e2, ← List.map_append]
  refine (e3.map _).trans ?_
  simp only [List.map_cons, Nat.add_mod_right, Nat.mod_eq_of_lt hs]
  rw [e4]
  exact (List.Perm.swap _ _ _).trans (((List.rotate_perm _ _).cons _).cons _)

/-- C18: for every face `f` of `n > 4` vertices, every kernel and point array,
with `s` the start index, `m` the chosen index and `d` the number `diff` of the
general case: sub-face 1 is the forward circular run `f[s], f[s+1], ..., f[m]`
of `d + 1` positions and sub-face 2 the forward circular run
`f[m], f[m+1], ..., f[s]` of `n - d + 1` positions; their sizes sum to `n + 2`;
neither run visits a position twice, and the two runs together visit `s` and
`m` twice and every other position of `f` once. -/
theorem subFaces_runs (K : GeometryKernel P V S) (points : P) (f : face)
    (h : 4 < f.length) :
    ∃ s m d, splitChord K points f = (s, m) ∧ splitDiff f.length s m = d ∧
      s < f.length ∧ m < f.length ∧
      (subFaces K points f).1 = (circularRun f.length s (d + 1)).map (at0 f) ∧
      (subFaces K points f).2 = (circularRun f.length m (f.length - d + 1)).map (at0 f) ∧
      (circularRun f.length s (d + 1)).head? = some s ∧
      (circularRun f.length s (d + 1)).getLast? = some m ∧
      (circularRun f.length m (f.length - d + 1)).head? = some m ∧
      (circularRun f.length m (f.length - d + 1)).getLast? = some s ∧
      (subFaces K points f).1.length + (subFaces K points f).2.length = f.length + 2 ∧
      (circularRun f.length s (d + 1)).Nodup ∧
      (circularRun f.length m (f.length - d + 1)).Nodup ∧
      List.Perm
        (circularRun f.length s (d + 1) ++ circularRun f.length m (f.length - d + 1))
        (s :: m :: List.range f.length) := by
  obtain ⟨hs, k, hk, hm⟩ := splitChord_spec K points f (by omega)
  have hd : splitDiff f.length (splitChord K points f).1 (splitChord K points f).2
      = 2 + k := by
    rw [hm]; exact splitDiff_eq hs hk
  have hn : 0 < f.length := by omega
  have hm2 : (splitChord K points f).2 < f.length := by
    rw [hm]; exact Nat.mod_lt _ hn
  have hm' : (splitChord K points f).2
      = ((splitChord K points f).1 + (2 + k)) % f.length := by
    rw [hm, Nat.add_assoc]
  have hback : ((splitChord K points f).2 + (f.length - (2 + k))) % f.length
      = (splitChord K points f).1 := by
    rw [hm', Nat.mod_add_mod,
      mod_two_cases (show (splitChord K points f).1 + (2 + k) + (f.length - (2 + k))
        < 2 * f.length by omega)]
    split <;> omega
  obtain ⟨e1a, e1b⟩ := circularRun_ends f.length (splitChord K points f).1 (2 + k) hs
  obtain ⟨e2a, e2b⟩ := circularRun_ends f.length (splitChord K points f).2
    (f.length - (2 + k)) hm2
  refine ⟨(splitChord K points f).1, (splitChord K points f).2, 2 + k, rfl, hd, hs, hm2,
    ?_, ?_, e1a, ?_, e2a, ?_, (subFaces_spec K points f (by omega)).2.2.2.2.1,
    circularRun_nodup _ _ _ (by omega), circularRun_nodup _ _ _ (by omega), ?_⟩
  · simp only [subFaces, hd]
    exact collect_eq_run f _ _ hs
  · simp only [subFaces, hd]
    exact collect_eq_run f _ _ hm2
  · rw [e1b, ← hm']
  · rw [e2b, hback]
  · have := circularRun_perm f.length (splitChord K points f).1 (2 + k) hs (by omega)
    rw [← hm'] at this
    exact this

/-- C18, at the hexagon `[0,1,2,3,4,5]`. -/
theorem subFaces_runs_witness :
    ∃ s m d, splitChord tableKernel [10, 20, 170, 40, 50, 60] [0, 1, 2, 3, 4, 5] = (s, m) ∧
      splitDiff ([0, 1, 2, 3, 4, 5] : face).length s m = d ∧
      s < ([0, 1, 2, 3, 4, 5] : face).length ∧ m < ([0, 1, 2, 3, 4, 5] : face).length ∧
      (subFaces tableKernel [10, 20, 170, 40, 50, 60] [0, 1, 2, 3, 4, 5]).1
        = (circularRun ([0, 1, 2, 3, 4, 5] : face).length s (d + 1)).map
            (at0 [0, 1, 2, 3, 4, 5]) ∧
      (subFaces tableKernel [10, 20, 170, 40, 50, 60] [0, 1, 2, 3, 4, 5]).2
        = (circularRun ([0, 1, 2, 3, 4, 5] : face).length m
            (([0, 1, 2, 3, 4, 5] : face).length - d + 1)).map (at0 [0, 1, 2, 3, 4, 5]) ∧
      (circularRun ([0, 1, 2, 3, 4, 5] : face).length s (d + 1)).head? = some s ∧
      (circularRun ([0, 1, 2, 3, 4, 5] : face).length s (d + 1)).getLast? = some m ∧
      (circularRun ([0, 1, 2, 3, 4, 5] : face).length m
        (([0, 1, 2, 3, 4, 5] : face).length - d + 1)).head? = some m ∧
      (circularRun ([0, 1, 2, 3, 4, 5] : face).length m
        (([0, 1, 2, 3, 4, 5] : face).length - d + 1)).getLast? = some s ∧
      (subFaces tableKernel [10, 20, 170, 40, 50, 60] [0, 1, 2, 3, 4, 5]).1.length
        + (subFaces tableKernel [10, 20, 170, 40, 50, 60] [0, 1, 2, 3, 4, 5]).2.length
        = ([0, 1, 2, 3, 4, 5] : face).length + 2 ∧
      (circularRun ([0, 1, 2, 3, 4, 5] : face).length s (d + 1)).Nodup ∧
      (circularRun ([0, 1, 2, 3, 4, 5] : face).length m
        (([0, 1, 2, 3, 4, 5] : face).length - d + 1)).Nodup ∧
      List.Perm
        (circularRun ([0, 1, 2, 3, 4, 5] : face).length s (d + 1) ++
          circularRun ([0, 1, 2, 3, 4, 5] : face).length m
            (([0, 1, 2, 3, 4, 5] : face).length - d + 1))
        (s :: m :: List.range ([0, 1, 2, 3, 4, 5] : face).length) :=
  subFaces_runs tableKernel [10, 20, 170, 40, 50, 60] [0, 1, 2, 3, 4, 5] (by decide)

end SplitRuns

end Foam

/-! ## Splitting: termination, and the most concave vertex -/

namespace Foam

section SplitTermination

variable {P V S : Type}

/-- With enough depth for the face, the depth given to the body of `split`
does not matter. -/
theorem splitBody_depth (K : GeometryKernel P V S) (mode : splitMode) (points : P) :
    ∀ (fuel1 fuel2 : Nat) (f : face) (st : SplitState),
      3 ≤ f.length → f.length ≤ fuel1 + 2 → f.length ≤ fuel2 + 2 →
      splitBody K mode points fuel1 f st = splitBody K mode points fuel2 f st := by
  intro fuel1
  induction fuel1 with
  | zero => intro fuel2 f st h3 h1 _; omega
  | succ fuel1 ih =>
    intro fuel2 f st h3 h1 h2
    cases fuel2 with
    | zero => omega
    | succ fuel2 =>
      by_cases c3 : f.length = 3
      · rw [splitBody_three K _ points fuel1 f _ c3, splitBody_three K _ points fuel2 f _ c3]
      · by_cases c4 : f.length = 4
        · rw [splitBody_four K _ points fuel1 f _ c4, splitBody_four K _ points fuel2 f _ c4]
        · obtain ⟨a1, a2, b1, b2, -, -, -⟩ := subFaces_spec K points f (by omega)
          rw [splitBody_general K _ points fuel1 f _ (by omega),
            splitBody_general K _ points fuel2 f _ (by omega),
            ih fuel2 (subFaces K points f).1 st a1 (by omega) (by omega)]
          cases splitBody K mode points fuel2 (subFaces K points f).1 st with
          | error e => rfl
          | ok st1 =>
            exact ih fuel2 (subFaces K points f).2 st1 b1 (by omega) (by omega)

theorem searchLoop_no_improvement (K : GeometryKernel P V S) (points : P) (f : face)
    (edges : List V) (startIndex : Nat) (minAngle : S)
    (hlt : ∀ x y, K.lt x y = false) :
    ∀ (cnt index minIndex : Nat) (minDiff : S),
      searchLoop K points f edges startIndex minAngle cnt index minIndex minDiff
        = minIndex := by
  intro cnt
  induction cnt with
  | zero => intro _ _ _; rfl
  | succ cnt ih =>
    intro index minIndex minDiff
    rw [searchLoop]
    simp only [hlt, Bool.false_eq_true, if_false]
    exact ih _ _ _

/-- C19: `split` terminates on every face of `n ≥ 3` vertices.  In the general
case (`n > 4`), for every kernel and point array, the chosen index `m` lies
`k` positions ahead of the start index `s` with `2 ≤ k ≤ n - 2` (when no
candidate improves on the initial difference, `k = 2`), `diff` is `k`, and the
two sub-faces have `k + 1` and `n - k + 1` vertices, at least 3 and at most
`n - 1`.  Hence the recursion is well-founded on the vertex count: every
depth of at least `n - 2` gives the body of `split` the same result, and that
result is never an exhausted depth. -/
theorem split_terminates (K : GeometryKernel P V S) (mode : splitMode) (points : P)
    (f : face) (st : SplitState) (h3 : 3 ≤ f.length) :
    (4 < f.length →
      ∃ s m k, splitChord K points f = (s, m) ∧ s < f.length ∧
        2 ≤ k ∧ k ≤ f.length - 2 ∧ m = (s + k) % f.length ∧
        splitDiff f.length s m = k ∧
        (subFaces K points f).1.length = k + 1 ∧
        (subFaces K points f).2.length = f.length - k + 1 ∧
        3 ≤ (subFaces K points f).1.length ∧
        (subFaces K points f).1.length ≤ f.length - 1 ∧
        3 ≤ (subFaces K points f).2.length ∧
        (subFaces K points f).2.length ≤ f.length - 1) ∧
    (4 < f.length → (∀ x y, K.lt x y = false) →
      (splitChord K points f).2 = ((splitChord K points f).1 + 2) % f.length) ∧
    (∀ fuel, f.length ≤ fuel + 2 →
      splitBody K mode points fuel f st = splitBody K mode points (f.length + 1) f st ∧
      splitBody K mode points fuel f st ≠ .error .outOfFuel) ∧
    split K mode points f st ≠ .error .outOfFuel := by
  have hfuel : ∀ fuel, f.length ≤ fuel + 2 →
      splitBody K mode points fuel f st ≠ .error .outOfFuel := fun fuel hf =>
    (splitBody_benign K mode points fuel f st h3 hf).2
  refine ⟨?_, ?_, ?_, ?_⟩
  · intro h4
    obtain ⟨hs, k, hk, hm⟩ := splitChord_spec K points f (by omega)
    have hd : splitDiff f.length (splitChord K points f).1 (splitChord K points f).2
        = 2 + k := by
      rw [hm]; exact splitDiff_eq hs hk
    refine ⟨(splitChord K points f).1, (splitChord K points f).2, 2 + k, rfl, hs,
      by omega, by omega, by rw [hm, Nat.add_assoc], hd, ?_, ?_, ?_, ?_, ?_, ?_⟩ <;>
      simp only [subFaces, collect_length, hd] <;> omega
  · intro h4 hlt
    simp only [splitChord]
    rw [searchLoop_no_improvement K points f _ _ _ hlt]
    exact fcIndex_add_mod (n := f.length) _ 1
  · intro fuel hf
    exact ⟨splitBody_depth K mode points fuel (f.length + 1) f st h3 hf (by omega),
      hfuel fuel hf⟩
  · have := hfuel (f.length + 1) (by omega)
    unfold split
    cases hr : splitBody K mode points (f.length + 1) f st with
    | error e =>
      rw [hr] at this
      simpa using this
    | ok st1 => simp

/-- C19, at the hexagon `[0,1,2,3,4,5]` in `SPLITQUAD` mode. -/
theorem split_terminates_witness :
    split tableKernel .SPLITQUAD [10, 20, 170, 40, 50, 60] [0, 1, 2, 3, 4, 5]
        { triI := 0, quadI := 0, triFaces := [], quadFaces := [[], []] }
      ≠ .error .outOfFuel :=
  (split_terminates tableKernel .SPLITQUAD [10, 20, 170, 40, 50, 60] [0, 1, 2, 3, 4, 5]
    { triI := 0, quadI := 0, triFaces := [], quadFaces := [[], []] } (by decide)).2.2.2

/-- The loop of `mostConcaveAngle` over the first `k + 1` edges, for angles
in a linear order that all exceed the initial `-GREAT`: the state holds the
first position of the largest angle so far, and that angle. -/
theorem mostConcave_prefix [LinearOrder S] (K : GeometryKernel P V S)
    (hlt : ∀ x y, K.lt x y = decide (x < y)) (points : P) (f : face) (edges : List V)
    (n : Nat) (hg : ∀ i, i < n → K.negGREAT < K.cornerAngle points f edges i) :
    ∀ k, k < n →
      ((List.range (k + 1)).foldl (mostConcaveStep K points f edges) (0, K.negGREAT)).1
        < k + 1 ∧
      ((List.range (k + 1)).foldl (mostConcaveStep K points f edges) (0, K.negGREAT)).2
        = K.cornerAngle points f edges
          ((List.range (k + 1)).foldl (mostConcaveStep K points f edges)
            (0, K.negGREAT)).1 ∧
      (∀ i, i < k + 1 → K.cornerAngle points f edges i ≤
        ((List.range (k + 1)).foldl (mostConcaveStep K points f edges)
          (0, K.negGREAT)).2) ∧
      (∀ i, i < ((List.range (k + 1)).foldl (mostConcaveStep K points f edges)
          (0, K.negGREAT)).1 →
        K.cornerAngle points f edges i <
          ((List.range (k + 1)).foldl (mostConcaveStep K points f edges)
            (0, K.negGREAT)).2) := by
  intro k
  induction k with
  | zero =>
    intro h0
    have e : (List.range (0 + 1)).foldl (mostConcaveStep K points f edges) (0, K.negGREAT)
        = (0, K.cornerAngle points f edges 0) := by
      simp [List.range_succ, mostConcaveStep, hlt, hg 0 h0]
    rw [e]
    refine ⟨by omega, rfl, ?_, ?_⟩
    · intro i hi
      have : i = 0 := by omega
      subst this
      exact le_refl _
    · intro i hi
      simp at hi
  | succ k ih =>
    intro hk
    obtain ⟨i1, i2, i3, i4⟩ := ih (by omega)
    rw [List.range_succ, List.foldl_append]
    simp only [List.foldl_cons, List.foldl_nil]
    generalize (List.range (k + 1)).foldl (mostConcaveStep K points f edges)
      (0, K.negGREAT) = s at i1 i2 i3 i4
    unfold mostConcaveStep
    simp only [hlt, decide_eq_true_eq]
    by_cases hc : s.2 < K.cornerAngle points f edges (k + 1)
    · rw [if_pos hc]
      refine ⟨by simp, rfl, ?_, ?_⟩
      · intro i hi
        simp only
        rcases Nat.lt_or_ge i (k + 1) with h | h
        · exact le_of_lt (lt_of_le_of_lt (i3 i h) hc)
        · have : i = k + 1 := by omega
          rw [this]
      · intro i hi
        simp only at hi ⊢
        exact lt_of_le_of_lt (i3 i hi) hc
    · rw [if_neg hc]
      refine ⟨by omega, i2, ?_, i4⟩
      intro i hi
      rcases Nat.lt_or_ge i (k + 1) with h | h
      · exact i3 i h
      · have : i = k + 1 := by omega
        rw [this]
        exact not_lt.mp hc

/-- C20: for every face of `n ≥ 1` vertices with an edge-direction field of the
same length, the angles being compared in a linear order and all larger than
the initial value `-GREAT` (they are `π ± acos(..)`, between 0 and 2π),
`mostConcaveAngle` returns an index `i*` in `[0, n)` and sets `maxAngle` to
the angle computed at vertex `i*`; no vertex has a larger angle and no vertex
with a lower index has an equal angle: the first maximum is selected. -/
theorem mostConcaveAngle_spec [LinearOrder S] (K : GeometryKernel P V S)
    (hlt : ∀ x y, K.lt x y = decide (x < y)) (points : P) (f : face) (edges : List V)
    (hlen : edges.length = f.length) (hn : 1 ≤ f.length)
    (hg : ∀ i, i < f.length → K.negGREAT < K.cornerAngle points f edges i) :
    (mostConcaveAngle K points f edges).1 < f.length ∧
    (mostConcaveAngle K points f edges).2
      = K.cornerAngle points f edges (mostConcaveAngle K points f edges).1 ∧
    (∀ i, i < f.length →
      K.cornerAngle points f edges i ≤ (mostConcaveAngle K points f edges).2) ∧
    (∀ i, i < (mostConcaveAngle K points f edges).1 →
      K.cornerAngle points f edges i ≠ (mostConcaveAngle K points f edges).2) := by
  obtain ⟨i1, i2, i3, i4⟩ := mostConcave_prefix K hlt points f edges f.length hg
    (f.length - 1) (by omega)
  have e : f.length - 1 + 1 = edges.length := by omega
  rw [e] at i1 i2 i3 i4
  unfold mostConcaveAngle
  refine ⟨by omega, i2, fun i hi => i3 i (by omega), fun i hi => ne_of_lt (i4 i hi)⟩

/-- C20, at a hexagon whose largest angle, 170, occurs at positions 2 and 4:
position 2 is returned. -/
theorem mostConcaveAngle_spec_witness :
    (mostConcaveAngle tableKernel [10, 20, 170, 40, 170, 60] [0, 1, 2, 3, 4, 5]
      [(), (), (), (), (), ()]).1 = 2 ∧
    (mostConcaveAngle tableKernel [10, 20, 170, 40, 170, 60] [0, 1, 2, 3, 4, 5]
      [(), (), (), (), (), ()]).2 = 170 ∧
    (∀ i, i < ([0, 1, 2, 3, 4, 5] : face).length →
      tableKernel.cornerAngle [10, 20, 170, 40, 170, 60] [0, 1, 2, 3, 4, 5]
          [(), (), (), (), (), ()] i
        ≤ (mostConcaveAngle tableKernel [10, 20, 170, 40, 170, 60] [0, 1, 2, 3, 4, 5]
            [(), (), (), (), (), ()]).2) :=
  ⟨by decide, by decide,
    (mostConcaveAngle_spec tableKernel (fun _ _ => rfl) [10, 20, 170, 40, 170, 60]
      [0, 1, 2, 3, 4, 5] [(), (), (), (), (), ()] (by decide) (by decide)
      (by decide)).2.2.1⟩

end SplitTermination

end Foam

/-! ## The normal of a face -/

namespace Foam

section GeometryLemmas

variable {F : Type} [LinearOrderedField F]

theorem foldl_add_eq_sum {M : Type} [AddCommMonoid M] (g : Nat → M) : ∀ n,
    (List.range n).foldl (fun acc i => acc + g i) 0 = ∑ i ∈ Finset.range n, g i := by
  intro n
  induction n with
  | zero => rfl
  | succ n ih =>
    rw [List.range_succ, List.foldl_append, ih, Finset.sum_range_succ]
    rfl

theorem cross_sub_sub (a b c : vec F) :
    cross (b - a) (c - a) = cross b c - cross a c + cross a b := by
  ext i
  fin_cases i <;> simp [cross] <;> ring

theorem cross_cyclic3 (a b c : vec F) :
    cross (b - a) (c - a) = cross a b + cross b c + cross c a := by
  ext i
  fin_cases i <;> simp [cross] <;> ring

/-- The sum of the normals of the central triangles does not depend on the
centre point. -/
theorem central_sum (P : Nat → vec F) (c : vec F) (n : Nat) (hP : P n = P 0) :
    ∑ i ∈ Finset.range n, (1 / 2 : F) • cross (P (i + 1) - P i) (c - P i)
      = (1 / 2 : F) • ∑ i ∈ Finset.range n, cross (P i) (P (i + 1)) := by
  rw [← Finset.smul_sum]
  congr 1
  have e : ∀ i, cross (P (i + 1) - P i) (c - P i)
      = (cross (P (i + 1)) c - cross (P i) c) + cross (P i) (P (i + 1)) :=
    fun i => cross_sub_sub _ _ _
  simp only [e]
  rw [Finset.sum_add_distrib, Finset.sum_range_sub (fun i => cross (P i) c) n, hP, sub_self,
    zero_add]

end GeometryLemmas

end Foam

/-! ## The normal of a face: the vector area -/

namespace Foam

section NormalArea
variable {F : Type} [LinearOrderedField F]

theorem normal_three (triNormal : vec F → vec F → vec F → vec F) (p : pointField F)
    (f : face) (h : f.length = 3) :
    normal triNormal p f
      = triNormal (pointAt p (at0 f 0)) (pointAt p (at0 f 1)) (pointAt p (at0 f 2)) := by
  unfold normal
  rw [if_pos h]

theorem normal_general (triNormal : vec F → vec F → vec F → vec F) (p : pointField F)
    (f : face) (h : f.length ≠ 3) :
    normal triNormal p f
      = ∑ i ∈ Finset.range f.length,
          triNormal (pointAt p (at0 f (i % f.length)))
            (pointAt p (at0 f ((i + 1) % f.length))) (centrePoint p f) := by
  unfold normal
  rw [if_neg h, foldl_add_eq_sum]
  apply Finset.sum_congr rfl
  intro i hi
  have hi := Finset.mem_range.mp hi
  rw [Nat.mod_eq_of_lt hi]
  by_cases h1 : i < f.length - 1
  · rw [if_pos h1, Nat.mod_eq_of_lt (by omega)]
  · rw [if_neg h1]
    have : i + 1 = f.length := by omega
    rw [this, Nat.mod_self]

/-- C16: over exact arithmetic, with the triangle normal taken as half the
cross product `(b - a) × (c - a)`, `normal(points)` of a face of `n` vertices
equals the vector area `(1/2) Σ p[f[i]] × p[f[(i+1) mod n]]` of the polygon,
whatever the centre point of the central decomposition (for `n ≥ 3`, and for
smaller faces as well). -/
theorem normal_eq_vector_area (triNormal : vec F → vec F → vec F → vec F)
    (htri : ∀ a b c, triNormal a b c = (1 / 2 : F) • cross (b - a) (c - a))
    (p : pointField F) (f : face) :
    normal triNormal p f
      = (1 / 2 : F) • ∑ i ∈ Finset.range f.length,
          cross (pointAt p (at0 f i)) (pointAt p (at0 f ((i + 1) % f.length))) := by
  have hsum : ∑ i ∈ Finset.range f.length,
        cross (pointAt p (at0 f i)) (pointAt p (at0 f ((i + 1) % f.length)))
      = ∑ i ∈ Finset.range f.length,
        cross (pointAt p (at0 f (i % f.length))) (pointAt p (at0 f ((i + 1) % f.length))) := by
    apply Finset.sum_congr rfl
    intro i hi
    rw [Nat.mod_eq_of_lt (Finset.mem_range.mp hi)]
  rw [hsum]
  by_cases h : f.length = 3
  · rw [normal_three _ _ _ h, htri, cross_cyclic3, h]
    simp [Finset.sum_range_succ]
  · rw [normal_general _ _ _ h]
    simp only [htri]
    exact central_sum (fun i => pointAt p (at0 f (i % f.length))) (centrePoint p f) f.length
      (by simp)

/-- C16, at the unit square: the normal is exactly `(0,0,1)`. -/
theorem normal_eq_vector_area_witness :
    normal halfCross unitSquare [0, 1, 2, 3] = ![0, 0, 1] :=
  (normal_eq_vector_area halfCross (fun _ _ _ => rfl) unitSquare [0, 1, 2, 3]).trans (by
    ext i
    fin_cases i
    · simp [Finset.sum_range_succ, cross, pointAt, at0, unitSquare]
    · simp [Finset.sum_range_succ, cross, pointAt, at0, unitSquare]
    · simp [Finset.sum_range_succ, cross, pointAt, at0, unitSquare]
      norm_num)

end NormalArea

end Foam

/-! ## The centre of a face: degenerate faces -/

namespace Foam

section CentreDegenerate
variable {F : Type} [LinearOrderedField F]

theorem foldl_pair_eq_sum {A B : Type} [AddCommMonoid A] [AddCommMonoid B]
    (a : Nat → A) (b : Nat → B) : ∀ n,
    (List.range n).foldl (fun (s : A × B) i => (s.1 + a i, s.2 + b i)) (0, 0)
      = (∑ i ∈ Finset.range n, a i, ∑ i ∈ Finset.range n, b i) := by
  intro n
  induction n with
  | zero => rfl
  | succ n ih =>
    rw [List.range_succ, List.foldl_append, ih, Finset.sum_range_succ, Finset.sum_range_succ]
    rfl

theorem centrePoint_eq_sum (points : pointField F) (f : face) :
    centrePoint points f
      = vdiv (∑ i ∈ Finset.range f.length, pointAt points (at0 f i)) (f.length : F) := by
  unfold centrePoint
  rw [foldl_add_eq_sum]

theorem centreSums_eq_sum (mag : vec F → F) (points : pointField F) (f : face) :
    centreSums mag points f
      = (∑ i ∈ Finset.range f.length,
          mag (cross (pointAt points (at0 f i) - centrePoint points f)
            (pointAt points (at0 f ((i + 1) % f.length)) - centrePoint points f)),
         ∑ i ∈ Finset.range f.length,
          mag (cross (pointAt points (at0 f i) - centrePoint points f)
            (pointAt points (at0 f ((i + 1) % f.length)) - centrePoint points f)) •
          (pointAt points (at0 f i) + pointAt points (at0 f ((i + 1) % f.length))
            + centrePoint points f)) := by
  unfold centreSums
  exact foldl_pair_eq_sum _ _ _

theorem cross_smul_smul (x y : F) (d : vec F) : cross (x • d) (y • d) = 0 := by
  ext i
  fin_cases i <;> simp [cross] <;> ring

/-- Over exact scalars: for a face of `n ≠ 3` vertices whose area sum `sumA`
is at most `VSMALL`, `centre` returns `centrePoint`; when the magnitude of the
zero vector is 0 and `VSMALL` is not negative, this is so whenever the points
of the face are collinear, `p[f[i]] = o + t i • d` (all equal when `d = 0`):
then `sumA = 0`. -/
theorem centre_collinear (mag : vec F → F) (VSMALL : F) (points : pointField F)
    (f : face) (h3 : f.length ≠ 3) :
    ((centreSums mag points f).1 ≤ VSMALL →
      centre mag VSMALL points f = centrePoint points f) ∧
    (mag 0 = 0 → 0 ≤ VSMALL → ∀ (o d : vec F) (t : Nat → F),
      (∀ i, i < f.length → pointAt points (at0 f i) = o + t i • d) →
      (centreSums mag points f).1 = 0 ∧
      centre mag VSMALL points f = centrePoint points f) := by
  have hmain : (centreSums mag points f).1 ≤ VSMALL →
      centre mag VSMALL points f = centrePoint points f := by
    intro h
    unfold centre
    rw [if_neg h3, if_neg (not_lt.mpr h)]
  refine ⟨hmain, ?_⟩
  intro hm0 hV o d t hcol
  have hzero : (centreSums mag points f).1 = 0 := by
    rw [centreSums_eq_sum]
    simp only
    apply Finset.sum_eq_zero
    intro i hi
    have hi := Finset.mem_range.mp hi
    have hn : 0 < f.length := by omega
    have hnF : (f.length : F) ≠ 0 := by
      exact_mod_cast (Nat.pos_iff_ne_zero.mp hn)
    have hc : centrePoint points f
        = o + ((∑ j ∈ Finset.range f.length, t j) / (f.length : F)) • d := by
      rw [centrePoint_eq_sum,
        Finset.sum_congr rfl (fun j hj => hcol j (Finset.mem_range.mp hj)),
        Finset.sum_add_distrib, Finset.sum_const, Finset.card_range, ← Finset.sum_smul]
      ext k
      simp only [vdiv, Pi.add_apply, Pi.smul_apply, smul_eq_mul, nsmul_eq_mul]
      field_simp
      ring
    have e1 : pointAt points (at0 f i) - centrePoint points f
        = (t i - (∑ j ∈ Finset.range f.length, t j) / (f.length : F)) • d := by
      rw [hcol i hi, hc, sub_smul]
      abel
    have e2 : pointAt points (at0 f ((i + 1) % f.length)) - centrePoint points f
        = (t ((i + 1) % f.length) - (∑ j ∈ Finset.range f.length, t j) / (f.length : F)) • d := by
      rw [hcol _ (Nat.mod_lt _ hn), hc, sub_smul]
      abel
    rw [e1, e2, cross_smul_smul, hm0]
  exact ⟨hzero, hmain (by rw [hzero]; exact hV)⟩

theorem pointAtK_exact (mag : vec F → F) (VSMALL : F) (points : pointField F) (l : label) :
    pointAtK (exactKernel mag VSMALL) points l = pointAt points l := rfl

theorem centrePointK_exact (mag : vec F → F) (VSMALL : F) (points : pointField F)
    (f : face) :
    centrePointK (exactKernel mag VSMALL) points f = centrePoint points f := rfl

theorem centreSumsK_exact (mag : vec F → F) (VSMALL : F) (points : pointField F)
    (f : face) :
    centreSumsK (exactKernel mag VSMALL) points f = centreSums mag points f := rfl

/-- Over exact scalars the body read over `exactKernel` returns the point
that `centre` returns. -/
theorem centreK_exact (mag : vec F → F) (VSMALL : F) (points : pointField F) (f : face) :
    (centreK (exactKernel mag VSMALL) points f).1 = centre mag VSMALL points f := by
  unfold centreK centre
  by_cases h3 : f.length = 3
  · rw [if_pos h3, if_pos h3]
    rfl
  · rw [if_neg h3, if_neg h3, centreSumsK_exact]
    by_cases hg : (centreSums mag points f).1 > VSMALL
    · rw [if_pos hg, if_pos (by simpa [exactKernel] using hg)]
      rfl
    · rw [if_neg hg, if_neg (by simpa [exactKernel] using hg)]
      rfl

theorem bitLengthLoop_spec : ∀ (fuel n : Nat), n ≤ fuel → n < 2 ^ bitLengthLoop fuel n := by
  intro fuel
  induction fuel with
  | zero =>
    intro n hn
    have : n = 0 := by omega
    subst this
    simp [bitLengthLoop]
  | succ fuel ih =>
    intro n hn
    unfold bitLengthLoop
    by_cases h0 : n = 0
    · rw [if_pos h0]
      subst h0
      simp
    · rw [if_neg h0, pow_succ]
      have := ih (n / 2) (by omega)
      omega

theorem isqrtLoop_spec (n : Nat) : ∀ (k r : Nat), r * r ≤ n →
    n < (r + 2 ^ k) * (r + 2 ^ k) →
    isqrtLoop n k r * isqrtLoop n k r ≤ n ∧
    n < (isqrtLoop n k r + 1) * (isqrtLoop n k r + 1) := by
  intro k
  induction k with
  | zero =>
    intro r h1 h2
    simpa [isqrtLoop] using And.intro h1 h2
  | succ k ih =>
    intro r h1 h2
    unfold isqrtLoop
    by_cases hc : (r + 2 ^ k) * (r + 2 ^ k) ≤ n
    · rw [if_pos hc]
      apply ih _ hc
      have e : r + 2 ^ k + 2 ^ k = r + 2 ^ (k + 1) := by rw [pow_succ]; omega
      rw [e]
      exact h2
    · rw [if_neg hc]
      exact ih _ h1 (by omega)

/-- The integer square root is the largest `r` with `r * r ≤ n`. -/
theorem isqrt_spec (n : Nat) :
    isqrt n * isqrt n ≤ n ∧ n < (isqrt n + 1) * (isqrt n + 1) := by
  unfold isqrt
  apply isqrtLoop_spec n _ 0 (Nat.zero_le _)
  have h1 : n < 2 ^ bitLength n := bitLengthLoop_spec n n (le_refl _)
  have h2 : 2 ^ bitLength n ≤ 2 ^ (bitLength n / 2 + 1) * 2 ^ (bitLength n / 2 + 1) := by
    rw [← pow_add]
    exact Nat.pow_le_pow_right (by decide) (by omega)
  rw [Nat.zero_add]
  omega

theorem zeroOrNone_sub_self (x : B64) : zeroOrNone (b64sub x x) := by
  cases x with
  | none => exact Or.inr rfl
  | some a =>
    left
    unfold b64sub
    simp only [sub_self]
    rfl

theorem b64mul_comm (x y : B64) : b64mul x y = b64mul y x := by
  cases x <;> cases y <;> simp [b64mul, Int.mul_comm, Int.add_comm]

theorem zeroOrNone_mul (x y : B64) (hx : zeroOrNone x) (hy : zeroOrNone y) :
    zeroOrNone (b64mul x y) := by
  rcases hx with rfl | rfl <;> rcases hy with rfl | rfl
  · left; rfl
  · right; rfl
  · right; rfl
  · right; rfl

theorem zeroOrNone_add (x y : B64) (hx : zeroOrNone x) (hy : zeroOrNone y) :
    zeroOrNone (b64add x y) := by
  rcases hx with rfl | rfl <;> rcases hy with rfl | rfl
  · left; rfl
  · right; rfl
  · right; rfl
  · right; rfl

theorem zeroOrNone_sqrt (x : B64) (hx : zeroOrNone x) : zeroOrNone (b64sqrt x) := by
  rcases hx with rfl | rfl
  · left; decide
  · right; rfl

theorem zeroOrNone_not_gt (x : B64) (hx : zeroOrNone x) :
    b64gt x binary64.VSMALL = false := by
  rcases hx with rfl | rfl
  · decide!
  · rfl

/-- In binary64 the magnitude of the cross product of a vector with itself
is zero, or outside the finite normal range. -/
theorem zeroOrNone_mag_cross_self (d : V64) :
    zeroOrNone (binary64.mag (binary64.crossV d d)) := by
  obtain ⟨x, y, z⟩ := d
  have h1 : zeroOrNone (b64sub (b64mul y z) (b64mul z y)) := by
    rw [b64mul_comm z y]; exact zeroOrNone_sub_self _
  have h2 : zeroOrNone (b64sub (b64mul z x) (b64mul x z)) := by
    rw [b64mul_comm x z]; exact zeroOrNone_sub_self _
  have h3 : zeroOrNone (b64sub (b64mul x y) (b64mul y x)) := by
    rw [b64mul_comm y x]; exact zeroOrNone_sub_self _
  exact zeroOrNone_sqrt _ (zeroOrNone_add _ _
    (zeroOrNone_add _ _ (zeroOrNone_mul _ _ h1 h1) (zeroOrNone_mul _ _ h2 h2))
    (zeroOrNone_mul _ _ h3 h3))

/-- In binary64, when all points of the face coincide the area sum is zero,
or outside the finite normal range. -/
theorem centreSumsK_coincident (points : List V64) (f : face) (p : V64)
    (h : ∀ i, i < f.length → pointAtK binary64 points (at0 f i) = p) :
    zeroOrNone (centreSumsK binary64 points f).1 := by
  have key : ∀ (l : List Nat) (s : B64 × V64), (∀ i ∈ l, i < f.length) →
      zeroOrNone s.1 →
      zeroOrNone (l.foldl
        (fun s pI =>
          let nextPoint := pointAtK binary64 points (at0 f ((pI + 1) % f.length))
          let ttc := binary64.addV (binary64.addV (pointAtK binary64 points (at0 f pI))
            nextPoint) (centrePointK binary64 points f)
          let ta := binary64.mag
            (binary64.crossV
              (binary64.subV (pointAtK binary64 points (at0 f pI))
                (centrePointK binary64 points f))
              (binary64.subV nextPoint (centrePointK binary64 points f)))
          (binary64.addS s.1 ta, binary64.addV s.2 (binary64.smulV ta ttc))) s).1 := by
    intro l
    induction l with
    | nil => intro s _ hs; exact hs
    | cons a l ih =>
      intro s hl hs
      rw [List.foldl_cons]
      apply ih _ (fun i hi => hl i (List.mem_cons_of_mem _ hi))
      have ha : a < f.length := hl a (List.mem_cons_self _ _)
      simp only
      rw [h a ha, h ((a + 1) % f.length) (Nat.mod_lt _ (by omega))]
      exact zeroOrNone_add _ _ hs (zeroOrNone_mag_cross_self _)
  unfold centreSumsK
  exact key _ _ (fun i hi => List.mem_range.mp hi) (Or.inl rfl)


/-- C15, amended.  For every face of `n ≠ 3` vertices, over any arithmetic
(exact or rounded): when the computed area sum `sumA` of the central triangles
is not above `VSMALL`, `centre` returns `centrePoint`, the unweighted mean of
the points of its vertices as computed, and the only division it carries out
is `centrePoint /= nPoints`: it does not divide by the area sum.  In binary64
this is so whenever all points of the face coincide.  Over exact scalars
(with `mag 0 = 0` and `VSMALL ≥ 0`) it is so whenever the points of the face
are collinear, `p[f[i]] = o + t i • d` (all equal when `d = 0`): then
`sumA = 0`, the returned point is the sum of the points divided by `n`, and
for `n ≥ 1` the one divisor `n` is not zero. -/
theorem centre_degenerate {V S : Type} (K : VectorKernel V S) (pointsK : List V)
    (mag : vec F → F) (VSMALL : F) (points : pointField F)
    (f : face) (h3 : f.length ≠ 3) :
    (K.gt (centreSumsK K pointsK f).1 K.VSMALL = false →
      centreK K pointsK f = (centrePointK K pointsK f, [K.ofLabel f.length])) ∧
    (∀ (points64 : List V64) (p : V64),
      (∀ i, i < f.length → pointAtK binary64 points64 (at0 f i) = p) →
      binary64.gt (centreSumsK binary64 points64 f).1 binary64.VSMALL = false ∧
      centreK binary64 points64 f
        = (centrePointK binary64 points64 f, [b64ofNat f.length])) ∧
    (1 ≤ f.length → mag 0 = 0 → 0 ≤ VSMALL → ∀ (o d : vec F) (t : Nat → F),
      (∀ i, i < f.length → pointAt points (at0 f i) = o + t i • d) →
      (centreSumsK (exactKernel mag VSMALL) points f).1 = 0 ∧
      centreK (exactKernel mag VSMALL) points f
        = (vdiv (∑ i ∈ Finset.range f.length, pointAt points (at0 f i)) (f.length : F),
           [(f.length : F)]) ∧
      (f.length : F) ≠ 0) := by
  have hmain : ∀ {V1 S1 : Type} (K1 : VectorKernel V1 S1) (pts : List V1),
      K1.gt (centreSumsK K1 pts f).1 K1.VSMALL = false →
      centreK K1 pts f = (centrePointK K1 pts f, [K1.ofLabel f.length]) := by
    intro V1 S1 K1 pts hg
    unfold centreK
    rw [if_neg h3, if_neg (by rw [hg]; decide)]
  refine ⟨hmain K pointsK, ?_, ?_⟩
  · intro points64 p hp
    have hg := zeroOrNone_not_gt _ (centreSumsK_coincident points64 f p hp)
    exact ⟨hg, hmain binary64 points64 hg⟩
  intro h1 hm0 hV o d t hcol
  obtain ⟨-, hc⟩ := centre_collinear mag VSMALL points f h3
  obtain ⟨hzero, -⟩ := hc hm0 hV o d t hcol
  have hz : (centreSumsK (exactKernel mag VSMALL) points f).1 = 0 := by
    rw [centreSumsK_exact]
    exact hzero
  refine ⟨hz, ?_, ?_⟩
  · rw [hmain (exactKernel mag VSMALL) points (by
      rw [hz]
      simpa [exactKernel] using hV)]
    rw [centrePointK_exact, centrePoint_eq_sum]
    rfl
  · exact_mod_cast (Nat.pos_iff_ne_zero.mp h1)

/-- C15, amended, at four coincident points `(0.1, 0.2, 0.3)` in binary64 and
at four points on the `x` axis over the rationals. -/
theorem centre_degenerate_witness :
    centreK binary64
        (List.replicate 4 (b64div (b64ofNat 1) (b64ofNat 10),
          b64div (b64ofNat 1) (b64ofNat 5), b64div (b64ofNat 3) (b64ofNat 10)))
        [0, 1, 2, 3]
      = (centrePointK binary64
          (List.replicate 4 (b64div (b64ofNat 1) (b64ofNat 10),
            b64div (b64ofNat 1) (b64ofNat 5), b64div (b64ofNat 3) (b64ofNat 10)))
          [0, 1, 2, 3], [b64ofNat ([0, 1, 2, 3] : face).length]) ∧
    centreK (exactKernel axisMag (1 / 10 ^ 300))
        [![0, 0, 0], ![1, 0, 0], ![2, 0, 0], ![3, 0, 0]] [0, 1, 2, 3]
      = (vdiv (∑ i ∈ Finset.range ([0, 1, 2, 3] : face).length,
            pointAt [![0, 0, 0], ![1, 0, 0], ![2, 0, 0], ![3, 0, 0]]
              (at0 [0, 1, 2, 3] i)) (([0, 1, 2, 3] : face).length : ℚ),
         [(([0, 1, 2, 3] : face).length : ℚ)]) :=
  ⟨((centre_degenerate binary64 [] axisMag (1 / 10 ^ 300)
      [![0, 0, 0], ![1, 0, 0], ![2, 0, 0], ![3, 0, 0]] [0, 1, 2, 3] (by decide)).2.1
      (List.replicate 4 (b64div (b64ofNat 1) (b64ofNat 10),
        b64div (b64ofNat 1) (b64ofNat 5), b64div (b64ofNat 3) (b64ofNat 10)))
      (b64div (b64ofNat 1) (b64ofNat 10),
        b64div (b64ofNat 1) (b64ofNat 5), b64div (b64ofNat 3) (b64ofNat 10))
      (by
        intro i hi
        have hi : i < 4 := hi
        interval_cases i <;> rfl)).2,
   ((centre_degenerate binary64 [] axisMag (1 / 10 ^ 300)
      [![0, 0, 0], ![1, 0, 0], ![2, 0, 0], ![3, 0, 0]] [0, 1, 2, 3] (by decide)).2.2
      (by decide) (by simp [axisMag]) (by positivity) 0 ![1, 0, 0] (fun i => (i : ℚ)) (by
        intro i hi
        have hi : i < 4 := hi
        interval_cases i <;>
        · ext k
          fin_cases k <;> simp [pointAt, at0])).2.1⟩

/-- C15 as stated fails in binary64 at the five collinear points
`t * (1, 3, 7)`, `t = 0, 1, 2, 3, 5`.  The mean is computed as the binary64
values nearest to `(11/5, 33/5, 77/5)`, which are not exact, so the cross
products of the differences from it are not zero: the area sum is about
`3.28e-14`, above `VSMALL = 1e-300`.  So `centre` divides by `3.0*sumA` and returns about
`(2.724, 8.172, 19.068)`, not the mean. -/
theorem centre_collinear_counterexample :
    centrePointK binary64 collinearFive [0, 1, 2, 3, 4]
      = (some ⟨0x1199999999999a, -51⟩, some ⟨0x1a666666666666, -50⟩,
         some ⟨0x1ecccccccccccd, -49⟩) ∧
    centrePointK binary64 collinearFive [0, 1, 2, 3, 4]
      = (roundQuotient false 11 5 0, roundQuotient false 33 5 0,
         roundQuotient false 77 5 0) ∧
    (centreSumsK binary64 collinearFive [0, 1, 2, 3, 4]).1
      = some ⟨0x1276356c888791, -97⟩ ∧
    binary64.gt (centreSumsK binary64 collinearFive [0, 1, 2, 3, 4]).1 binary64.VSMALL
      = true ∧
    centreK binary64 collinearFive [0, 1, 2, 3, 4]
      = ((some ⟨0x15cab9f869b73d, -51⟩, some ⟨0x10580b7a4f496e, -49⟩,
          some ⟨0x131162b95c8056, -48⟩),
         [b64ofNat 5, some ⟨0x1bb15022cccb5a, -96⟩]) ∧
    (centreK binary64 collinearFive [0, 1, 2, 3, 4]).1
      ≠ centrePointK binary64 collinearFive [0, 1, 2, 3, 4] := by
  decide!


end CentreDegenerate

end Foam

/-! ## The centre of a face: parallelograms -/

namespace Foam

section CentreParallelogram
variable {F : Type} [LinearOrderedField F]

theorem parallelogram_cross (p0 p1 p2 : vec F) :
    cross (p1 - (1 / 2 : F) • (p0 + p2)) (p2 - (1 / 2 : F) • (p0 + p2))
      = cross (p0 - (1 / 2 : F) • (p0 + p2)) (p1 - (1 / 2 : F) • (p0 + p2)) ∧
    cross (p2 - (1 / 2 : F) • (p0 + p2)) (p0 + p2 - p1 - (1 / 2 : F) • (p0 + p2))
      = cross (p0 - (1 / 2 : F) • (p0 + p2)) (p1 - (1 / 2 : F) • (p0 + p2)) ∧
    cross (p0 + p2 - p1 - (1 / 2 : F) • (p0 + p2)) (p0 - (1 / 2 : F) • (p0 + p2))
      = cross (p0 - (1 / 2 : F) • (p0 + p2)) (p1 - (1 / 2 : F) • (p0 + p2)) := by
  refine ⟨?_, ?_, ?_⟩ <;>
  · ext k
    fin_cases k <;> simp [cross] <;> ring

theorem parallelogram_mean (p0 p1 p2 : vec F) :
    vdiv (p0 + p1 + p2 + (p0 + p2 - p1)) 4 = (1 / 2 : F) • (p0 + p2) := by
  ext k
  simp only [vdiv, Pi.add_apply, Pi.sub_apply, Pi.smul_apply, smul_eq_mul]
  ring

theorem parallelogram_weighted (a : F) (ha : a ≠ 0) (p0 p1 p2 : vec F) :
    vdiv (a • (p0 + p1 + (1 / 2 : F) • (p0 + p2)) + a • (p1 + p2 + (1 / 2 : F) • (p0 + p2))
        + a • (p2 + (p0 + p2 - p1) + (1 / 2 : F) • (p0 + p2))
        + a • ((p0 + p2 - p1) + p0 + (1 / 2 : F) • (p0 + p2)))
      (3 * (a + a + a + a))
      = (1 / 2 : F) • (p0 + p2) := by
  ext k
  simp only [vdiv, Pi.add_apply, Pi.sub_apply, Pi.smul_apply, smul_eq_mul]
  have h4a : 3 * (a + a + a + a) = 12 * a := by ring
  rw [h4a, div_eq_iff (mul_ne_zero (by norm_num) ha)]
  ring

/-- C14: over exact arithmetic, for every 4-vertex face whose four points taken
in order form a parallelogram (`p0 + p2 = p1 + p3`), whatever the magnitude
function and for a threshold `VSMALL ≥ 0`: the four central triangles have the
same doubled area, and `centre` returns the common midpoint `(p0 + p2)/2` of
the diagonals. -/
theorem centre_parallelogram (mag : vec F → F) (VSMALL : F) (hV : 0 ≤ VSMALL)
    (points : pointField F) (f : face) (h4 : f.length = 4)
    (hp : pointAt points (at0 f 0) + pointAt points (at0 f 2)
      = pointAt points (at0 f 1) + pointAt points (at0 f 3)) :
    (∀ i, i < 4 →
      mag (cross (pointAt points (at0 f i) - centrePoint points f)
          (pointAt points (at0 f ((i + 1) % 4)) - centrePoint points f))
        = mag (cross (pointAt points (at0 f 0) - centrePoint points f)
          (pointAt points (at0 f 1) - centrePoint points f))) ∧
    centre mag VSMALL points f
      = (1 / 2 : F) • (pointAt points (at0 f 0) + pointAt points (at0 f 2)) := by
  have hp3 : pointAt points (at0 f 3)
      = pointAt points (at0 f 0) + pointAt points (at0 f 2) - pointAt points (at0 f 1) := by
    rw [hp]; abel
  have hc : centrePoint points f
      = (1 / 2 : F) • (pointAt points (at0 f 0) + pointAt points (at0 f 2)) := by
    rw [centrePoint_eq_sum, h4]
    simp only [Finset.sum_range_succ, Finset.sum_range_zero, zero_add, hp3]
    exact_mod_cast parallelogram_mean _ _ _
  obtain ⟨x1, x2, x3⟩ := parallelogram_cross (pointAt points (at0 f 0))
    (pointAt points (at0 f 1)) (pointAt points (at0 f 2))
  have hs : centreSums mag points f
      = (∑ i ∈ Finset.range 4,
          mag (cross (pointAt points (at0 f i) - centrePoint points f)
            (pointAt points (at0 f ((i + 1) % 4)) - centrePoint points f)),
         ∑ i ∈ Finset.range 4,
          mag (cross (pointAt points (at0 f i) - centrePoint points f)
            (pointAt points (at0 f ((i + 1) % 4)) - centrePoint points f)) •
          (pointAt points (at0 f i) + pointAt points (at0 f ((i + 1) % 4))
            + centrePoint points f)) := by
    rw [centreSums_eq_sum, h4]
  constructor
  · intro i hi
    rw [hc]
    interval_cases i
    · rfl
    · simp only [Nat.reduceAdd, Nat.reduceMod]
      rw [x1]
    · simp only [Nat.reduceAdd, Nat.reduceMod]
      rw [hp3, x2]
    · simp only [Nat.reduceAdd, Nat.reduceMod]
      rw [hp3, x3]
  · unfold centre
    rw [if_neg (by omega), hs]
    simp only [Finset.sum_range_succ, Finset.sum_range_zero, zero_add, Nat.reduceAdd,
      Nat.reduceMod, Nat.zero_mod, Nat.one_mod]
    rw [hc, hp3, x1, x2, x3]
    generalize mag (cross (pointAt points (at0 f 0)
        - (1 / 2 : F) • (pointAt points (at0 f 0) + pointAt points (at0 f 2)))
      (pointAt points (at0 f 1)
        - (1 / 2 : F) • (pointAt points (at0 f 0) + pointAt points (at0 f 2)))) = a
    by_cases hgt : a + a + a + a > VSMALL
    · rw [if_pos hgt]
      have ha : a ≠ 0 := by
        intro h0
        rw [h0] at hgt
        simp only [add_zero] at hgt
        exact absurd hgt (not_lt.mpr hV)
      exact parallelogram_weighted a ha _ _ _
    · rw [if_neg hgt]

/-- C14, at the unit square: the centre is `(0.5, 0.5, 0)`. -/
theorem centre_parallelogram_witness :
    centre axisMag (1 / 10 ^ 300) unitSquare [0, 1, 2, 3] = ![1 / 2, 1 / 2, 0] :=
  (centre_parallelogram axisMag (1 / 10 ^ 300) (by positivity) unitSquare [0, 1, 2, 3]
    (by decide) (by
      ext i
      fin_cases i <;> simp [pointAt, at0, unitSquare])).2.trans (by
    ext i
    fin_cases i <;> simp [pointAt, at0, unitSquare])

end CentreParallelogram

end Foam

/-! ## Splitting: the record of the writes -/

namespace Foam

section SplitWrites

variable {P V S : Type}

/-- Dropping the record of the writes from a traced call gives the call. -/
theorem splitBodyTrace_erase (K : GeometryKernel P V S) (mode : splitMode) (points : P) :
    ∀ (fuel : Nat) (f : face) (s : SplitTrace),
      eraseTrace (splitBodyTrace K mode points fuel f s)
        = splitBody K mode points fuel f s.st := by
  intro fuel
  induction fuel with
  | zero => intro f s; rfl
  | succ fuel ih =>
    intro f s
    rw [splitBodyTrace, splitBody]
    by_cases c2 : f.length ≤ 2
    · simp only [if_pos c2]; rfl
    · simp only [if_neg c2]
      by_cases c3 : f.length = 3
      · simp only [if_pos c3]
        by_cases hm : mode = .COUNTTRIANGLE ∨ mode = .COUNTQUAD
        · simp only [if_pos hm]; rfl
        · simp only [if_neg hm]
          cases wr s.st.triFaces s.st.triI f <;> rfl
      · simp only [if_neg c3]
        by_cases c4 : f.length = 4
        · simp only [if_pos c4]
          cases mode
          · simp only [reduceCtorEq, if_false, if_true]
            cases wr s.st.quadFaces s.st.quadI f <;> rfl
          · simp only [reduceCtorEq, if_false, if_true]
            rfl
          · simp only [reduceCtorEq, if_false, if_true]
            cases h1 : wr s.st.triFaces s.st.triI
              [at0 f (mostConcaveAngle K points f (calcEdges K points f)).1,
               at0 f (fcIndex f.length (mostConcaveAngle K points f (calcEdges K points f)).1),
               at0 f (fcIndex f.length
                 (fcIndex f.length (mostConcaveAngle K points f (calcEdges K points f)).1))]
              with
            | error e => rfl
            | ok t =>
              simp only
              cases wr t (s.st.triI + 1)
                [at0 f (fcIndex f.length
                   (fcIndex f.length (mostConcaveAngle K points f (calcEdges K points f)).1)),
                 at0 f (fcIndex f.length (fcIndex f.length
                   (fcIndex f.length (mostConcaveAngle K points f (calcEdges K points f)).1))),
                 at0 f (mostConcaveAngle K points f (calcEdges K points f)).1] <;> rfl
          · simp only [reduceCtorEq, if_false]
            cases wr s.st.quadFaces s.st.quadI f <;> rfl
        · simp only [if_neg c4]
          have i1 := ih (subFaces K points f).1 s
          cases h1 : splitBodyTrace K mode points fuel (subFaces K points f).1 s with
          | error e =>
            rw [h1] at i1
            simp only [eraseTrace] at i1 ⊢
            rw [← i1]
          | ok s1 =>
            rw [h1] at i1
            simp only [eraseTrace] at i1
            simp only
            rw [← i1]
            exact ih (subFaces K points f).2 s1

theorem splitBodyTrace_three (K : GeometryKernel P V S) (mode : splitMode) (points : P)
    (fuel : Nat) (f : face) (s : SplitTrace) (h : f.length = 3) :
    splitBodyTrace K mode points (fuel + 1) f s =
      if mode = .COUNTTRIANGLE ∨ mode = .COUNTQUAD then
        .ok { s with st := { s.st with triI := s.st.triI + 1 } }
      else
        match wr s.st.triFaces s.st.triI f with
        | .error e => .error e
        | .ok t =>
          .ok { st := { s.st with triFaces := t, triI := s.st.triI + 1 },
                triWrites := s.triWrites ++ [s.st.triI],
                quadWrites := s.quadWrites } := by
  rw [splitBodyTrace]
  rw [if_neg (by omega), if_pos h]

theorem splitBodyTrace_four_tri (K : GeometryKernel P V S) (points : P)
    (fuel : Nat) (f : face) (s : SplitTrace) (h : f.length = 4) :
    splitBodyTrace K .SPLITTRIANGLE points (fuel + 1) f s =
      match wr s.st.triFaces s.st.triI (quadTriangles K points f).head! with
      | .error e => .error e
      | .ok t =>
        match wr t (s.st.triI + 1) (quadTriangles K points f).tail.head! with
        | .error e => .error e
        | .ok t2 =>
          .ok { st := { s.st with triFaces := t2, triI := s.st.triI + 1 + 1 },
                triWrites := s.triWrites ++ [s.st.triI, s.st.triI + 1],
                quadWrites := s.quadWrites } := by
  rw [splitBodyTrace]
  rw [if_neg (by omega), if_neg (by omega), if_pos h]
  simp [quadTriangles]

theorem splitBodyTrace_four_quad (K : GeometryKernel P V S) (points : P)
    (fuel : Nat) (f : face) (s : SplitTrace) (h : f.length = 4) :
    splitBodyTrace K .SPLITQUAD points (fuel + 1) f s =
      match wr s.st.quadFaces s.st.quadI f with
      | .error e => .error e
      | .ok q =>
        .ok { st := { s.st with quadFaces := q, quadI := s.st.quadI + 1 },
              triWrites := s.triWrites,
              quadWrites := s.quadWrites ++ [s.st.quadI] } := by
  rw [splitBodyTrace]
  rw [if_neg (by omega), if_neg (by omega), if_pos h]
  simp

theorem splitBodyTrace_general (K : GeometryKernel P V S) (mode : splitMode) (points : P)
    (fuel : Nat) (f : face) (s : SplitTrace) (h : 4 < f.length) :
    splitBodyTrace K mode points (fuel + 1) f s =
      match splitBodyTrace K mode points fuel (subFaces K points f).1 s with
      | .error e => .error e
      | .ok s1 => splitBodyTrace K mode points fuel (subFaces K points f).2 s1 := by
  rw [splitBodyTrace]
  rw [if_neg (by omega), if_neg (by omega), if_neg (by omega)]

theorem cursorRange_zero (c : Nat) : cursorRange c 0 = [] := rfl

theorem cursorRange_one (c : Nat) : cursorRange c 1 = [(c : Int)] := rfl

theorem cursorRange_two (c : Nat) : cursorRange c 2 = [(c : Int), (c : Int) + 1] := by
  simp [cursorRange, List.range']

theorem cursorRange_append (c a b : Nat) :
    cursorRange c (a + b) = cursorRange c a ++ cursorRange (c + a) b := by
  have h := List.range'_append c a b 1
  simp only [Nat.one_mul] at h
  unfold cursorRange
  rw [← List.map_append, h, Nat.add_comm a b]

theorem cursorRange_length (c k : Nat) : (cursorRange c k).length = k := by
  unfold cursorRange
  rw [List.length_map, List.length_range']

/-- Each position of `[c, c + k)` occurs exactly once in `cursorRange c k`,
and no other position occurs. -/
theorem cursorRange_count (c k : Nat) (p : Int) :
    (cursorRange c k).count p
      = if (c : Int) ≤ p ∧ p < (c : Int) + k then 1 else 0 := by
  induction k generalizing c with
  | zero =>
    rw [cursorRange_zero, if_neg (by omega)]
    rfl
  | succ k ih =>
    have e : cursorRange c (k + 1) = (c : Int) :: cursorRange (c + 1) k := by
      rw [Nat.add_comm k 1, cursorRange_append, cursorRange_one]
      rfl
    rw [e, List.count_cons, ih]
    by_cases h1 : (c : Int) = p
    · subst h1
      simp
    · have h2 : ¬ ((c : Int) == p) = true := by simpa using h1
      rw [if_neg h2]
      by_cases h3 : ((c + 1 : Nat) : Int) ≤ p ∧ p < ((c + 1 : Nat) : Int) + k
      · rw [if_pos h3, if_pos (by push_cast at h3 ⊢; omega)]
      · rw [if_neg h3, if_neg (by push_cast at h3 ⊢; omega)]

/-- In `SPLITTRIANGLE` mode, with room in the triangle collection, the traced
body writes the positions `c, c+1, ...` once each, in this order, and no
position of the quad collection. -/
theorem splitBodyTrace_tri (K : GeometryKernel P V S) (points : P) :
    ∀ (fuel : Nat) (f : face) (c : Nat) (q : Int) (tf qf : faceList) (tw qw : List Int),
      3 ≤ f.length → f.length ≤ fuel + 2 → c + (f.length - 2) ≤ tf.length →
      splitBodyTrace K .SPLITTRIANGLE points fuel f
          { st := { triI := (c : Int), quadI := q, triFaces := tf, quadFaces := qf },
            triWrites := tw, quadWrites := qw }
        = .ok { st := { triI := ((c + (leaves K false points fuel f).length : Nat) : Int),
                        quadI := q,
                        triFaces := overwrite tf c (leaves K false points fuel f),
                        quadFaces := qf },
                triWrites := tw ++ cursorRange c (leaves K false points fuel f).length,
                quadWrites := qw } := by
  intro fuel
  induction fuel with
  | zero => intro f c q tf qf tw qw h3 hf; omega
  | succ fuel ih =>
    intro f c q tf qf tw qw h3 hf hroom
    by_cases c3 : f.length = 3
    · rw [splitBodyTrace_three K _ points fuel f _ c3, leaves_three K false points fuel f c3]
      simp only [reduceCtorEq, or_self, if_false]
      rw [wr_ok _ _ _ (by omega)]
      simp [overwrite, cursorRange_one]
    · by_cases c4 : f.length = 4
      · rw [splitBodyTrace_four_tri K points fuel f _ c4, leaves_four K false points fuel f c4]
        simp only [Bool.false_eq_true, if_false]
        rw [wr_ok _ _ _ (by omega)]
        simp only
        have e : ((c : Int) + 1) = ((c + 1 : Nat) : Int) := by push_cast; rfl
        rw [e, wr_ok _ _ _ (by rw [List.length_set]; omega)]
        simp [quadTriangles, overwrite, cursorRange_two]
        omega
      · obtain ⟨a1, a2, b1, b2, hsum, -, -⟩ := subFaces_spec K points f (by omega)
        obtain ⟨l1, -⟩ := leaves_tri_spec K points fuel (subFaces K points f).1 a1 (by omega)
        obtain ⟨l2, -⟩ := leaves_tri_spec K points fuel (subFaces K points f).2 b1 (by omega)
        rw [splitBodyTrace_general K _ points fuel f _ (by omega),
          leaves_general K false points fuel f (by omega)]
        rw [ih _ c q tf qf tw qw a1 (by omega) (by omega)]
        simp only
        rw [ih _ _ _ _ _ _ _ b1 (by omega) (by rw [overwrite_length]; omega)]
        rw [overwrite_append, List.length_append, cursorRange_append, Nat.add_assoc,
          List.append_assoc]

/-- In `SPLITQUAD` mode, with room in both collections, the traced body
writes the positions `c, c+1, ...` of the triangle collection and
`q, q+1, ...` of the quad collection once each, in this order. -/
theorem splitBodyTrace_quad (K : GeometryKernel P V S) (points : P) :
    ∀ (fuel : Nat) (f : face) (c q : Nat) (tf qf : faceList) (tw qw : List Int),
      3 ≤ f.length → f.length ≤ fuel + 2 →
      c + (triLeaves K points fuel f).length ≤ tf.length →
      q + (quadLeaves K points fuel f).length ≤ qf.length →
      splitBodyTrace K .SPLITQUAD points fuel f
          { st := { triI := (c : Int), quadI := (q : Int), triFaces := tf, quadFaces := qf },
            triWrites := tw, quadWrites := qw }
        = .ok { st := { triI := ((c + (triLeaves K points fuel f).length : Nat) : Int),
                        quadI := ((q + (quadLeaves K points fuel f).length : Nat) : Int),
                        triFaces := overwrite tf c (triLeaves K points fuel f),
                        quadFaces := overwrite qf q (quadLeaves K points fuel f) },
                triWrites := tw ++ cursorRange c (triLeaves K points fuel f).length,
                quadWrites := qw ++ cursorRange q (quadLeaves K points fuel f).length } := by
  intro fuel
  induction fuel with
  | zero => intro f c q tf qf tw qw h3 hf; omega
  | succ fuel ih =>
    intro f c q tf qf tw qw h3 hf hr1 hr2
    by_cases c3 : f.length = 3
    · obtain ⟨e1, e2⟩ := triLeaves_three K points fuel f c3
      rw [e1] at hr1
      rw [splitBodyTrace_three K _ points fuel f _ c3, e1, e2]
      simp only [reduceCtorEq, or_self, if_false]
      rw [wr_ok _ _ _ (by simpa using hr1)]
      simp [overwrite, cursorRange_one, cursorRange_zero]
    · by_cases c4 : f.length = 4
      · obtain ⟨e1, e2⟩ := triLeaves_four K points fuel f c4
        rw [e2] at hr2
        rw [splitBodyTrace_four_quad K points fuel f _ c4, e1, e2]
        rw [wr_ok _ _ _ (by simpa using hr2)]
        simp [overwrite, cursorRange_one, cursorRange_zero]
      · obtain ⟨e1, e2⟩ := triLeaves_general K points fuel f (by omega)
        obtain ⟨a1, a2, b1, b2, hsum, -, -⟩ := subFaces_spec K points f (by omega)
        rw [e1, List.length_append] at hr1
        rw [e2, List.length_append] at hr2
        rw [splitBodyTrace_general K _ points fuel f _ (by omega), e1, e2]
        rw [ih _ c q tf qf tw qw a1 (by omega) (by omega) (by omega)]
        simp only
        rw [ih _ _ _ _ _ _ _ b1 (by omega) (by rw [overwrite_length]; omega)
          (by rw [overwrite_length]; omega)]
        rw [overwrite_append, overwrite_append, List.length_append, List.length_append,
          cursorRange_append, cursorRange_append, Nat.add_assoc, Nat.add_assoc,
          List.append_assoc, List.append_assoc]

/-- The call `split` is the traced body with the record of the writes
dropped. -/
theorem split_of_trace (K : GeometryKernel P V S) (mode : splitMode) (points : P)
    (f : face) (s s1 : SplitTrace)
    (h : splitBodyTrace K mode points (f.length + 1) f s = .ok s1) :
    split K mode points f s.st
      = .ok (s1.st.triI + s1.st.quadI - (s.st.triI + s.st.quadI), s1.st) := by
  have e := splitBodyTrace_erase K mode points (f.length + 1) f s
  rw [h] at e
  unfold split
  rw [← e]
  rfl

/-- Both generating modes, with room at the cursors: the faces produced are
written at consecutive positions from the cursors, once each. -/
theorem splitBodyTrace_generating (K : GeometryKernel P V S) (mode : splitMode)
    (points : P) (f : face) (hm : mode = .SPLITTRIANGLE ∨ mode = .SPLITQUAD)
    (h3 : 3 ≤ f.length) :
    ∃ TL QL : List face,
      (∀ t ∈ TL, t.length = 3 ∧
        t ∈ leaves K (decide (mode = .SPLITQUAD)) points (f.length + 1) f) ∧
      (∀ t ∈ QL, t.length = 4 ∧
        t ∈ leaves K (decide (mode = .SPLITQUAD)) points (f.length + 1) f) ∧
      ∀ (t0 q0 : Nat) (tf qf : faceList) (tw qw : List Int),
        t0 + TL.length ≤ tf.length → q0 + QL.length ≤ qf.length →
        splitBodyTrace K mode points (f.length + 1) f
            { st := { triI := (t0 : Int), quadI := (q0 : Int),
                      triFaces := tf, quadFaces := qf },
              triWrites := tw, quadWrites := qw }
          = .ok { st := { triI := (t0 : Int) + TL.length,
                          quadI := (q0 : Int) + QL.length,
                          triFaces := overwrite tf t0 TL,
                          quadFaces := overwrite qf q0 QL },
                  triWrites := tw ++ cursorRange t0 TL.length,
                  quadWrites := qw ++ cursorRange q0 QL.length } := by
  rcases hm with rfl | rfl
  · obtain ⟨hl, hmem⟩ := leaves_tri_spec K points (f.length + 1) f h3 (by omega)
    refine ⟨leaves K false points (f.length + 1) f, [], ?_, ?_, ?_⟩
    · intro t ht
      exact ⟨(hmem t ht).1, by simpa using ht⟩
    · intro t ht
      simp at ht
    · intro t0 q0 tf qf tw qw hr1 hr2
      rw [splitBodyTrace_tri K points (f.length + 1) f t0 q0 tf qf tw qw h3 (by omega)
        (by omega)]
      simp [overwrite, cursorRange_zero]
  · refine ⟨triLeaves K points (f.length + 1) f, quadLeaves K points (f.length + 1) f,
      ?_, ?_, ?_⟩
    · intro t ht
      unfold triLeaves at ht
      obtain ⟨h1, h2⟩ := List.mem_filter.mp ht
      exact ⟨by simpa using h2, by simpa using h1⟩
    · intro t ht
      unfold quadLeaves at ht
      obtain ⟨h1, h2⟩ := List.mem_filter.mp ht
      exact ⟨by simpa using h2, by simpa using h1⟩
    · intro t0 q0 tf qf tw qw hr1 hr2
      rw [splitBodyTrace_quad K points (f.length + 1) f t0 q0 tf qf tw qw h3 (by omega)
        hr1 hr2]
      simp

theorem wr_below (l l1 : faceList) (c : Int) (v : face) (h : wr l c v = .ok l1) :
    l1.length = l.length ∧ ∀ i : Nat, (i : Int) < c → l1[i]? = l[i]? := by
  unfold wr at h
  split at h
  · rename_i hc
    injection h with h
    subst h
    refine ⟨List.length_set _ _ _, ?_⟩
    intro i hi
    rw [List.getElem?_set, if_neg (by omega)]
  · cases h

/-- A call of the body that returns, in any mode, moves no cursor backwards
and leaves every entry below the cursors as it was. -/
theorem splitBody_below (K : GeometryKernel P V S) (mode : splitMode) (points : P) :
    ∀ (fuel : Nat) (f : face) (st st1 : SplitState),
      splitBody K mode points fuel f st = .ok st1 →
      st.triI ≤ st1.triI ∧ st.quadI ≤ st1.quadI ∧
      (∀ i : Nat, (i : Int) < st.triI → st1.triFaces[i]? = st.triFaces[i]?) ∧
      (∀ i : Nat, (i : Int) < st.quadI → st1.quadFaces[i]? = st.quadFaces[i]?) := by
  intro fuel
  induction fuel with
  | zero =>
    intro f st st1 h
    simp [splitBody] at h
  | succ fuel ih =>
    intro f st st1 h
    by_cases c2 : f.length ≤ 2
    · rw [splitBody, if_pos c2] at h
      cases h
    · by_cases c3 : f.length = 3
      · rw [splitBody_three K mode points fuel f st c3] at h
        by_cases hm : mode = .COUNTTRIANGLE ∨ mode = .COUNTQUAD
        · rw [if_pos hm] at h
          injection h with h
          subst h
          exact ⟨by simp, le_refl _, fun _ _ => rfl, fun _ _ => rfl⟩
        · rw [if_neg hm] at h
          cases hw : wr st.triFaces st.triI f with
          | error e => rw [hw] at h; cases h
          | ok t =>
            rw [hw] at h
            injection h with h
            subst h
            exact ⟨by simp, le_refl _, (wr_below _ _ _ _ hw).2, fun _ _ => rfl⟩
      · by_cases c4 : f.length = 4
        · rw [splitBody_four K mode points fuel f st c4] at h
          cases mode
          · simp only [reduceCtorEq, if_false, if_true] at h
            cases hw : wr st.quadFaces st.quadI f with
            | error e => rw [hw] at h; cases h
            | ok t =>
              rw [hw] at h
              injection h with h
              subst h
              exact ⟨by simp, by simp, fun _ _ => rfl, (wr_below _ _ _ _ hw).2⟩
          · simp only [reduceCtorEq, if_false, if_true] at h
            injection h with h
            subst h
            exact ⟨le_refl _, by simp, fun _ _ => rfl, fun _ _ => rfl⟩
          · simp only [reduceCtorEq, if_false, if_true] at h
            cases hw : wr st.triFaces st.triI (quadTriangles K points f).head! with
            | error e => rw [hw] at h; cases h
            | ok t =>
              rw [hw] at h
              simp only at h
              cases hw2 : wr t (st.triI + 1) (quadTriangles K points f).tail.head! with
              | error e => rw [hw2] at h; cases h
              | ok t2 =>
                rw [hw2] at h
                injection h with h
                subst h
                refine ⟨by simp; omega, le_refl _, ?_, fun _ _ => rfl⟩
                intro i hi
                exact ((wr_below _ _ _ _ hw2).2 i (by omega)).trans
                  ((wr_below _ _ _ _ hw).2 i hi)
          · simp only [reduceCtorEq, if_false] at h
            cases hw : wr st.quadFaces st.quadI f with
            | error e => rw [hw] at h; cases h
            | ok t =>
              rw [hw] at h
              injection h with h
              subst h
              exact ⟨le_refl _, by simp, fun _ _ => rfl, (wr_below _ _ _ _ hw).2⟩
        · rw [splitBody_general K mode points fuel f st (by omega)] at h
          cases h1 : splitBody K mode points fuel (subFaces K points f).1 st with
          | error e => rw [h1] at h; cases h
          | ok s1 =>
            rw [h1] at h
            simp only at h
            obtain ⟨a1, a2, a3, a4⟩ := ih _ _ _ h1
            obtain ⟨b1, b2, b3, b4⟩ := ih _ _ _ h
            exact ⟨le_trans a1 b1, le_trans a2 b2,
              fun i hi => (b3 i (by omega)).trans (a3 i hi),
              fun i hi => (b4 i (by omega)).trans (a4 i hi)⟩

/-- A call of `split` that returns leaves every entry below the cursors as
it was. -/
theorem split_below (K : GeometryKernel P V S) (mode : splitMode) (points : P)
    (f : face) (st st1 : SplitState) (r : Int)
    (h : split K mode points f st = .ok (r, st1)) :
    (∀ i : Nat, (i : Int) < st.triI → st1.triFaces[i]? = st.triFaces[i]?) ∧
    (∀ i : Nat, (i : Int) < st.quadI → st1.quadFaces[i]? = st.quadFaces[i]?) := by
  unfold split at h
  cases h1 : splitBody K mode points (f.length + 1) f st with
  | error e => rw [h1] at h; cases h
  | ok s1 =>
    rw [h1] at h
    simp only [Except.ok.injEq, Prod.mk.injEq] at h
    obtain ⟨-, rfl⟩ := h
    exact (splitBody_below K mode points _ f st s1 h1).2.2

/-- Both generating modes, with room at the cursors: the faces `triOut` and
`quadOut` are written at consecutive positions from the cursors, once each. -/
theorem splitBodyTrace_out (K : GeometryKernel P V S) (mode : splitMode)
    (points : P) (f : face) (hm : mode = .SPLITTRIANGLE ∨ mode = .SPLITQUAD)
    (h3 : 3 ≤ f.length) :
    (triOut K mode points f).length + 2 * (quadOut K mode points f).length + 2
      = f.length ∧
    (∀ t ∈ triOut K mode points f, t.length = 3) ∧
    (∀ t ∈ quadOut K mode points f, t.length = 4) ∧
    ∀ (t0 q0 : Nat) (tf qf : faceList) (tw qw : List Int),
      t0 + (triOut K mode points f).length ≤ tf.length →
      q0 + (quadOut K mode points f).length ≤ qf.length →
      splitBodyTrace K mode points (f.length + 1) f
          { st := { triI := (t0 : Int), quadI := (q0 : Int),
                    triFaces := tf, quadFaces := qf },
            triWrites := tw, quadWrites := qw }
        = .ok { st := { triI := (t0 : Int) + (triOut K mode points f).length,
                        quadI := (q0 : Int) + (quadOut K mode points f).length,
                        triFaces := overwrite tf t0 (triOut K mode points f),
                        quadFaces := overwrite qf q0 (quadOut K mode points f) },
                triWrites := tw ++ cursorRange t0 (triOut K mode points f).length,
                quadWrites := qw ++ cursorRange q0 (quadOut K mode points f).length } := by
  have hT : ∀ t ∈ triOut K mode points f, t.length = 3 := by
    intro t ht
    unfold triOut at ht
    simpa using (List.mem_filter.mp ht).2
  have hQ : ∀ t ∈ quadOut K mode points f, t.length = 4 := by
    intro t ht
    unfold quadOut at ht
    simpa using (List.mem_filter.mp ht).2
  rcases hm with rfl | rfl
  · obtain ⟨hl, hmem⟩ := leaves_tri_spec K points (f.length + 1) f h3 (by omega)
    have e1 : triOut K .SPLITTRIANGLE points f = leaves K false points (f.length + 1) f := by
      unfold triOut
      simp only [reduceCtorEq, decide_False]
      rw [List.filter_eq_self]
      intro t ht
      simpa using (hmem t ht).1
    have e2 : quadOut K .SPLITTRIANGLE points f = [] := by
      unfold quadOut
      simp only [reduceCtorEq, decide_False]
      rw [List.filter_eq_nil_iff]
      intro t ht
      have := (hmem t ht).1
      simp only [decide_eq_true_eq]
      omega
    refine ⟨by rw [e1, e2]; simp only [List.length_nil]; omega, hT, hQ, ?_⟩
    · intro t0 q0 tf qf tw qw hr1 hr2
      rw [e1] at hr1 ⊢
      rw [e2]
      rw [splitBodyTrace_tri K points (f.length + 1) f t0 q0 tf qf tw qw h3 (by omega)
        (by omega)]
      simp [overwrite, cursorRange_zero]
  · have e1 : triOut K .SPLITQUAD points f = triLeaves K points (f.length + 1) f := by
      unfold triOut triLeaves
      simp
    have e2 : quadOut K .SPLITQUAD points f = quadLeaves K points (f.length + 1) f := by
      unfold quadOut quadLeaves
      simp
    refine ⟨?_, hT, hQ, ?_⟩
    · rw [e1, e2]
      exact leaves_quad_count K points (f.length + 1) f h3 (by omega)
    · intro t0 q0 tf qf tw qw hr1 hr2
      rw [e1] at hr1 ⊢
      rw [e2] at hr2 ⊢
      rw [splitBodyTrace_quad K points (f.length + 1) f t0 q0 tf qf tw qw h3 (by omega)
        hr1 hr2]
      simp

/-- C21: in a generating mode, for a face of `n ≥ 3` vertices, let `triOut`
and `quadOut` be the faces of 3 and of 4 vertices that the recursion
produces, `T` and `Q` their numbers (`T + 2 Q = n - 2`).  From any cursors
`t0`, `q0` with room for `T` and `Q` faces behind them, `split` returns
`T + Q` with the cursors at `t1 = t0 + T` and `q1 = q0 + Q`.  The final
triangle collection holds the `i`-th face of `triOut`, a face of 3 vertices,
at the position `t0 + i` for each `i < T`, the final quad collection the
`i`-th face of `quadOut`, a face of 4 vertices, at `q0 + i` for each `i < Q`.
The record of the assignments is `t0, t0+1, ..., t1-1` for the triangle
collection and `q0, ..., q1-1` for the quad collection, so each position of
`[t0, t1)` and `[q0, q1)` is written exactly once and no other position is
written.  The collections keep their sizes and every entry outside the two
ranges is as before; and a following call of `split` that returns, on any
face in any mode, from the cursors and collections so reached, leaves every
entry below `t1` and `q1` as the first call left it. -/
theorem split_frame (K : GeometryKernel P V S) (mode : splitMode) (points : P)
    (f : face) (hm : mode = .SPLITTRIANGLE ∨ mode = .SPLITQUAD) (h3 : 3 ≤ f.length) :
    ∃ T Q : Nat, T = (triOut K mode points f).length ∧
      Q = (quadOut K mode points f).length ∧ T + 2 * Q + 2 = f.length ∧
      (∀ t ∈ triOut K mode points f, t.length = 3) ∧
      (∀ t ∈ quadOut K mode points f, t.length = 4) ∧
      ∀ (t0 q0 : Nat) (tf qf : faceList),
      t0 + T ≤ tf.length → q0 + Q ≤ qf.length →
      ∃ tf1 qf1 : faceList,
        split K mode points f
            { triI := (t0 : Int), quadI := (q0 : Int), triFaces := tf, quadFaces := qf }
          = .ok ((T : Int) + Q,
              { triI := (t0 : Int) + T, quadI := (q0 : Int) + Q,
                triFaces := tf1, quadFaces := qf1 }) ∧
        splitBodyTrace K mode points (f.length + 1) f
            { st := { triI := (t0 : Int), quadI := (q0 : Int),
                      triFaces := tf, quadFaces := qf },
              triWrites := [], quadWrites := [] }
          = .ok { st := { triI := (t0 : Int) + T, quadI := (q0 : Int) + Q,
                          triFaces := tf1, quadFaces := qf1 },
                  triWrites := cursorRange t0 T, quadWrites := cursorRange q0 Q } ∧
        (∀ i : Nat, i < T → tf1[t0 + i]? = (triOut K mode points f)[i]?) ∧
        (∀ i : Nat, i < Q → qf1[q0 + i]? = (quadOut K mode points f)[i]?) ∧
        (∀ p : Int, (cursorRange t0 T).count p
          = if (t0 : Int) ≤ p ∧ p < (t0 : Int) + T then 1 else 0) ∧
        (∀ p : Int, (cursorRange q0 Q).count p
          = if (q0 : Int) ≤ p ∧ p < (q0 : Int) + Q then 1 else 0) ∧
        tf1.length = tf.length ∧ qf1.length = qf.length ∧
        (∀ i : Nat, (i < t0 ∨ t0 + T ≤ i) → tf1[i]? = tf[i]?) ∧
        (∀ i : Nat, (i < q0 ∨ q0 + Q ≤ i) → qf1[i]? = qf[i]?) ∧
        (∀ (mode2 : splitMode) (g : face) (r : Int) (st2 : SplitState),
          split K mode2 points g
              { triI := (t0 : Int) + T, quadI := (q0 : Int) + Q,
                triFaces := tf1, quadFaces := qf1 } = .ok (r, st2) →
          (∀ i : Nat, i < t0 + T → st2.triFaces[i]? = tf1[i]?) ∧
          (∀ i : Nat, i < q0 + Q → st2.quadFaces[i]? = qf1[i]?)) := by
  obtain ⟨hcount, hT, hQ, hrun⟩ := splitBodyTrace_out K mode points f hm h3
  refine ⟨_, _, rfl, rfl, hcount, hT, hQ, ?_⟩
  intro t0 q0 tf qf hr1 hr2
  have ht := hrun t0 q0 tf qf [] [] hr1 hr2
  rw [List.nil_append, List.nil_append] at ht
  refine ⟨overwrite tf t0 (triOut K mode points f),
    overwrite qf q0 (quadOut K mode points f), ?_, ht, ?_, ?_, cursorRange_count _ _,
    cursorRange_count _ _, overwrite_length _ _ _, overwrite_length _ _ _, ?_, ?_, ?_⟩
  · rw [split_of_trace K mode points f _ _ ht]
    simp only [Except.ok.injEq, Prod.mk.injEq, and_true]
    omega
  · intro i hi
    exact overwrite_at _ _ _ _ hr1 hi
  · intro i hi
    exact overwrite_at _ _ _ _ hr2 hi
  · intro i hi
    rw [overwrite_getElem? _ _ _ _ hr1, if_neg (by omega)]
  · intro i hi
    rw [overwrite_getElem? _ _ _ _ hr2, if_neg (by omega)]
  · intro mode2 g r st2 h2
    obtain ⟨b1, b2⟩ := split_below K mode2 points g _ st2 r h2
    exact ⟨fun i hi => b1 i (by simp only; omega), fun i hi => b2 i (by simp only; omega)⟩

/-- C21, at the heptagon `[0,1,2,3,4,5,6]` in the quad mode. -/
theorem split_frame_witness :
    ∃ T Q : Nat,
      T = (triOut tableKernel .SPLITQUAD [10, 20, 170, 40, 50, 60, 70]
        [0, 1, 2, 3, 4, 5, 6]).length ∧
      Q = (quadOut tableKernel .SPLITQUAD [10, 20, 170, 40, 50, 60, 70]
        [0, 1, 2, 3, 4, 5, 6]).length ∧
      T + 2 * Q + 2 = ([0, 1, 2, 3, 4, 5, 6] : face).length ∧
      (∀ t ∈ triOut tableKernel .SPLITQUAD [10, 20, 170, 40, 50, 60, 70]
        [0, 1, 2, 3, 4, 5, 6], t.length = 3) ∧
      (∀ t ∈ quadOut tableKernel .SPLITQUAD [10, 20, 170, 40, 50, 60, 70]
        [0, 1, 2, 3, 4, 5, 6], t.length = 4) ∧
      ∀ (t0 q0 : Nat) (tf qf : faceList),
      t0 + T ≤ tf.length → q0 + Q ≤ qf.length →
      ∃ tf1 qf1 : faceList,
        split tableKernel .SPLITQUAD [10, 20, 170, 40, 50, 60, 70] [0, 1, 2, 3, 4, 5, 6]
            { triI := (t0 : Int), quadI := (q0 : Int), triFaces := tf, quadFaces := qf }
          = .ok ((T : Int) + Q,
              { triI := (t0 : Int) + T, quadI := (q0 : Int) + Q,
                triFaces := tf1, quadFaces := qf1 }) ∧
        splitBodyTrace tableKernel .SPLITQUAD [10, 20, 170, 40, 50, 60, 70]
            (([0, 1, 2, 3, 4, 5, 6] : face).length + 1) [0, 1, 2, 3, 4, 5, 6]
            { st := { triI := (t0 : Int), quadI := (q0 : Int),
                      triFaces := tf, quadFaces := qf },
              triWrites := [], quadWrites := [] }
          = .ok { st := { triI := (t0 : Int) + T, quadI := (q0 : Int) + Q,
                          triFaces := tf1, quadFaces := qf1 },
                  triWrites := cursorRange t0 T, quadWrites := cursorRange q0 Q } ∧
        (∀ i : Nat, i < T → tf1[t0 + i]?
          = (triOut tableKernel .SPLITQUAD [10, 20, 170, 40, 50, 60, 70]
              [0, 1, 2, 3, 4, 5, 6])[i]?) ∧
        (∀ i : Nat, i < Q → qf1[q0 + i]?
          = (quadOut tableKernel .SPLITQUAD [10, 20, 170, 40, 50, 60, 70]
              [0, 1, 2, 3, 4, 5, 6])[i]?) ∧
        (∀ p : Int, (cursorRange t0 T).count p
          = if (t0 : Int) ≤ p ∧ p < (t0 : Int) + T then 1 else 0) ∧
        (∀ p : Int, (cursorRange q0 Q).count p
          = if (q0 : Int) ≤ p ∧ p < (q0 : Int) + Q then 1 else 0) ∧
        tf1.length = tf.length ∧ qf1.length = qf.length ∧
        (∀ i : Nat, (i < t0 ∨ t0 + T ≤ i) → tf1[i]? = tf[i]?) ∧
        (∀ i : Nat, (i < q0 ∨ q0 + Q ≤ i) → qf1[i]? = qf[i]?) ∧
        (∀ (mode2 : splitMode) (g : face) (r : Int) (st2 : SplitState),
          split tableKernel mode2 [10, 20, 170, 40, 50, 60, 70] g
              { triI := (t0 : Int) + T, quadI := (q0 : Int) + Q,
                triFaces := tf1, quadFaces := qf1 } = .ok (r, st2) →
          (∀ i : Nat, i < t0 + T → st2.triFaces[i]? = tf1[i]?) ∧
          (∀ i : Nat, i < q0 + Q → st2.quadFaces[i]? = qf1[i]?)) :=
  split_frame tableKernel .SPLITQUAD [10, 20, 170, 40, 50, 60, 70] [0, 1, 2, 3, 4, 5, 6]
    (Or.inr rfl) (by decide)

end SplitWrites

end Foam

/-! ## Splitting: the count of triangles and quads -/

namespace Foam

section SplitCount

variable {P V S : Type}

theorem triLeaves_length (K : GeometryKernel P V S) (points : P) (fuel : Nat) (f : face) :
    ∀ t ∈ triLeaves K points fuel f, t.length = 3 := by
  intro t ht
  unfold triLeaves at ht
  simpa using (List.mem_filter.mp ht).2

theorem quadLeaves_length (K : GeometryKernel P V S) (points : P) (fuel : Nat) (f : face) :
    ∀ t ∈ quadLeaves K points fuel f, t.length = 4 := by
  intro t ht
  unfold quadLeaves at ht
  simpa using (List.mem_filter.mp ht).2

/-- An entry of a collection overwritten at the positions from `c` on is one
of the faces written. -/
theorem overwrite_entry (out : List face) (l : faceList) (c i : Nat)
    (h : c + out.length ≤ l.length) (h1 : c ≤ i) (h2 : i < c + out.length) :
    ∃ t, (overwrite l c out)[i]? = some t ∧ t ∈ out := by
  rw [overwrite_getElem? out l c i h, if_pos ⟨h1, h2⟩]
  exact ⟨out[i - c], List.getElem?_eq_getElem (by omega), List.getElem_mem _⟩

/-- C22: for every face of `n ≥ 3` vertices, every kernel and point array,
there are numbers `T` and `Q` with `T + 2 Q = n - 2` such that the counting
quad mode adds `T` to the triangle counter and `Q` to the quad counter, and
the generating quad mode, with room for them, writes `T` faces of 3 vertices at
the triangle cursor and `Q` faces of 4 vertices at the quad cursor and
advances the cursors by `T` and `Q`; both return `T + Q`. -/
theorem split_quads_count (K : GeometryKernel P V S) (points : P) (f : face)
    (h3 : 3 ≤ f.length) :
    ∃ T Q : Nat, T + 2 * Q + 2 = f.length ∧
      (∀ st : SplitState, split K .COUNTQUAD points f st
        = .ok ((T : Int) + Q, { st with triI := st.triI + T, quadI := st.quadI + Q })) ∧
      (∀ (c q : Nat) (tf qf : faceList), c + T ≤ tf.length → q + Q ≤ qf.length →
        ∃ tf1 qf1, split K .SPLITQUAD points f
            { triI := (c : Int), quadI := (q : Int), triFaces := tf, quadFaces := qf }
          = .ok ((T : Int) + Q,
              { triI := (c : Int) + T, quadI := (q : Int) + Q,
                triFaces := tf1, quadFaces := qf1 }) ∧
          (∀ i, c ≤ i → i < c + T → ∃ t, tf1[i]? = some t ∧ t.length = 3) ∧
          (∀ i, q ≤ i → i < q + Q → ∃ t, qf1[i]? = some t ∧ t.length = 4)) := by
  refine ⟨(triLeaves K points (f.length + 1) f).length,
    (quadLeaves K points (f.length + 1) f).length,
    leaves_quad_count K points (f.length + 1) f h3 (by omega), ?_, ?_⟩
  · intro st
    obtain ⟨t, q, tf, qf⟩ := st
    unfold split
    rw [splitBody_countQuad K points (f.length + 1) f t q tf qf h3 (by omega)]
    simp only [Except.ok.injEq, Prod.mk.injEq, and_true]
    omega
  · intro c q tf qf hr1 hr2
    refine ⟨overwrite tf c (triLeaves K points (f.length + 1) f),
      overwrite qf q (quadLeaves K points (f.length + 1) f), ?_, ?_, ?_⟩
    · unfold split
      rw [splitBody_quad K points (f.length + 1) f c q tf qf h3 (by omega) hr1 hr2]
      simp only [Except.ok.injEq, Prod.mk.injEq, SplitState.mk.injEq, and_true, true_and]
      refine ⟨?_, ?_, ?_⟩ <;> push_cast <;> omega
    · intro i h1 h2
      obtain ⟨t, ht, hm⟩ := overwrite_entry _ tf c i hr1 h1 h2
      exact ⟨t, ht, triLeaves_length K points _ f t hm⟩
    · intro i h1 h2
      obtain ⟨t, ht, hm⟩ := overwrite_entry _ qf q i hr2 h1 h2
      exact ⟨t, ht, quadLeaves_length K points _ f t hm⟩

/-- C22, at the heptagon `[0,1,2,3,4,5,6]`. -/
theorem split_quads_count_witness :
    ∃ T Q : Nat, T + 2 * Q + 2 = ([0, 1, 2, 3, 4, 5, 6] : face).length ∧
      (∀ st : SplitState,
        split tableKernel .COUNTQUAD [10, 20, 170, 40, 50, 60, 70] [0, 1, 2, 3, 4, 5, 6] st
        = .ok ((T : Int) + Q, { st with triI := st.triI + T, quadI := st.quadI + Q })) ∧
      (∀ (c q : Nat) (tf qf : faceList), c + T ≤ tf.length → q + Q ≤ qf.length →
        ∃ tf1 qf1,
          split tableKernel .SPLITQUAD [10, 20, 170, 40, 50, 60, 70] [0, 1, 2, 3, 4, 5, 6]
            { triI := (c : Int), quadI := (q : Int), triFaces := tf, quadFaces := qf }
          = .ok ((T : Int) + Q,
              { triI := (c : Int) + T, quadI := (q : Int) + Q,
                triFaces := tf1, quadFaces := qf1 }) ∧
          (∀ i, c ≤ i → i < c + T → ∃ t, tf1[i]? = some t ∧ t.length = 3) ∧
          (∀ i, q ≤ i → i < q + Q → ∃ t, qf1[i]? = some t ∧ t.length = 4)) :=
  split_quads_count tableKernel [10, 20, 170, 40, 50, 60, 70] [0, 1, 2, 3, 4, 5, 6]
    (by decide)

end SplitCount

end Foam

/-! ## Splitting preserves the cyclic order -/

namespace Foam

theorem sublist_swap_append (h A B : face) (hs : List.Sublist h (A ++ B)) :
    ∃ k, List.Sublist (h.rotate k) (B ++ A) := by
  obtain ⟨h1, h2, rfl, s1, s2⟩ := List.sublist_append_iff.mp hs
  exact ⟨h1.length, by rw [List.rotate_append_length_eq]; exact s2.append s1⟩

theorem sublist_of_rotate (h g : face) (j : Nat) (hs : List.Sublist h (g.rotate j)) :
    ∃ k, List.Sublist (h.rotate k) g := by
  rw [List.rotate_eq_drop_append_take_mod] at hs
  obtain ⟨k, hk⟩ := sublist_swap_append _ _ _ hs
  exact ⟨k, by rwa [List.take_append_drop] at hk⟩

theorem sublist_to_rotate (h g : face) (j : Nat) (hs : List.Sublist h g) :
    ∃ k, List.Sublist (h.rotate k) (g.rotate j) := by
  rw [← List.take_append_drop (j % g.length) g] at hs
  obtain ⟨k, hk⟩ := sublist_swap_append _ _ _ hs
  exact ⟨k, by rw [List.rotate_eq_drop_append_take_mod (l := g)]; exact hk⟩

theorem cyclicSub_refl (f : face) : cyclicSub f f :=
  ⟨0, by rw [List.rotate_zero]⟩

theorem cyclicSub_trans {a b c : face} (h1 : cyclicSub a b) (h2 : cyclicSub b c) :
    cyclicSub a c := by
  obtain ⟨k, hk⟩ := h1
  obtain ⟨j, hj⟩ := h2
  obtain ⟨m, hm⟩ := sublist_to_rotate _ _ j hk
  exact ⟨k + m, by rw [← List.rotate_rotate]; exact hm.trans hj⟩

/-- A collected sub-face is a stretch of the face read from `index`. -/
theorem collect_eq_take_rotate (f : face) (cnt index : Nat) (hi : index < f.length)
    (hc : cnt ≤ f.length) :
    collect f cnt index = (f.rotate index).take cnt := by
  apply face_ext_at0
  · rw [collect_length, List.length_take, List.length_rotate]
    omega
  · intro j hj
    rw [collect_length] at hj
    rw [at0_take _ hj, at0_rotate _ _ _ (by omega), collect_eq_run f cnt index hi]
    rw [at0_eq_getElem _ (by simpa [circularRun] using hj)]
    simp [circularRun]

theorem collect_cyclic (f : face) (cnt index : Nat) (hi : index < f.length)
    (hc : cnt ≤ f.length) : cyclicSub (collect f cnt index) f := by
  rw [collect_eq_take_rotate f cnt index hi hc]
  exact sublist_of_rotate _ _ index (List.take_sublist _ _)

theorem fcIndex_four {s : Nat} (hs : s < 4) :
    fcIndex 4 (fcIndex 4 (fcIndex 4 (fcIndex 4 s))) = s := by
  interval_cases s <;> rfl

section SplitOrientation

variable {P V S : Type}

theorem quadTriangles_cyclic (K : GeometryKernel P V S) (points : P) (f : face)
    (h : f.length = 4) : ∀ t ∈ quadTriangles K points f, cyclicSub t f := by
  have hn : 0 < f.length := by omega
  have hs : (mostConcaveAngle K points f (calcEdges K points f)).1 < f.length := by
    have := mostConcaveAngle_lt K points f (calcEdges K points f)
      (by rw [calcEdges_length]; exact hn)
    rwa [calcEdges_length] at this
  intro t ht
  simp only [quadTriangles, List.mem_cons, List.mem_singleton, List.not_mem_nil,
    or_false] at ht
  rcases ht with rfl | rfl
  · exact collect_cyclic f 3 _ hs (by omega)
  · have e : at0 f (mostConcaveAngle K points f (calcEdges K points f)).1
        = at0 f (fcIndex f.length (fcIndex f.length (fcIndex f.length (fcIndex f.length
            (mostConcaveAngle K points f (calcEdges K points f)).1)))) := by
      rw [h, fcIndex_four (by omega)]
    rw [e]
    exact collect_cyclic f 3 _ (fcIndex_lt _ hn) (by omega)

/-- Every face produced by the recursion lists vertices of the face in the
cyclic order of the face. -/
theorem leaves_cyclic (K : GeometryKernel P V S) (quads : Bool) (points : P) :
    ∀ (fuel : Nat) (f : face), 3 ≤ f.length → f.length ≤ fuel + 2 →
      ∀ t ∈ leaves K quads points fuel f, cyclicSub t f := by
  intro fuel
  induction fuel with
  | zero => intro f h3 hf; omega
  | succ fuel ih =>
    intro f h3 hf t ht
    by_cases c3 : f.length = 3
    · rw [leaves_three K quads points fuel f c3, List.mem_singleton] at ht
      subst ht
      exact cyclicSub_refl _
    · by_cases c4 : f.length = 4
      · rw [leaves_four K quads points fuel f c4] at ht
        cases quads
        · simp only [Bool.false_eq_true, if_false] at ht
          exact quadTriangles_cyclic K points f c4 t ht
        · simp only [if_true, List.mem_singleton] at ht
          subst ht
          exact cyclicSub_refl _
      · rw [leaves_general K quads points fuel f (by omega)] at ht
        obtain ⟨a1, a2, b1, b2, hsum, -, -⟩ := subFaces_spec K points f (by omega)
        obtain ⟨hs, k, hk, hm⟩ := splitChord_spec K points f (by omega)
        have hm2 : (splitChord K points f).2 < f.length := by
          rw [hm]; exact Nat.mod_lt _ (by omega)
        have e1 : (subFaces K points f).1
            = collect f (subFaces K points f).1.length (splitChord K points f).1 := by
          simp only [subFaces, collect_length]
        have e2 : (subFaces K points f).2
            = collect f (subFaces K points f).2.length (splitChord K points f).2 := by
          simp only [subFaces, collect_length]
        have s1 : cyclicSub (subFaces K points f).1 f := by
          rw [e1]; exact collect_cyclic f _ _ hs (by omega)
        have s2 : cyclicSub (subFaces K points f).2 f := by
          rw [e2]; exact collect_cyclic f _ _ hm2 (by omega)
        rcases List.mem_append.mp ht with ht | ht
        · exact cyclicSub_trans (ih _ a1 (by omega) t ht) s1
        · exact cyclicSub_trans (ih _ b1 (by omega) t ht) s2

end SplitOrientation

/-- In a face of pairwise-distinct labels the positions of a subsequence are
strictly increasing. -/
theorem indexOf_sublist_pairwise (f t : face) (hd : f.Nodup) (hs : List.Sublist t f) :
    List.Pairwise (fun a b => a < b) (t.map (fun v => f.indexOf v)) := by
  have e : f.map (fun v => f.indexOf v) = List.range f.length := by
    apply List.ext_getElem (by simp)
    intro i h1 h2
    rw [List.getElem_map, List.getElem_range, List.indexOf_getElem hd]
  have h := hs.map (fun v => f.indexOf v)
  rw [e] at h
  exact List.Pairwise.sublist h (List.pairwise_lt_range _)

section SplitOrientationClaim

variable {P V S : Type}

/-- C23: for a face `f` of `n ≥ 3` pairwise-distinct labels, any point array
and either generating mode, with room at the cursors, `split` returns and
every face it has written (the triangles at `[t0, t0 + T)`, of 3 vertices,
and the quads at `[q0, q0 + Q)`, of 4 vertices) lists vertices of `f` in the
cyclic order of `f`: read from a suitable one of its vertices it is a
subsequence of `f`, and the positions in `f` of its vertices, read from
there, are strictly increasing. -/
theorem split_orientation (K : GeometryKernel P V S) (mode : splitMode) (points : P)
    (f : face) (hm : mode = .SPLITTRIANGLE ∨ mode = .SPLITQUAD) (h3 : 3 ≤ f.length)
    (hd : f.Nodup) :
    ∃ T Q : Nat, ∀ (t0 q0 : Nat) (tf qf : faceList),
      t0 + T ≤ tf.length → q0 + Q ≤ qf.length →
      ∃ (r : Int) (tf1 qf1 : faceList),
        split K mode points f
            { triI := (t0 : Int), quadI := (q0 : Int), triFaces := tf, quadFaces := qf }
          = .ok (r, { triI := (t0 : Int) + T, quadI := (q0 : Int) + Q,
                      triFaces := tf1, quadFaces := qf1 }) ∧
        (∀ i, t0 ≤ i → i < t0 + T → ∃ (t : face) (k : Nat),
          tf1[i]? = some t ∧ t.length = 3 ∧ List.Sublist (t.rotate k) f ∧
          List.Pairwise (fun a b => a < b) ((t.rotate k).map (fun v => f.indexOf v))) ∧
        (∀ i, q0 ≤ i → i < q0 + Q → ∃ (t : face) (k : Nat),
          qf1[i]? = some t ∧ t.length = 4 ∧ List.Sublist (t.rotate k) f ∧
          List.Pairwise (fun a b => a < b) ((t.rotate k).map (fun v => f.indexOf v))) := by
  obtain ⟨TL, QL, hT, hQ, hrun⟩ := splitBodyTrace_generating K mode points f hm h3
  refine ⟨TL.length, QL.length, ?_⟩
  intro t0 q0 tf qf hr1 hr2
  have ht := hrun t0 q0 tf qf [] [] hr1 hr2
  refine ⟨_, overwrite tf t0 TL, overwrite qf q0 QL,
    split_of_trace K mode points f _ _ ht, ?_, ?_⟩
  · intro i h1 h2
    obtain ⟨t, e, hmem⟩ := overwrite_entry TL tf t0 i hr1 h1 h2
    obtain ⟨k, hk⟩ := leaves_cyclic K _ points (f.length + 1) f h3 (by omega) t
      (hT t hmem).2
    exact ⟨t, k, e, (hT t hmem).1, hk, indexOf_sublist_pairwise f _ hd hk⟩
  · intro i h1 h2
    obtain ⟨t, e, hmem⟩ := overwrite_entry QL qf q0 i hr2 h1 h2
    obtain ⟨k, hk⟩ := leaves_cyclic K _ points (f.length + 1) f h3 (by omega) t
      (hQ t hmem).2
    exact ⟨t, k, e, (hQ t hmem).1, hk, indexOf_sublist_pairwise f _ hd hk⟩

/-- C23, at the heptagon `[0,1,2,3,4,5,6]` in the quad mode. -/
theorem split_orientation_witness :
    ∃ T Q : Nat, ∀ (t0 q0 : Nat) (tf qf : faceList),
      t0 + T ≤ tf.length → q0 + Q ≤ qf.length →
      ∃ (r : Int) (tf1 qf1 : faceList),
        split tableKernel .SPLITQUAD [10, 20, 170, 40, 50, 60, 70] [0, 1, 2, 3, 4, 5, 6]
            { triI := (t0 : Int), quadI := (q0 : Int), triFaces := tf, quadFaces := qf }
          = .ok (r, { triI := (t0 : Int) + T, quadI := (q0 : Int) + Q,
                      triFaces := tf1, quadFaces := qf1 }) ∧
        (∀ i, t0 ≤ i → i < t0 + T → ∃ (t : face) (k : Nat),
          tf1[i]? = some t ∧ t.length = 3 ∧
          List.Sublist (t.rotate k) [0, 1, 2, 3, 4, 5, 6] ∧
          List.Pairwise (fun a b => a < b)
            ((t.rotate k).map (fun v => ([0, 1, 2, 3, 4, 5, 6] : face).indexOf v))) ∧
        (∀ i, q0 ≤ i → i < q0 + Q → ∃ (t : face) (k : Nat),
          qf1[i]? = some t ∧ t.length = 4 ∧
          List.Sublist (t.rotate k) [0, 1, 2, 3, 4, 5, 6] ∧
          List.Pairwise (fun a b => a < b)
            ((t.rotate k).map (fun v => ([0, 1, 2, 3, 4, 5, 6] : face).indexOf v))) :=
  split_orientation tableKernel .SPLITQUAD [10, 20, 170, 40, 50, 60, 70]
    [0, 1, 2, 3, 4, 5, 6] (Or.inr rfl) (by decide) (by decide)

end SplitOrientationClaim

end Foam

/-! ## Collapsed faces are not degenerate -/

namespace Foam

theorem runHeadsFrom_eq_nil : ∀ (l : face) (prev : label),
    (∀ y, y ∈ l → y = prev) → runHeadsFrom prev l = [] := by
  intro l
  induction l with
  | nil => intro _ _; rfl
  | cons z rest ih =>
    intro prev h
    unfold runHeadsFrom
    rw [if_pos (h z (List.mem_cons_self _ _))]
    exact ih prev (fun y hy => h y (List.mem_cons_of_mem _ hy))

/-- The face that `collapse` leaves of a face of more than one vertex: its
size, its neighbours and its ends. -/
theorem collapse_cyclic (f : face) (h : 1 < f.length) :
    (collapse f).1 = ((collapse f).2.length : Int) ∧
    (∀ i, i + 1 < (collapse f).2.length →
      at0 (collapse f).2 i ≠ at0 (collapse f).2 (i + 1)) ∧
    (0 < (collapse f).2.length →
      at0 (collapse f).2 ((collapse f).2.length - 1) ≠ at0 (collapse f).2 0) ∧
    (collapse f).2.length ≠ 1 ∧
    ((collapse f).2.length = 0 ↔ ∀ i, i < f.length → at0 f i = at0 f 0) := by
  rw [collapse_eq_spec f h]
  simp only [true_and]
  cases f with
  | nil => simp at h
  | cons x rest =>
    have hk : keepRunHeads (x :: rest) = x :: runHeadsFrom x rest := rfl
    rw [hk]
    by_cases hall : ∀ y, y ∈ rest → y = x
    · rw [runHeadsFrom_eq_nil rest x hall]
      have hd : dropLastIfFirst [x] = [] := by simp [dropLastIfFirst]
      rw [hd]
      refine ⟨fun i hi => by simp at hi, fun hi => by simp at hi, by simp, ?_⟩
      simp only [List.length_nil, true_iff]
      intro i hi
      cases i with
      | zero => rfl
      | succ i =>
        rw [at0_cons_succ]
        simp only [List.length_cons] at hi
        exact hall _ (at0_mem rest (by omega))
    · have hex : ∃ y, y ∈ rest ∧ y ≠ x := by
        by_contra hc
        apply hall
        intro y hy
        by_contra hne
        exact hc ⟨y, hy, hne⟩
      obtain ⟨a1, a2⟩ := runHeadsFrom_adjacent rest x
      have hpos : 0 < (runHeadsFrom x rest).length := runHeadsFrom_ne_nil rest x hex
      have hnotall : ¬ ∀ i, i < (x :: rest).length → at0 (x :: rest) i = at0 (x :: rest) 0 := by
        intro hc
        obtain ⟨y, hy, hne⟩ := hex
        obtain ⟨j, hj, rfl⟩ := List.getElem_of_mem hy
        have := hc (j + 1) (by simp; omega)
        rw [at0_cons_succ, at0_eq_getElem rest hj] at this
        exact hne this
      generalize hr : runHeadsFrom x rest = r at a1 a2 hpos
      have hadj : ∀ i, i + 1 < (x :: r).length → at0 (x :: r) i ≠ at0 (x :: r) (i + 1) := by
        intro i hi
        simp only [List.length_cons] at hi
        cases i with
        | zero =>
          rw [at0_cons_succ]
          exact fun h => a1 hpos h.symm
        | succ i =>
          rw [at0_cons_succ, at0_cons_succ]
          exact a2 i (by omega)
      have hx0 : at0 (x :: r) 0 = x := rfl
      have hlast : (x :: r).getLast? = some (at0 (x :: r) r.length) := by
        rw [List.getLast?_eq_getElem?]
        simp only [List.length_cons, Nat.add_sub_cancel]
        rw [List.getElem?_eq_getElem (by simp), at0_eq_getElem _ (by simp)]
      have hd : dropLastIfFirst (x :: r)
          = if at0 (x :: r) r.length = x then (x :: r).dropLast else x :: r := by
        unfold dropLastIfFirst
        rw [hlast]
        rfl
      rw [hd]
      by_cases he : at0 (x :: r) r.length = x
      · rw [if_pos he, List.dropLast_eq_take]
        simp only [List.length_cons, Nat.add_sub_cancel]
        have h01 := hadj 0 (by simp; omega)
        have hlen3 : 2 ≤ r.length := by
          rcases Nat.lt_or_ge r.length 2 with h | h
          · have : r.length = 1 := by omega
            rw [this] at he
            rw [hx0] at h01
            exact absurd he.symm h01
          · exact h
        have hl : (List.take r.length (x :: r)).length = r.length := by
          rw [List.length_take]; simp
        rw [hl]
        refine ⟨?_, ?_, by omega, ?_⟩
        · intro i hi
          rw [at0_take _ (by omega), at0_take _ (by omega)]
          exact hadj i (by simp; omega)
        · intro _
          rw [at0_take _ (by omega), at0_take _ (by omega), hx0]
          have := hadj (r.length - 1) (by simp; omega)
          rw [show r.length - 1 + 1 = r.length by omega, he] at this
          exact this
        · constructor
          · intro h0; omega
          · intro hc; exact absurd hc hnotall
      · rw [if_neg he]
        simp only [List.length_cons, Nat.add_sub_cancel]
        refine ⟨?_, ?_, by omega, ?_⟩
        · intro i hi
          exact hadj i (by simp; omega)
        · intro _
          rw [hx0]; exact he
        · constructor
          · intro h0; omega
          · intro hc; exact absurd hc hnotall

theorem compareBody_unfold (fuel : Nat) (a b : face) :
    compareBody (fuel + 1) a b =
      if a.length ≠ b.length then .ok 0
      else
        match rd a 0 with
        | .error e => .error e
        | .ok firstA =>
          if findFirst firstA b 0 < 0 then .ok 0
          else
            match rd a 1 with
            | .error e => .error e
            | .ok secondA =>
              match degenerate a firstA secondA with
              | .error e => .error e
              | .ok true => compareBody fuel (collapse a).2 (collapse b).2
              | .ok false => compareDirection a b secondA (findFirst firstA b 0) := by
  rw [compareBody]

theorem rd_ne_outOfFuel (f : face) (i : Int) : rd f i ≠ .error .outOfFuel := by
  unfold rd
  split
  · split <;> simp
  · simp

theorem rd_error (f : face) (i : Int) (e : Err) (h : rd f i = .error e) :
    e = .outOfRange := by
  unfold rd at h
  split at h
  · split at h
    · simp at h
    · simpa using h.symm
  · simpa using h.symm

theorem walkUp_error (a b : face) : ∀ (cnt : Nat) (A B : Int) (e : Err),
    walkUp a b cnt A B = .error e → e = .outOfRange := by
  intro cnt
  induction cnt with
  | zero => intro A B e h; simp [walkUp] at h
  | succ cnt ih =>
    intro A B e h
    unfold walkUp at h
    simp only at h
    split at h
    · rename_i e1 h1
      have := rd_error _ _ _ h1
      simp only [Except.error.injEq] at h
      rw [← h]; exact this
    · split at h
      · rename_i e1 h1
        have := rd_error _ _ _ h1
        simp only [Except.error.injEq] at h
        rw [← h]; exact this
      · split at h
        · simp at h
        · exact ih _ _ _ h

theorem walkDown_error (a b : face) : ∀ (cnt : Nat) (A B : Int) (e : Err),
    walkDown a b cnt A B = .error e → e = .outOfRange := by
  intro cnt
  induction cnt with
  | zero => intro A B e h; simp [walkDown] at h
  | succ cnt ih =>
    intro A B e h
    unfold walkDown at h
    simp only at h
    split at h
    · rename_i e1 h1
      have := rd_error _ _ _ h1
      simp only [Except.error.injEq] at h
      rw [← h]; exact this
    · split at h
      · rename_i e1 h1
        have := rd_error _ _ _ h1
        simp only [Except.error.injEq] at h
        rw [← h]; exact this
      · split at h
        · simp at h
        · exact ih _ _ _ h

theorem compareDirection_error (a b : face) (secondA : label) (Bptr : Int) (e : Err)
    (h : compareDirection a b secondA Bptr = .error e) : e = .outOfRange := by
  unfold compareDirection at h
  simp only at h
  split at h
  · rename_i e1 h1
    have := rd_error _ _ _ h1
    simp only [Except.error.injEq] at h
    rw [← h]; exact this
  · split at h
    · split at h
      · rename_i e1 h1
        have := walkUp_error _ _ _ _ _ _ h1
        simp only [Except.error.injEq] at h
        rw [← h]; exact this
      · split at h <;> simp at h
    · split at h
      · rename_i e1 h1
        have := rd_error _ _ _ h1
        simp only [Except.error.injEq] at h
        rw [← h]; exact this
      · split at h
        · split at h
          · rename_i e1 h1
            have := walkDown_error _ _ _ _ _ _ h1
            simp only [Except.error.injEq] at h
            rw [← h]; exact this
          · split at h <;> simp at h
        · simp at h

theorem degenerate_error (a : face) (x y : label) (e : Err)
    (h : degenerate a x y = .error e) : e = .outOfRange := by
  unfold degenerate at h
  split at h
  · split at h
    · simp at h
    · split at h
      · rename_i e1 h1
        have := rd_error _ _ _ h1
        simp only [Except.error.injEq] at h
        rw [← h]; exact this
      · simp at h
  · simp at h

theorem degenerate_true_length (a : face) (x y : label)
    (h : degenerate a x y = .ok true) : 1 < a.length := by
  unfold degenerate at h
  split at h
  · assumption
  · simp at h

end Foam

namespace Foam

/-- On a face that is empty, or has at least 2 vertices with the first label
different from the second and from the last, `compare` does not call itself:
every depth gives the result of depth 1, and that result is not an exhausted
depth. -/
theorem compareBody_flat (a b : face)
    (hnd : a.length = 0 ∨
      (2 ≤ a.length ∧ at0 a 1 ≠ at0 a 0 ∧ at0 a 0 ≠ at0 a (a.length - 1)))
    (fuel : Nat) :
    compareBody (fuel + 1) a b = compareBody 1 a b ∧
    compareBody (fuel + 1) a b ≠ .error .outOfFuel := by
  by_cases hl : a.length ≠ b.length
  · rw [compareBody_unfold fuel, compareBody_unfold 0]
    simp only [if_pos hl]
    simp
  · have hl' : b.length = a.length := by
      by_contra hc
      exact hl (fun e => hc e.symm)
    rcases hnd with h0 | ⟨h2, hd1, hd2⟩
    · have ha : a = [] := List.length_eq_zero.mp h0
      subst ha
      rw [compareBody_unfold fuel, compareBody_unfold 0]
      simp only [if_neg hl, rd_nil]
      simp
    · rw [compareBody_nondegenerate a b a.length rfl hl' h2 hd1 hd2 fuel,
        compareBody_nondegenerate a b a.length rfl hl' h2 hd1 hd2 0]
      refine ⟨rfl, ?_⟩
      split
      · intro hc
        have := compareDirection_error _ _ _ _ _ hc
        simp at this
      · simp

/-- The body of `compare` calls itself at most once: depth 2 gives the result
of every larger depth, and it is not an exhausted depth. -/
theorem compareBody_depth (a b : face) (fuel : Nat) :
    compareBody (fuel + 2) a b = compareBody 2 a b ∧
    compareBody (fuel + 2) a b ≠ .error .outOfFuel := by
  rw [compareBody_unfold (fuel + 1), compareBody_unfold 1]
  by_cases hl : a.length ≠ b.length
  · simp only [if_pos hl]; simp
  · simp only [if_neg hl]
    cases h0 : rd a 0 with
    | error e =>
      have := rd_error _ _ _ h0
      subst this
      simp
    | ok firstA =>
      simp only
      by_cases hB : findFirst firstA b 0 < 0
      · simp only [if_pos hB]; simp
      · simp only [if_neg hB]
        cases h1 : rd a 1 with
        | error e =>
          have := rd_error _ _ _ h1
          subst this
          simp
        | ok secondA =>
          simp only
          cases hd : degenerate a firstA secondA with
          | error e =>
            have := degenerate_error _ _ _ _ hd
            subst this
            simp
          | ok t =>
            cases t with
            | false =>
              simp only
              refine ⟨trivial, ?_⟩
              intro hc
              have := compareDirection_error _ _ _ _ _ hc
              simp at this
            | true =>
              simp only
              have hlen := degenerate_true_length _ _ _ hd
              obtain ⟨-, c1, c2, c3, -⟩ := collapse_cyclic a hlen
              have hnd : (collapse a).2.length = 0 ∨
                  (2 ≤ (collapse a).2.length ∧
                    at0 (collapse a).2 1 ≠ at0 (collapse a).2 0 ∧
                    at0 (collapse a).2 0
                      ≠ at0 (collapse a).2 ((collapse a).2.length - 1)) := by
                rcases Nat.eq_zero_or_pos (collapse a).2.length with hz | hp
                · exact Or.inl hz
                · right
                  refine ⟨by omega, fun e => c1 0 (by omega) e.symm, fun e => c2 hp e.symm⟩
              exact compareBody_flat _ _ hnd fuel

theorem compare_depth (a b : face) :
    (∀ fuel, 2 ≤ fuel → compareBody fuel a b = compare a b) ∧
    compare a b ≠ .error .outOfFuel := by
  have key : compare a b = compareBody 2 a b ∧ compare a b ≠ .error .outOfFuel := by
    unfold compare
    rcases Nat.eq_zero_or_pos a.length with hz | hp
    · rw [hz]
      have := compareBody_flat a b (Or.inl hz) 1
      exact ⟨this.1.symm, by rw [← this.1]; exact this.2⟩
    · obtain ⟨m, hm⟩ : ∃ m, a.length + 1 = m + 2 := ⟨a.length - 1, by omega⟩
      rw [hm]
      exact compareBody_depth a b m
  refine ⟨?_, key.2⟩
  intro fuel hf
  obtain ⟨m, rfl⟩ : ∃ m, fuel = m + 2 := ⟨fuel - 2, by omega⟩
  rw [key.1]
  exact (compareBody_depth a b m).1

/-- C24: for every face `f` of more than one vertex, after `collapse()` no
vertex of the result equals its cyclic successor (the successor of the last
being the first).  The returned size is the size of the result; it is never
1, and it is 0 exactly when all vertices of `f` are equal.  On a collapsed
face of size at least 2 the degenerate test of `compare` is false, and
`compare` does not call itself on a collapsed face.  So `compare` calls
itself at most once: for all faces `a` and `b`, every depth of at least 2
gives its body the result of `compare(a, b)`, which is never an exhausted
depth. -/
theorem collapse_not_degenerate (f : face) (h : 1 < f.length) :
    (∀ i, i < (collapse f).2.length →
      at0 (collapse f).2 i ≠ at0 (collapse f).2 ((i + 1) % (collapse f).2.length)) ∧
    (collapse f).1 = ((collapse f).2.length : Int) ∧
    (collapse f).1 ≠ 1 ∧
    ((collapse f).1 = 0 ↔ ∀ i, i < f.length → at0 f i = at0 f 0) ∧
    (2 ≤ (collapse f).2.length →
      degenerate (collapse f).2 (at0 (collapse f).2 0) (at0 (collapse f).2 1)
        = .ok false) ∧
    (∀ (b : face) (fuel : Nat),
      compareBody (fuel + 1) (collapse f).2 b = compareBody 1 (collapse f).2 b) ∧
    (∀ (a b : face),
      (∀ fuel, 2 ≤ fuel → compareBody fuel a b = compare a b) ∧
      compare a b ≠ .error .outOfFuel) := by
  obtain ⟨c0, c1, c2, c3, c4⟩ := collapse_cyclic f h
  have hnd : (collapse f).2.length = 0 ∨
      (2 ≤ (collapse f).2.length ∧
        at0 (collapse f).2 1 ≠ at0 (collapse f).2 0 ∧
        at0 (collapse f).2 0 ≠ at0 (collapse f).2 ((collapse f).2.length - 1)) := by
    rcases Nat.eq_zero_or_pos (collapse f).2.length with hz | hp
    · exact Or.inl hz
    · right
      exact ⟨by omega, fun e => c1 0 (by omega) e.symm, fun e => c2 hp e.symm⟩
  refine ⟨?_, c0, ?_, ?_, ?_, ?_, compare_depth⟩
  · intro i hi
    rw [mod_two_cases (by omega)]
    by_cases hlast : i + 1 < (collapse f).2.length
    · rw [if_pos hlast]
      exact c1 i hlast
    · rw [if_neg hlast]
      have e1 : i + 1 - (collapse f).2.length = 0 := by omega
      have e2 : i = (collapse f).2.length - 1 := by omega
      rw [e1, e2]
      exact c2 (by omega)
  · rw [c0]
    intro hc
    exact c3 (by exact_mod_cast hc)
  · rw [c0, ← c4]
    constructor
    · intro hc; exact_mod_cast hc
    · intro hc; exact_mod_cast hc
  · intro h2
    rcases hnd with hz | ⟨-, hd1, hd2⟩
    · omega
    · exact degenerate_false _ _ rfl h2 hd1 hd2
  · intro b fuel
    exact (compareBody_flat _ b hnd fuel).1

/-- C24, at the face `[1,2,1,1]`, which collapses to `[1,2]`. -/
theorem collapse_not_degenerate_witness :
    (collapse [1, 2, 1, 1]).2 = [1, 2] ∧
    degenerate (collapse [1, 2, 1, 1]).2 (at0 (collapse [1, 2, 1, 1]).2 0)
      (at0 (collapse [1, 2, 1, 1]).2 1) = .ok false :=
  ⟨by decide,
    (collapse_not_degenerate [1, 2, 1, 1] (by decide)).2.2.2.2.1 (by decide)⟩

end Foam
